import Mathlib

set_option maxRecDepth 10000
set_option maxHeartbeats 1000000

/-!
# Verification of the ProjMgtAI scope-extraction pipeline

A shallow embedding of the deterministic parts of the millwork scope
extractor: the TOON tabular codec (`src/lib/toon.ts`), the output
sanitizer and row cleanup (`src/pages/api/scope-extractor-v14.ts`), the
dimension scanner (`src/lib/parser/preprocess.ts`), the row postprocessor
(`src/lib/parser/postprocess.ts`), page parsing and room grouping.

Strings are modelled as `List Char`.  JavaScript numbers are modelled as
exact rationals (`ℚ`); the numeric strings handled by the pipeline are
small integer or short decimal numerals, where JS float64 arithmetic and
exact rational arithmetic agree on every comparison performed here.
-/

/-- The ASCII whitespace characters recognised by the JS `trim`/`\s`
used in this code base (the inputs are ASCII OCR text). -/
def isWsChar (c : Char) : Bool :=
  c = ' ' || c = '\t' || c = '\n' || c = '\r' || c = Char.ofNat 11 || c = Char.ofNat 12

def isDigitChar (c : Char) : Bool :=
  '0' ≤ c && c ≤ '9'

/-- JS `\w` word characters (ASCII letters, digits, underscore). -/
def isWordChar (c : Char) : Bool :=
  c.isAlphanum || c = '_'

/-- The straight apostrophe character. -/
def aposC : Char := Char.ofNat 39

/-- The curly (typographic) apostrophe character. -/
def curlyApos : Char := Char.ofNat 8217

/-- The curly left single quote character. -/
def curlyAposL : Char := Char.ofNat 8216

def lowL (s : List Char) : List Char := s.map Char.toLower

/-- `startsWithL p s`: the character list `p` is a prefix of `s`. -/
def startsWithL : List Char → List Char → Bool
  | [], _ => true
  | _ :: _, [] => false
  | p :: ps, c :: cs => p = c && startsWithL ps cs

/-- Case-insensitive prefix test. -/
def startsWithCI (p s : List Char) : Bool := startsWithL (lowL p) (lowL s)

/-- `anySuffix p s`: `p` holds of some suffix of `s` (including `s` itself
and the empty suffix). -/
def anySuffix (p : List Char → Bool) : List Char → Bool
  | [] => p []
  | c :: cs => p (c :: cs) || anySuffix p cs

/-- Substring occurrence: `p` occurs contiguously in `s`
(JS `String.includes`). -/
def hasSub (p s : List Char) : Bool := anySuffix (startsWithL p) s

/-- Split on a single character, keeping empty segments
(JS `String.split` with a one-character separator). -/
def splitOnC (sep : Char) : List Char → List (List Char)
  | [] => [[]]
  | c :: cs =>
    if c = sep then [] :: splitOnC sep cs
    else
      match splitOnC sep cs with
      | [] => [[c]]
      | h :: t => (c :: h) :: t

/-- Join with a (possibly multi-character) separator
(JS `Array.join`). -/
def interL (sep : List Char) : List (List Char) → List Char
  | [] => []
  | [l] => l
  | l :: ls => l ++ sep ++ interL sep ls

def trimLeadL (s : List Char) : List Char := s.dropWhile isWsChar

def trimTrailL (s : List Char) : List Char := (s.reverse.dropWhile isWsChar).reverse

/-- JS `String.trim` (over the ASCII whitespace set). -/
def trimL (s : List Char) : List Char := trimTrailL (trimLeadL s)

def digitVal (c : Char) : Nat := c.toNat - 48

/-- Numeric value of a digit string. -/
def natOfDigits (s : List Char) : Nat := s.foldl (fun a c => a * 10 + digitVal c) 0

/-- JS `parseInt` on a string: leading whitespace, optional sign,
then a maximal run of digits; `none` models `NaN`. -/
def jsParseIntL (s : List Char) : Option Int :=
  let s1 := s.dropWhile isWsChar
  let signAndRest : Int × List Char :=
    match s1 with
    | '-' :: t => (-1, t)
    | '+' :: t => (1, t)
    | _ => (1, s1)
  let ds := signAndRest.2.takeWhile isDigitChar
  if ds.isEmpty then none else some (signAndRest.1 * (natOfDigits ds : Int))

/-- JS `parseFloat` on a string restricted to the plain decimal numerals
occurring in this pipeline: leading whitespace, optional sign, then a
maximal `digits[.digits]` prefix; `none` models `NaN`. -/
def jsParseFloatQ (s : List Char) : Option ℚ :=
  let s1 := s.dropWhile isWsChar
  let signAndRest : ℚ × List Char :=
    match s1 with
    | '-' :: t => (-1, t)
    | '+' :: t => (1, t)
    | _ => (1, s1)
  let ds := signAndRest.2.takeWhile isDigitChar
  let rest := signAndRest.2.drop ds.length
  match rest with
  | '.' :: fr =>
    let fs := fr.takeWhile isDigitChar
    if ds.isEmpty && fs.isEmpty then none
    else some (signAndRest.1 * ((natOfDigits ds : ℚ) + (natOfDigits fs : ℚ) / (10 ^ fs.length)))
  | _ => if ds.isEmpty then none else some (signAndRest.1 * (natOfDigits ds : ℚ))

/-- JS `Number(s)` for a string, restricted to the plain decimal numerals
occurring in this pipeline: a trimmed empty string is `0`, an optionally
signed decimal numeral is its value, anything else is `none` (`NaN`). -/
def jsNumberQ (s : List Char) : Option ℚ :=
  let t := trimL s
  if t.isEmpty then some 0
  else
    let signAndRest : ℚ × List Char :=
      match t with
      | '-' :: r => (-1, r)
      | '+' :: r => (1, r)
      | _ => (1, t)
    let ds := signAndRest.2.takeWhile isDigitChar
    let rest := signAndRest.2.drop ds.length
    match rest with
    | [] => if ds.isEmpty then none else some (signAndRest.1 * (natOfDigits ds : ℚ))
    | '.' :: fr =>
      let fs := fr.takeWhile isDigitChar
      if ¬ (fr.drop fs.length).isEmpty then none
      else if ds.isEmpty && fs.isEmpty then none
      else some (signAndRest.1 * ((natOfDigits ds : ℚ) + (natOfDigits fs : ℚ) / (10 ^ fs.length)))
    | _ => none

/-- JS `Math.round`: round half toward positive infinity. -/
def jsRound (q : ℚ) : ℤ := ⌊q + 1/2⌋

/-- First index (if any) at which the suffix-predicate `hit` fires. -/
def firstHitIdx (hit : List Char → Bool) : List Char → Option Nat
  | [] => none
  | c :: cs => if hit (c :: cs) then some 0 else (firstHitIdx hit cs).map (· + 1)

/-- JS `String.replace(pat, "")` for a pattern of the shape `⟨occ⟩.*` /
`⟨occ⟩.*$`: deleting from the first occurrence to the end of the string. -/
def stripFromFirst (hit : List Char → Bool) (s : List Char) : List Char :=
  match firstHitIdx hit s with
  | none => s
  | some i => s.take i

/-! ## TOON codec (`src/lib/toon.ts`) -/

def sepChar : Char := ';'

/-- Condition under which `escapeField` quotes
(field contains separator, newline, CR, quote, or leads with `#`). -/
def needsQuote (s : List Char) : Bool :=
  s.contains sepChar || s.contains '\n' || s.contains '\r' || s.contains '"' ||
    startsWithL ['#'] s

/-- `s.replace(/"/g, '""')`. -/
def doubleQuotes : List Char → List Char
  | [] => []
  | c :: t => if c = '"' then '"' :: '"' :: doubleQuotes t else c :: doubleQuotes t

/-- `escapeField` of `toon.ts` (with the default separator `;`).
`null`/`undefined` inputs are already rendered as `""` by the caller
model, so the argument is the string form of the field. -/
def escapeField (s : List Char) : List Char :=
  if needsQuote s then '"' :: (doubleQuotes s ++ ['"']) else s

/-- `s.replace(/""/g, '"')`. -/
def undoubleQuotes : List Char → List Char
  | [] => []
  | [c] => [c]
  | c :: d :: t =>
    if c = '"' && d = '"' then '"' :: undoubleQuotes t else c :: undoubleQuotes (d :: t)

/-- `unescapeField` of `toon.ts`. -/
def unescapeField (s : List Char) : List Char :=
  match s with
  | [] => []
  | c :: cs =>
    if c = '"' && (c :: cs).getLast? = some '"' then undoubleQuotes cs.dropLast
    else c :: cs

/-- The fixed text before the column list in a TOON header with the
default separator. -/
def headerPrefixL : List Char := "#TOON v=1 sep=; cols=".data

/-- The header line written by `encodeToon` for a schema
(default separator `;`). -/
def mkHeader (schema : List (List Char)) : List Char :=
  headerPrefixL ++ interL [','] schema

/-- One encoded data line.  A row is modelled positionally: entry `j` is
the string value of the row at the `j`-th schema column (a missing key
renders as the empty string, like `String(undefined → "")` guarded by the
`null/undefined` check in `escapeField`). -/
def encodeRow (schema : List (List Char)) (r : List (List Char)) : List Char :=
  interL [';'] ((List.range schema.length).map fun j => escapeField (r.getD j []))

/-- `encodeToon` of `toon.ts` with the default separator. -/
def encodeToon (rows : List (List (List Char))) (schema : List (List Char)) : List Char :=
  mkHeader schema ++ '\n' :: interL ['\n'] (rows.map (encodeRow schema))

/-- `toon.replace(/\r/g, "")`. -/
def removeCR (s : List Char) : List Char := s.filter (fun c => c ≠ '\r')

/-- Leftmost match of the regex `key([^\s]+)` (as used for
`cols=` / `sep=` in `decodeToon`): find the first occurrence of `key`
followed by at least one non-whitespace character and return the maximal
non-whitespace run after it. -/
def findParamAux (key : List Char) : List Char → Option (List Char)
  | [] => none
  | c :: cs =>
    if startsWithL key (c :: cs) then
      let run := ((c :: cs).drop key.length).takeWhile (fun d => ¬ isWsChar d)
      if run.isEmpty then findParamAux key cs else some run
    else findParamAux key cs

/-- The field-splitting loop of `decodeToon` (`splitLine`), before
`unescapeField` is mapped over the pieces.  `sep` is the separator string
recovered from the header; a character splits only when `sep` has length
one and equals it. -/
def splitLineGo (sep : List Char) :
    List Char → List Char → Bool → List (List Char) → List (List Char)
  | [], cur, _, out => out ++ [cur]
  | c :: rest, cur, true, out =>
    if c = '"' then
      match rest with
      | d :: rest2 =>
        if d = '"' then splitLineGo sep rest2 (cur ++ ['"']) true out
        else splitLineGo sep (d :: rest2) cur false out
      | [] => splitLineGo sep [] cur false out
    else splitLineGo sep rest (cur ++ [c]) true out
  | c :: rest, cur, false, out =>
    if c = '"' then splitLineGo sep rest cur true out
    else if sep.length = 1 && c = sep.getD 0 ' ' then splitLineGo sep rest [] false (out ++ [cur])
    else splitLineGo sep rest (cur ++ [c]) false out

/-- `splitLine` of `decodeToon`. -/
def splitLineJs (sep : List Char) (line : List Char) : List (List Char) :=
  (splitLineGo sep line [] false []).map unescapeField

/-- `decodeToon` of `toon.ts`.  Rows are positional over the recovered
schema (entry `j` is the value stored under the `j`-th column name);
`none` models a thrown error. -/
def decodeToon (toon : List Char) : Option (List (List (List Char))) :=
  match splitOnC '\n' (removeCR toon) with
  | [] => none
  | header :: body =>
    if ¬ startsWithL ("#TOON".data) header then none
    else
      match findParamAux ("cols=".data) header, findParamAux ("sep=".data) header with
      | some colsCap, some sepCap =>
        let schema := splitOnC ',' colsCap
        some (((body.map trimL).filter (fun l => ¬ l.isEmpty)).map fun l =>
          let parts := splitLineJs sepCap l
          (List.range schema.length).map fun j => parts.getD j [])
      | _, _ => none

/-- `isValidToon` of `toon.ts`. -/
def isValidToon (toon expected : List Char) : Bool :=
  if toon.isEmpty then false
  else decide (trimL ((splitOnC '\n' (removeCR toon)).headD []) = trimL expected)

/-! ## TOON schemas (`src/lib/toonSchemas.ts`) -/

/-- `MW_ITEM_SCHEMA_V14` of `toonSchemas.ts`: the ordered column list of
the v14 millwork item schema. -/
def MW_ITEM_SCHEMA_V14 : List String :=
  ["item_id", "assembly_id", "assembly_name", "section_id",
   "item_type", "description",
   "room", "level", "zone",
   "qty", "unit",
   "length_mm", "width_mm", "height_mm", "depth_mm", "dim_source",
   "material", "material_code", "finish", "finish_code", "edge",
   "hardware_type", "hardware_spec",
   "wbs_code", "sheet_ref", "detail_ref", "confidence", "notes"]

/-- The column count declared by the v14 schema
(`MW_ITEM_SCHEMA_V14.length` in `sanitizeToon`). -/
def expectedColsV14 : Nat := MW_ITEM_SCHEMA_V14.length

/-- The position of the `description` column in `MW_ITEM_SCHEMA_V14`. -/
def descColV14 : Nat := 5

/-! ## TOON sanitization (`sanitizeToon` of `scope-extractor-v14.ts`) -/

/-- The room names of the comma-embedded-TOON strip pattern inside
`sanitizeToon` (Fix 2). -/
def sanitizeRoomNames : List (List Char) :=
  [("Service Manager").data, ("Reception Desk").data, ("Team Members").data,
   ("Kids Club").data, ("Team Room").data, ("Unclassified").data,
   ("Retail Display").data, ("Laundry").data, ("Janitor").data,
   ("Pool Area").data, ("Mens Vanity").data, ("Womens Vanity").data,
   ("Building Wide").data]

/-- Occurrence test for the pattern `,(name),` (case-insensitive) at the
head of a suffix, for a list of names; the regexes continue with `.*`,
which always matches, so an occurrence is determined by this prefix. -/
def roomOccAt (names : List (List Char)) (u : List Char) : Bool :=
  names.any fun nm => startsWithCI (',' :: (nm ++ [','])) u

/-- Head-of-suffix test for
`,(EA|LS|SF|LF),|,\d+,|,extracted,|,calculated,` (case-insensitive). -/
def fix2PatAt (u : List Char) : Bool :=
  startsWithCI (",EA,".data) u || startsWithCI (",LS,".data) u ||
  startsWithCI (",SF,".data) u || startsWithCI (",LF,".data) u ||
  startsWithCI (",extracted,".data) u || startsWithCI (",calculated,".data) u ||
  (match u with
   | ',' :: rest =>
     let ds := rest.takeWhile isDigitChar
     ¬ ds.isEmpty && rest.getD ds.length ' ' = ','
   | _ => false)

/-- `/,(EA|LS|SF|LF),|,\d+,|,extracted,|,calculated,/i.test(descField)`. -/
def fix2PatTest (s : List Char) : Bool := anySuffix fix2PatAt s

/-- `(descField.match(/,/g) || []).length`. -/
def commaCount (s : List Char) : Nat := s.countP (fun c => c = ',')

/-- The description cleaning of Fix 2: strip from the first
`,(room-name),` occurrence to the end, then trim. -/
def fix2Clean (s : List Char) : List Char :=
  trimL (stripFromFirst (roomOccAt sanitizeRoomNames) s)

/-- One line of `sanitizeToon`. -/
def sanitizeLine (line : List Char) : List Char :=
  if startsWithL ("#TOON".data) line || (trimL line).isEmpty then line
  else
    let fields := splitOnC ';' line
    if fields.length > expectedColsV14 then
      -- Fix 1: too many semicolons — merge excess into the field at index 2
      let excess := fields.length - expectedColsV14
      let merged := interL (" - ".data) ((fields.drop 2).take (excess + 1))
      interL [';'] (fields.take 2 ++ merged :: fields.drop (2 + excess + 1))
    else if fields.length = expectedColsV14 then
      -- Fix 2: comma-embedded TOON data in the field at index 2
      let descField := fields.getD 2 []
      if commaCount descField ≥ 5 && fix2PatTest descField then
        interL [';'] (fields.take 2 ++ fix2Clean descField :: fields.drop 3)
      else line
    else line

/-- `sanitizeToon` of `scope-extractor-v14.ts`. -/
def sanitizeToon (toon : List Char) : List Char :=
  interL ['\n'] ((splitOnC '\n' toon).map sanitizeLine)

/-! ## Dimension scanner (`src/lib/parser/preprocess.ts`) -/

/-- A hint produced by `extractDimensions` (`DimHint` of `preprocess.ts`). -/
structure DimHint where
  raw : List Char
  inches : ℚ
  mm : ℤ
  context : List Char
  line : Nat
deriving Repr, DecidableEq

/-- JS division of positive operands where a zero denominator yields
`Infinity`; modelled by a rational that every range guard in this file
treats exactly like `Infinity` (it exceeds every bound compared against). -/
def jsDivPos (a b : ℚ) : ℚ := if b = 0 then 10 ^ 9 else a / b

/-- The decomposition of a match of the feet-inches pattern
`\d+'\s*-?\s*\d+(?:\s+\d+\/\d+)?(?:\s*\d+\/\d+)?\s*"?`:
feet digits, apostrophe, whitespace, optional dash, whitespace,
the inches capture (digits plus up to two fraction groups),
trailing whitespace and optional quote. -/
structure FtParts where
  feetD : List Char
  ws1 : List Char
  dash : List Char
  ws2 : List Char
  inchCap : List Char
  ws3 : List Char
  quote : List Char
deriving Repr, DecidableEq

/-- The matched text of a feet-inches match. -/
def ftText (p : FtParts) : List Char :=
  p.feetD ++ aposC :: (p.ws1 ++ p.dash ++ p.ws2 ++ p.inchCap ++ p.ws3 ++ p.quote)

/-- Length of the matched text of a feet-inches match. -/
def ftLen (p : FtParts) : Nat :=
  p.feetD.length + 1 + p.ws1.length + p.dash.length + p.ws2.length +
    p.inchCap.length + p.ws3.length + p.quote.length

/-- Offset, within a feet-inches match, of its inches portion. -/
def ftInchOff (p : FtParts) : Nat :=
  p.feetD.length + 1 + p.ws1.length + p.dash.length + p.ws2.length

/-- First fraction group `(?:\s+\d+\/\d+)?`: consumed text and rest,
`none` when the group matches empty. -/
def tryG1 (s : List Char) : Option (List Char × List Char) :=
  let w := s.takeWhile isWsChar
  let r1 := s.drop w.length
  if w.isEmpty then none
  else
    let d1 := r1.takeWhile isDigitChar
    let r2 := r1.drop d1.length
    if d1.isEmpty then none
    else
      match r2 with
      | '/' :: r3 =>
        let d2 := r3.takeWhile isDigitChar
        if d2.isEmpty then none else some (w ++ d1 ++ '/' :: d2, r3.drop d2.length)
      | _ => none

/-- Second fraction group `(?:\s*\d+\/\d+)?`. -/
def tryG2 (s : List Char) : Option (List Char × List Char) :=
  let w := s.takeWhile isWsChar
  let r1 := s.drop w.length
  let d1 := r1.takeWhile isDigitChar
  let r2 := r1.drop d1.length
  if d1.isEmpty then none
  else
    match r2 with
    | '/' :: r3 =>
      let d2 := r3.takeWhile isDigitChar
      if d2.isEmpty then none else some (w ++ d1 ++ '/' :: d2, r3.drop d2.length)
    | _ => none

/-- Split off the maximal prefix satisfying `f`. -/
def spanP (f : Char → Bool) (s : List Char) : List Char × List Char :=
  (s.takeWhile f, s.dropWhile f)

/-- The optional dash of `\s*-?\s*`. -/
def dashSplit (r : List Char) : List Char × List Char :=
  match r with
  | '-' :: r4 => (['-'], r4)
  | _ => ([], r)

/-- The part of a feet-inches match after the feet digits and the
apostrophe: whitespace, optional dash, whitespace, the inches digits
with up to two fraction groups, trailing whitespace, optional quote. -/
def ftAfterApos (fdigits r2 : List Char) : Option FtParts :=
  let w1 := spanP isWsChar r2
  let dr := dashSplit w1.2
  let w2 := spanP isWsChar dr.2
  let ind := spanP isDigitChar w2.2
  if ind.1.isEmpty then none
  else
    let g1 := (tryG1 ind.2).getD ([], ind.2)
    let g2 := (tryG2 g1.2).getD ([], g1.2)
    let w3 := spanP isWsChar g2.2
    let quote : List Char :=
      match w3.2 with
      | '"' :: _ => ['"']
      | _ => []
    some ⟨fdigits, w1.1, dr.1, w2.1, ind.1 ++ g1.1 ++ g2.1, w3.1, quote⟩

/-- Match the feet-inches pattern at the head of `s` (the regex is
deterministic here: every quantifier is greedy and failing optional
groups reduce to empty). -/
def tryFtInAt (s : List Char) : Option FtParts :=
  let fd := spanP isDigitChar s
  if fd.1.isEmpty then none
  else
    match fd.2 with
    | c :: r2 => if c = aposC then ftAfterApos fd.1 r2 else none
    | [] => none

/-- The global scan of `ftInPattern.exec` over one line: leftmost,
non-overlapping matches, each with its start index.  Fuelled by the line
length (every step advances by at least one character). -/
def ftScanGo (line : List Char) : Nat → Nat → List (Nat × FtParts)
  | 0, _ => []
  | fuel + 1, idx =>
    if line.length ≤ idx then []
    else
      match tryFtInAt (line.drop idx) with
      | some p => (idx, p) :: ftScanGo line fuel (idx + ftLen p)
      | none => ftScanGo line fuel (idx + 1)

def ftScanLine (line : List Char) : List (Nat × FtParts) :=
  ftScanGo line (line.length + 1) 0

/-- `parseFraction`'s mixed case `^(\d+)\s+(\d+)\/(\d+)$`. -/
def mixedParse (s : List Char) : Option ℚ :=
  let d1 := s.takeWhile isDigitChar
  if d1.isEmpty then none
  else
    let r1 := s.drop d1.length
    let w := r1.takeWhile isWsChar
    if w.isEmpty then none
    else
      let r2 := r1.drop w.length
      let d2 := r2.takeWhile isDigitChar
      if d2.isEmpty then none
      else
        match r2.drop d2.length with
        | '/' :: r3 =>
          let d3 := r3.takeWhile isDigitChar
          if d3.isEmpty || ¬ (r3.drop d3.length).isEmpty then none
          else some ((natOfDigits d1 : ℚ) + jsDivPos (natOfDigits d2 : ℚ) (natOfDigits d3 : ℚ))
        | _ => none

/-- `parseFraction`'s plain-fraction case `^(\d+)\/(\d+)$`. -/
def fracParse (s : List Char) : Option ℚ :=
  let d1 := s.takeWhile isDigitChar
  if d1.isEmpty then none
  else
    match s.drop d1.length with
    | '/' :: r2 =>
      let d2 := r2.takeWhile isDigitChar
      if d2.isEmpty || ¬ (r2.drop d2.length).isEmpty then none
      else some (jsDivPos (natOfDigits d1 : ℚ) (natOfDigits d2 : ℚ))
    | _ => none

/-- `parseFraction` of `preprocess.ts`. -/
def parseFraction (s0 : List Char) : ℚ :=
  let s := trimL s0
  match mixedParse s with
  | some q => q
  | none =>
    match fracParse s with
    | some q => q
    | none => (jsParseFloatQ s).getD 0

/-- Leftmost (unanchored) match of the feet-inches pattern inside `raw`,
as searched by `archDimToInches`. -/
def ftSearchAux : List Char → Option FtParts
  | [] => none
  | c :: cs =>
    match tryFtInAt (c :: cs) with
    | some p => some p
    | none => ftSearchAux cs

/-- `archDimToInches`'s bare-decimal case `^(\d+(?:\.\d+)?)\s*"$`. -/
def inOnlyParse (s : List Char) : Option ℚ :=
  let ds := s.takeWhile isDigitChar
  if ds.isEmpty then none
  else
    let r1 := s.drop ds.length
    let numRest : ℚ × List Char :=
      match r1 with
      | '.' :: fr =>
        let fs := fr.takeWhile isDigitChar
        if fs.isEmpty then ((natOfDigits ds : ℚ), r1)
        else ((natOfDigits ds : ℚ) + (natOfDigits fs : ℚ) / 10 ^ fs.length, fr.drop fs.length)
      | _ => ((natOfDigits ds : ℚ), r1)
    let w := numRest.2.takeWhile isWsChar
    match numRest.2.drop w.length with
    | ['"'] => some numRest.1
    | _ => none

/-- `archDimToInches`'s fraction case `^(\d+(?:\s+\d+\/\d+))\s*"$`. -/
def inFracParse (s : List Char) : Option ℚ :=
  let ds := s.takeWhile isDigitChar
  if ds.isEmpty then none
  else
    match tryG1 (s.drop ds.length) with
    | some (g, r) =>
      let w := r.takeWhile isWsChar
      match r.drop w.length with
      | ['"'] => some (parseFraction (ds ++ g))
      | _ => none
    | none => none

/-- `archDimToInches` of `preprocess.ts`. -/
def archDimToInches (raw : List Char) : Option ℚ :=
  match ftSearchAux raw with
  | some p => some ((natOfDigits p.feetD : ℚ) * 12 + parseFraction p.inchCap)
  | none =>
    match inOnlyParse raw with
    | some q => some q
    | none =>
      match inFracParse raw with
      | some q => some q
      | none => none

/-- `inchesToMm` of `preprocess.ts`: `Math.round(inches * 25.4)`. -/
def inchesToMm (inches : ℚ) : ℤ := jsRound (inches * (254 / 10))

/-- `Math.round(inches * 100) / 100`: the two-decimal rounding applied to
the stored `inches` field of a feet-inches hint. -/
def round2 (q : ℚ) : ℚ := ((jsRound (q * 100) : ℚ)) / 100

/-- The `±40`-character context window around a match, trimmed. -/
def contextWindow (line : List Char) (idx len : Nat) : List Char :=
  let start := idx - 40
  let stop := min line.length (idx + len + 40)
  trimL ((line.drop start).take (stop - start))

/-- The feet-inches loop of `extractDimensions` on one line: one hint per
pattern match whose resolved inches lie strictly between 0 and 600. -/
def ftHintsLine (line : List Char) (ln : Nat) : List DimHint :=
  (ftScanLine line).filterMap fun m =>
    let raw := trimL (ftText m.2)
    match archDimToInches raw with
    | some inch =>
      if 0 < inch ∧ inch < 600 then
        some ⟨raw, round2 inch, inchesToMm inch, contextWindow line m.1 (ftLen m.2), ln⟩
      else none
    | none => none

/-- The negative lookbehind `(?<!\d'\s*-?\s*)` of the bare-inches
pattern: the text before the match position ends with a digit, an
apostrophe, whitespace, an optional dash and more whitespace. -/
def endsWithFtPfx (before : List Char) : Bool :=
  let r := before.reverse
  let r1 := r.dropWhile isWsChar
  let r2 : List Char :=
    match r1 with
    | c :: t => if c = '-' then t.dropWhile isWsChar else r1
    | [] => r1
  match r2 with
  | c :: d :: _ => c = aposC && isDigitChar d
  | _ => false

/-- The `(?<!\d)\b` start conditions of the bare-inches pattern at a
position whose text begins with a digit: the previous character, if any,
is neither a digit nor a word character. -/
def bareStartOk (before : List Char) : Bool :=
  match before.getLast? with
  | none => true
  | some c => ¬ isDigitChar c && ¬ isWordChar c

/-- Match the tail `(\d+(?:\.\d+)?)\s*"` of the bare-inches pattern at
the head of `s`; returns the numeral capture and the match length. -/
def tryBareAt (s : List Char) : Option (List Char × Nat) :=
  let ds := s.takeWhile isDigitChar
  if ds.isEmpty then none
  else
    let r1 := s.drop ds.length
    let tryTail : List Char → List Char → Option (List Char × Nat) := fun numTxt r =>
      let w := r.takeWhile isWsChar
      match r.drop w.length with
      | '"' :: _ => some (numTxt, numTxt.length + w.length + 1)
      | _ => none
    match r1 with
    | '.' :: fr =>
      let fs := fr.takeWhile isDigitChar
      if fs.isEmpty then tryTail ds r1
      else
        match tryTail (ds ++ '.' :: fs) (fr.drop fs.length) with
        | some res => some res
        | none => tryTail ds r1
    | _ => tryTail ds r1

/-- The full bare-inches match condition of `simpleInPattern` at position
`idx` of `line` (lookbehinds, word boundary, and the matched tail). -/
def bareMatchAt (line : List Char) (idx : Nat) : Option (List Char × Nat) :=
  if bareStartOk (line.take idx) && ¬ endsWithFtPfx (line.take idx) then
    tryBareAt (line.drop idx)
  else none

/-- The bare-inches loop of `extractDimensions` on one line, threading
the accumulated hint list (`hints.some(...)` consults every hint pushed
so far, including the feet-inches hints of the same line and earlier
bare hints).  Fuelled by the line length. -/
def bareScanGo (line : List Char) (ln : Nat) : Nat → Nat → List DimHint → List DimHint
  | 0, _, hints => hints
  | fuel + 1, idx, hints =>
    if line.length ≤ idx then hints
    else
      match bareMatchAt line idx with
      | some (numTxt, len) =>
        let raw := trimL ((line.drop idx).take len)
        let inch := (jsParseFloatQ numTxt).getD 0
        let newHints :=
          if ((1 : ℚ)/4 ≤ inch ∧ inch ≤ 120) ∧
              ¬ hints.any (fun h => h.line = ln && hasSub raw h.context) then
            hints ++ [⟨raw, inch, inchesToMm inch, contextWindow line idx len, ln⟩]
          else hints
        bareScanGo line ln fuel (idx + len) newHints
      | none => bareScanGo line ln fuel (idx + 1) hints

/-- `extractDimensions` of `preprocess.ts`. -/
def extractDimensions (text : List Char) : List DimHint :=
  ((splitOnC '\n' text).enum).foldl
    (fun hints p =>
      bareScanGo p.2 (p.1 + 1) (p.2.length + 1) 0 (hints ++ ftHintsLine p.2 (p.1 + 1)))
    []

/-! ## Row postprocessor (`src/lib/parser/postprocess.ts`):
default-dimension flagging.  Only the fields read or written by
`isDefaultDimension` and `validateDimensions` are modelled; the rows
reaching these functions come straight from `decodeToon`, so every field
is a string. -/

structure PRow where
  item_id : List Char
  length_mm : List Char
  width_mm : List Char
  height_mm : List Char
  depth_mm : List Char
  dim_source : List Char
  confidence : List Char
  notes : List Char
deriving Repr, DecidableEq

/-- `Number(x) || 0`. -/
def numOr0 (s : List Char) : ℚ := (jsNumberQ s).getD 0

/-- `KNOWN_DEFAULTS_MM` of `postprocess.ts` as `(w, h, d)` triples. -/
def KNOWN_DEFAULTS_MM : List (ℚ × ℚ × ℚ) :=
  [(610, 876, 610), (762, 762, 305), (610, 762, 305), (914, 876, 610)]

/-- `isDefaultDimension` of `postprocess.ts`. -/
def isDefaultDimension (r : PRow) : Bool :=
  let w := numOr0 r.width_mm
  let h := numOr0 r.height_mm
  let d := numOr0 r.depth_mm
  if w = 0 ∧ h = 0 ∧ d = 0 then false
  else KNOWN_DEFAULTS_MM.any fun t =>
    |w - t.1| < 5 ∧ |h - t.2.1| < 5 ∧ |d - t.2.2| < 5

/-- The flag note appended by `validateDimensions`. -/
def defaultDimsNote : List Char :=
  (" [⚠ DEFAULT DIMS DETECTED — needs manual measurement]").data

/-- `row.item_id || `row-${idx}``. -/
def itemIdOr (r : PRow) (idx : Nat) : List Char :=
  if r.item_id.isEmpty then ("row-").data ++ Nat.toDigits 10 idx else r.item_id

/-- One row of `validateDimensions`: flag default dimensions, then the
dimension sanity checks.  Warning strings are modelled by their
distinguishing prefix (row id and category); none of the verified
properties depends on the remaining interpolated text. -/
def validateRow (r0 : PRow) (idx : Nat) : PRow × List (List Char) :=
  let itemId := itemIdOr r0 idx
  let flagged := isDefaultDimension r0
  let r1 :=
    if flagged then
      { r0 with dim_source := ("default_FLAGGED").data,
                confidence := ("low").data,
                notes := r0.notes ++ defaultDimsNote }
    else r0
  let warns1 : List (List Char) :=
    if flagged then [itemId ++ (": Default dimensions").data] else []
  let w := numOr0 r1.width_mm
  let h := numOr0 r1.height_mm
  let l := numOr0 r1.length_mm
  let r2 := if 0 < w ∧ w < 50 then
      { r1 with notes := r1.notes ++ (" [⚠ Width < 2\"]").data } else r1
  let warns2 := if 0 < w ∧ w < 50 then [itemId ++ (": Width").data] else []
  let r3 := if 3048 < h then
      { r2 with notes := r2.notes ++ (" [⚠ Height > 10']").data } else r2
  let warns3 := if 3048 < h then [itemId ++ (": Height").data] else []
  let r4 := if 12192 < l then
      { r3 with notes := r3.notes ++ (" [⚠ Length > 40']").data } else r3
  let warns4 := if 12192 < l then [itemId ++ (": Length").data] else []
  (r4, warns1 ++ warns2 ++ warns3 ++ warns4)

/-- `validateDimensions` of `postprocess.ts`: the mapped rows and the
accumulated warnings. -/
def validateDimensions (rows : List PRow) : List PRow × List (List Char) :=
  (rows.enum.foldl
    (fun acc p =>
      let res := validateRow p.2 p.1
      (acc.1 ++ [res.1], acc.2 ++ res.2))
    ([], []))

/-! ## Page parsing (`parsePages` of `scope-extractor-v14.ts`) -/

/-- Match the page-marker regex `---\s*PAGE\s*(?:BREAK|(\d+))\s*---` (with
the `i` flag) at the head of `s`: the digit capture (`none` for the
non-participating group of a `BREAK` marker) and the match length. -/
def tryMarkerAt (s : List Char) : Option (Option (List Char) × Nat) :=
  if startsWithL ("---").data s then
    let r1 := s.drop 3
    let w1 := r1.takeWhile isWsChar
    let r2 := r1.drop w1.length
    if startsWithCI ("PAGE").data r2 then
      let r3 := r2.drop 4
      let w2 := r3.takeWhile isWsChar
      let r4 := r3.drop w2.length
      let breakTry : Option Nat :=
        if startsWithCI ("BREAK").data r4 then
          let r5 := r4.drop 5
          let w3 := r5.takeWhile isWsChar
          if startsWithL ("---").data (r5.drop w3.length) then some (5 + w3.length + 3)
          else none
        else none
      match breakTry with
      | some k => some (none, 3 + w1.length + 4 + w2.length + k)
      | none =>
        let ds := r4.takeWhile isDigitChar
        if ds.isEmpty then none
        else
          let r5 := r4.drop ds.length
          let w3 := r5.takeWhile isWsChar
          if startsWithL ("---").data (r5.drop w3.length) then
            some (some ds, 3 + w1.length + 4 + w2.length + ds.length + w3.length + 3)
          else none
    else none
  else none

/-- JS `text.split(markerRegex)` with its one capture group: the
between-marker texts as `some`, each marker's capture in place
(`none` when the digit group did not participate).  Fuelled by the text
length (every marker is at least nine characters long). -/
def splitGoPg : Nat → List Char → List Char → List (Option (List Char)) →
    List (Option (List Char))
  | 0, s, cur, acc => acc ++ [some (cur ++ s)]
  | fuel + 1, s, cur, acc =>
    match s with
    | [] => acc ++ [some cur]
    | c :: cs =>
      match tryMarkerAt (c :: cs) with
      | some (cap, len) => splitGoPg fuel ((c :: cs).drop len) [] (acc ++ [some cur, cap])
      | none => splitGoPg fuel cs (cur ++ [c]) acc

def splitPages (text : List Char) : List (Option (List Char)) :=
  splitGoPg (text.length + 1) text [] []

/-- `PageText` of `scope-extractor-v14.ts`. -/
structure PageText where
  pageNum : Nat
  text : List Char
deriving Repr, DecidableEq

/-- The accumulation loop of `parsePages`: skipped undefined / blank
parts, digit parts set the page counter, parts longer than five
characters are pushed with a pre-incremented counter. -/
def parsePagesGo : List (Option (List Char)) → Nat → List PageText → List PageText
  | [], _, acc => acc
  | none :: rest, pn, acc => parsePagesGo rest pn acc
  | some p0 :: rest, pn, acc =>
    let part := trimL p0
    if part.isEmpty then parsePagesGo rest pn acc
    else if part.all isDigitChar then parsePagesGo rest (natOfDigits part) acc
    else if 5 < part.length then parsePagesGo rest (pn + 1) (acc ++ [⟨pn + 1, part⟩])
    else parsePagesGo rest pn acc

/-- `parsePages` of `scope-extractor-v14.ts`. -/
def parsePages (text : List Char) : List PageText :=
  let parts := splitPages text
  if parts.length ≤ 1 then [⟨1, trimL text⟩]
  else parsePagesGo parts 0 []

/-! ## Handler decode pipeline (`scope-extractor-v14.ts`, extract mode):
sanitize, validate against the exact v14 header, fence fallback,
then `decodeToon`. -/

/-- `HEADER_V14` of `scope-extractor-v14.ts`. -/
def HEADER_V14 : List Char := mkHeader (MW_ITEM_SCHEMA_V14.map String.data)

/-- Match the fence regex
```` /```(?:toon|csv|text)?\s*\n?(#TOON[\s\S]*?)```/ ````
at the head of `s` and return its capture.  The `\s*\n?` pair reduces to
skipping all whitespace (giving a newline back to `\n?` re-checks
`#TOON` at the same position), and the lazy body ends at the first
closing fence. -/
def tryFenceAt (s : List Char) : Option (List Char) :=
  if startsWithL ("```").data s then
    let r1 := s.drop 3
    let cont : List Char → Option (List Char) := fun r =>
      let r2 := r.dropWhile isWsChar
      if startsWithL ("#TOON").data r2 then
        let tail := r2.drop 5
        match firstHitIdx (startsWithL ("```").data) tail with
        | some i => some (("#TOON").data ++ tail.take i)
        | none => none
      else none
    let withTag : Option (List Char) :=
      if startsWithL ("toon").data r1 then cont (r1.drop 4) else none
    let withTag2 : Option (List Char) :=
      match withTag with
      | some x => some x
      | none => if startsWithL ("csv").data r1 then cont (r1.drop 3) else none
    let withTag3 : Option (List Char) :=
      match withTag2 with
      | some x => some x
      | none => if startsWithL ("text").data r1 then cont (r1.drop 4) else none
    match withTag3 with
    | some x => some x
    | none => cont r1
  else none

/-- Leftmost fence match in `s` (`toon.match(fenceRegex)`). -/
def fenceSearch : List Char → Option (List Char)
  | [] => none
  | c :: cs =>
    match tryFenceAt (c :: cs) with
    | some x => some x
    | none => fenceSearch cs

/-- The decode path of the extract-mode handler applied to the model
output: sanitize, validate the first line against `HEADER_V14`, retry on
a stripped fence, reject (`none`) if still invalid, else decode. -/
def handlerDecode (llmText : List Char) : Option (List (List (List Char))) :=
  let t1 := sanitizeToon llmText
  let t2 :=
    if isValidToon t1 HEADER_V14 then t1
    else
      match fenceSearch t1 with
      | some frag => sanitizeToon (trimL frag)
      | none => t1
  if isValidToon t2 HEADER_V14 then decodeToon t2 else none

/-! ## Row cleanup (`cleanupRows` of `scope-extractor-v14.ts`) -/

/-- A JS field value as manipulated by `cleanupRows`: the rows arrive
from `decodeToon` with string fields, and the cleanup itself writes
numbers into `qty`, `width_mm` and `depth_mm`. -/
inductive JVal where
  | str (s : List Char)
  | num (q : ℚ)
deriving Repr, DecidableEq

def JVal.isStr : JVal → Bool
  | .str _ => true
  | .num _ => false

/-- JS truthiness of a string or number value. -/
def JVal.truthy : JVal → Bool
  | .str s => ¬ s.isEmpty
  | .num q => q ≠ 0

/-- The string content of a string value (only queried after `isStr`). -/
def JVal.strVal : JVal → List Char
  | .str s => s
  | .num _ => []

/-- JS `Number(v)`; `none` models `NaN`. -/
def JVal.toNumber : JVal → Option ℚ
  | .str s => jsNumberQ s
  | .num q => some q

/-- JS `parseInt(v)`; numbers are truncated toward zero, strings parsed
by the leading-digits rule; `none` models `NaN`. -/
def JVal.toParseInt : JVal → Option Int
  | .str s => jsParseIntL s
  | .num q => some (if q < 0 then -⌊-q⌋ else ⌊q⌋)

/-- Strict equality of a value against a string literal. -/
def JVal.eqStr (v : JVal) (s : List Char) : Bool :=
  match v with
  | .str t => t = s
  | .num _ => false

/-- The row shape handled by `cleanupRows` (exactly the fields the
function reads or writes; `garbled` models the `_garbled` mark). -/
structure CRow where
  item_type : List Char
  room : List Char
  description : List Char
  section_id : List Char
  unit : List Char
  height_mm : List Char
  notes : List Char
  confidence : List Char
  material : List Char
  material_code : List Char
  sheet_ref : List Char
  qty : JVal
  width_mm : JVal
  depth_mm : JVal
  garbled : Bool
deriving Repr, DecidableEq

/-- `VALID_ITEM_TYPES` of `scope-extractor-v14.ts`. -/
def VALID_ITEM_TYPES : List (List Char) :=
  [("assembly").data, ("base_cabinet").data, ("upper_cabinet").data,
   ("tall_cabinet").data, ("countertop").data, ("transaction_top").data,
   ("decorative_panel").data, ("trim").data, ("channel").data,
   ("rubber_base").data, ("substrate").data, ("concealed_hinge").data,
   ("piano_hinge").data, ("grommet").data, ("adjustable_shelf").data,
   ("fixed_shelf").data, ("cpu_shelf").data, ("drawer").data,
   ("file_drawer").data, ("trash_drawer").data, ("rollout_basket").data,
   ("conduit").data, ("j_box").data, ("equipment_cutout").data,
   ("safe_cabinet").data, ("controls_cabinet").data, ("end_panel").data,
   ("corner_guard").data, ("corner_detail").data, ("stainless_panel").data,
   ("hanger_support").data, ("trellis").data, ("scope_exclusion").data]

def isValidItemType (s : List Char) : Bool := VALID_ITEM_TYPES.any (fun t => t = s)

/-- Pattern D trigger: `/^(EA|LF|SF|LOT|LS)$/i.test((row.room || "").trim())`. -/
def unitRoomTest (room : List Char) : Bool :=
  let t := lowL (trimL room)
  t = ("ea").data || t = ("lf").data || t = ("sf").data ||
    t = ("lot").data || t = ("ls").data

/-- `/^(EA|LS|LOT|SF|LF)$/i.test(x)` (Pattern A's unit test). -/
def unitWordTest (s : List Char) : Bool :=
  let t := lowL s
  t = ("ea").data || t = ("ls").data || t = ("lot").data ||
    t = ("sf").data || t = ("lf").data

/-- `["high","medium","low"].includes(x.toLowerCase())`. -/
def isConfWord (s : List Char) : Bool :=
  let t := lowL s
  t = ("high").data || t = ("medium").data || t = ("low").data

/-- `a.*b` on an (already lowercased) string: an occurrence of `a`
followed, anywhere later on, by an occurrence of `b`. -/
def seqSub (a b s : List Char) : Bool :=
  anySuffix (fun u => startsWithL a u && hasSub b (u.drop a.length)) s

/-- `\b⟨p⟩\b` occurrence (for a fully word-charactered `p`). -/
def wordSubGo (p : List Char) : Option Char → List Char → Bool
  | _, [] => false
  | pv, c :: cs =>
    ((match pv with
      | none => true
      | some d => ¬ isWordChar d) &&
      startsWithL p (c :: cs) &&
      (match (c :: cs).drop p.length with
       | [] => true
       | d :: _ => ¬ isWordChar d)) ||
    wordSubGo p (some c) cs

def wordSub (p s : List Char) : Bool := wordSubGo p none s

/-- `pos\b` occurrence. -/
def posBSub (s : List Char) : Bool :=
  anySuffix
    (fun u =>
      startsWithL ("pos").data u &&
      (match u.drop 3 with
       | [] => true
       | d :: _ => ¬ isWordChar d))
    s

/-- `j.?box` occurrence (`.` matches any character except newline). -/
def jBoxSub (s : List Char) : Bool :=
  anySuffix
    (fun u =>
      match u with
      | 'j' :: rest =>
        startsWithL ("box").data rest ||
        (match rest with
         | c :: r2 => c ≠ '\n' && startsWithL ("box").data r2
         | [] => false)
      | _ => false)
    s

/-- Pattern C's item-type inference from the lowercased description. -/
def inferTypeC (d : List Char) : List Char :=
  if hasSub ("counter").data d then ("countertop").data
  else if hasSub ("panel").data d || hasSub ("3form").data d || hasSub ("frp").data d then
    ("decorative_panel").data
  else if seqSub ("adjust").data ("shelf").data d then ("adjustable_shelf").data
  else if hasSub ("shelf").data d || hasSub ("cpu").data d then ("fixed_shelf").data
  else if seqSub ("rubber").data ("base").data d || seqSub ("base").data ("rubber").data d then
    ("rubber_base").data
  else if hasSub ("channel").data d then ("channel").data
  else if hasSub ("trim").data d || seqSub ("aluminum").data ("trim").data d then ("trim").data
  else if hasSub ("substrate").data d || seqSub ("plywood").data ("sub").data d then
    ("substrate").data
  else if jBoxSub d || hasSub ("junction").data d then ("j_box").data
  else if hasSub ("conduit").data d then ("conduit").data
  else if hasSub ("grommet").data d then ("grommet").data
  else if hasSub ("hinge").data d then ("piano_hinge").data
  else if hasSub ("cabinet").data d || hasSub ("drawer").data d then ("base_cabinet").data
  else if hasSub ("assembly").data d then ("assembly").data
  else if seqSub ("shower").data ("rod").data d || hasSub ("rod").data d then
    ("scope_exclusion").data
  else if hasSub ("printer").data d || hasSub ("monitor").data d || hasSub ("cctv").data d ||
      hasSub ("telephone").data d || hasSub ("terminal").data d || posBSub d ||
      hasSub ("scanner").data d then
    ("scope_exclusion").data
  else ("assembly").data

/-- Pattern B's keyword inference on the lowercased
`itemType + " " + desc`; `cur` is the unchanged `item_type`. -/
def inferTypeB (s cur : List Char) : List Char :=
  if seqSub ("rubber").data ("base").data s || seqSub ("floor").data ("base").data s then
    ("rubber_base").data
  else if seqSub ("adjustable").data ("shelf").data s then ("adjustable_shelf").data
  else if wordSub ("shelf").data s || seqSub ("cpu").data ("shelf").data s then
    ("fixed_shelf").data
  else if hasSub ("channel").data s then ("channel").data
  else if jBoxSub s then ("j_box").data
  else if hasSub ("panel").data s || hasSub ("3form").data s || hasSub ("frp").data s then
    ("decorative_panel").data
  else if hasSub ("grommet").data s then ("grommet").data
  else if hasSub ("hinge").data s then ("piano_hinge").data
  else if hasSub ("conduit").data s then ("conduit").data
  else if hasSub ("trim").data s then ("trim").data
  else if hasSub ("substrate").data s || hasSub ("plywood").data s then ("substrate").data
  else if hasSub ("counter").data s then ("countertop").data
  else if hasSub ("locker").data s || hasSub ("cabinet").data s then ("base_cabinet").data
  else if seqSub ("towel").data ("bar").data s || hasSub ("hook").data s ||
      seqSub ("coat").data ("rack").data s || hasSub ("accessory").data s then
    ("scope_exclusion").data
  else if hasSub ("mirror").data s then ("scope_exclusion").data
  else if seqSub ("grab").data ("bar").data s || seqSub ("soap").data ("dispenser").data s ||
      seqSub ("paper").data ("towel").data s || seqSub ("hand").data ("dryer").data s then
    ("scope_exclusion").data
  else if hasSub ("trellis").data s then ("trellis").data
  else cur

/-- The room names (straight apostrophes) of the description strip
pattern inside `cleanupRows`. -/
def cleanupRoomNames : List (List Char) :=
  [("Service Manager").data, ("Reception Desk").data, ("Team Members").data,
   ("Kids Club").data, ("Team Room").data, ("Unclassified").data,
   ("Retail Display").data, ("Laundry").data, ("Janitor").data,
   ("Pool Area").data, ("Mens Vanity").data, ("Womens Vanity").data,
   ("Building Wide").data,
   ("Men").data ++ aposC :: ("s Locker Room").data,
   ("Women").data ++ aposC :: ("s Locker Room").data,
   ("First Floor").data]

/-- Head-of-suffix occurrence of the trailing-fragment pattern
`,{2,}\d*,(EA|LF|SF|LOT),?\d*.*$` (case-insensitive): at least two
commas, a digit run, a comma and a unit token; the `,?\d*.*$` tail is
always satisfiable (the description fields decoded here contain no
newline, so `.*` reaches the end of the string). -/
def trailOccAt (u : List Char) : Bool :=
  let commas := u.takeWhile (fun c => c = ',')
  2 ≤ commas.length &&
    (List.range (commas.length - 1)).any fun k =>
      let rest := u.drop (k + 2)
      let ds := rest.takeWhile isDigitChar
      match rest.drop ds.length with
      | ',' :: r3 =>
        startsWithCI ("EA").data r3 || startsWithCI ("LF").data r3 ||
        startsWithCI ("SF").data r3 || startsWithCI ("LOT").data r3
      | _ => false

/-- The description-cleaning chain at the end of `cleanupRows`:
semicolons to commas, strip from an embedded `,RoomName,`, strip a
trailing `,,…unit…` fragment, trim. -/
def descChainClean (d : List Char) : List Char :=
  trimL
    (stripFromFirst trailOccAt
      (stripFromFirst (roomOccAt cleanupRoomNames)
        (d.map fun c => if c = ';' then ',' else c)))

/-- Pattern A/B/C column repair of `cleanupRows` (a shifted or
misplaced item type). -/
def fixShift (r0 : CRow) : CRow :=
  let itemType := trimL r0.item_type
  if ¬ itemType.isEmpty ∧ ¬ isValidItemType itemType then
    -- Pattern A: a valid item type sits in section_id (shifted right).
    if ¬ r0.section_id.isEmpty ∧ isValidItemType (trimL r0.section_id) then
      let realUnit := r0.qty
      let realWidth := r0.unit
      let realDepth := r0.width_mm
      let qty' : JVal :=
        if realUnit.eqStr ("EA").data || realUnit.eqStr ("LS").data ||
            realUnit.eqStr ("LOT").data || realUnit.eqStr ("SF").data ||
            realUnit.eqStr ("LF").data then JVal.num 1
        else
          JVal.num
            (((realUnit.toParseInt.bind fun n => if n = 0 then none else some n).getD 1 : ℤ) : ℚ)
      let unit' : List Char :=
        if qty'.isStr && unitWordTest qty'.strVal then qty'.strVal else ("EA").data
      let width' : JVal :=
        if ¬ realWidth.isEmpty ∧ (jsNumberQ realWidth).isSome then
          JVal.num ((jsNumberQ realWidth).getD 0)
        else r0.width_mm
      let depth' : JVal :=
        if realDepth.truthy ∧ realDepth.toNumber.isSome then
          JVal.num (realDepth.toNumber.getD 0)
        else r0.depth_mm
      { r0 with description := itemType, item_type := trimL r0.section_id,
                section_id := [], qty := qty', unit := unit',
                width_mm := width', depth_mm := depth' }
    -- Pattern C: the item type repeats the room name; the real
    -- description sits in section_id.
    else if itemType = r0.room ∧ ¬ r0.section_id.isEmpty ∧ 2 < r0.section_id.length then
      let realDesc := r0.section_id
      let realWidth := r0.qty
      let realMaterial := r0.depth_mm
      let width' : JVal :=
        if realWidth.truthy ∧ realWidth.toNumber.isSome ∧
            10 < realWidth.toNumber.getD 0 then
          JVal.num (realWidth.toNumber.getD 0)
        else r0.width_mm
      let matDepth : List Char × JVal :=
        if realMaterial.truthy ∧ realMaterial.isStr ∧ realMaterial.toNumber = none then
          (realMaterial.strVal, JVal.str [])
        else (r0.material, r0.depth_mm)
      { r0 with item_type := inferTypeC (lowL realDesc), description := realDesc,
                section_id := [], width_mm := width', qty := JVal.num 1,
                unit := ("EA").data, material := matDepth.1, depth_mm := matDepth.2 }
    -- Pattern B: swap with the description if that is a valid type,
    -- else infer from keywords.
    else
      let desc := trimL r0.description
      if isValidItemType desc then
        { r0 with description := itemType, item_type := desc }
      else
        let combined := lowL (itemType ++ ' ' :: desc)
        { r0 with item_type := inferTypeB combined r0.item_type,
                  description :=
                    if desc = r0.room ∨ desc.isEmpty then itemType
                    else r0.description }
  else r0

/-- Confidence/notes swap repair of `cleanupRows`. -/
def fixConfNotes (r1 : CRow) : CRow :=
  if ¬ r1.notes.isEmpty ∧ isConfWord r1.notes ∧ ¬ isConfWord r1.confidence then
    { r1 with confidence := r1.notes, notes := r1.confidence }
  else r1

/-- A leaked `dim_source` word in a numeric-or-string dimension field. -/
def dimWordV (v : JVal) : Bool :=
  v.eqStr ("extracted").data || v.eqStr ("calculated").data || v.eqStr ("unknown").data

/-- A leaked `dim_source` word in a string dimension field. -/
def dimWordS (s : List Char) : Bool :=
  s = ("extracted").data || s = ("calculated").data || s = ("unknown").data

/-- Clearing leaked `dim_source` words from the dimension fields. -/
def fixDimWords (r2 : CRow) : CRow :=
  { r2 with
    width_mm := if dimWordV r2.width_mm then JVal.str [] else r2.width_mm,
    depth_mm := if dimWordV r2.depth_mm then JVal.str [] else r2.depth_mm,
    height_mm := if dimWordS r2.height_mm then [] else r2.height_mm }

/-- Reclassifying a short `tall_cabinet`. -/
def fixTall (r3 : CRow) : CRow :=
  let hOk : Bool :=
    match jsNumberQ r3.height_mm with
    | some h => decide (0 < h ∧ h ≤ 914)
    | none => false
  if decide (r3.item_type = ("tall_cabinet").data) && !r3.height_mm.isEmpty && hOk then
    { r3 with item_type := ("base_cabinet").data }
  else r3

/-- Cleaning `material_code` (leaked confidence or long description). -/
def fixMatCode (r4 : CRow) : CRow :=
  if r4.material_code.isEmpty then r4
  else
    let mc := trimL r4.material_code
    if isConfWord mc then
      { r4 with confidence := if r4.confidence.isEmpty then mc else r4.confidence,
                material_code := [] }
    else if 25 < mc.length then { r4 with material_code := [] }
    else r4

/-- Cleaning `material` (leaked confidence). -/
def fixMaterial (r5 : CRow) : CRow :=
  if !r5.material.isEmpty && isConfWord (trimL r5.material) then
    { r5 with confidence := if r5.confidence.isEmpty then trimL r5.material
                            else r5.confidence,
              material := [] }
  else r5

/-- Cleaning `sheet_ref` (leaked confidence or dimension values). -/
def fixSheetRef (r6 : CRow) : CRow :=
  if r6.sheet_ref.isEmpty then r6
  else
    let sr := trimL r6.sheet_ref
    let ds := sr.takeWhile isDigitChar
    let headDim : Bool :=
      match sr.drop ds.length with
      | c :: _ => c = aposC || c = '-'
      | [] => false
    let dimLike : Bool :=
      (!ds.isEmpty && headDim) ||
      (!ds.isEmpty && decide (lowL (sr.drop ds.length) = ("mm").data)) ||
      (!ds.isEmpty && (sr.drop ds.length).isEmpty)
    if isConfWord sr then
      { r6 with confidence := if r6.confidence.isEmpty then sr else r6.confidence,
                sheet_ref := [] }
    else if dimLike then { r6 with sheet_ref := [] }
    else r6

/-- Cleaning the description of semicolons and embedded TOON
fragments. -/
def fixDesc (r7 : CRow) : CRow :=
  if r7.description.isEmpty then r7
  else { r7 with description := descChainClean r7.description }

/-- The per-row transform of `cleanupRows` (the body of its `map`). -/
def cleanupRow (r0 : CRow) : CRow :=
  -- Pattern D: the room field holds a unit token; mark unsalvageable.
  if unitRoomTest r0.room then { r0 with garbled := true }
  else
    fixDesc (fixSheetRef (fixMaterial (fixMatCode (fixTall (fixDimWords
      (fixConfNotes (fixShift r0)))))))

/-- The filter of `cleanupRows`. -/
def cleanupKeep (r : CRow) : Bool :=
  if r.garbled then false
  else if r.description.isEmpty ∧ r.item_type.isEmpty then false
  else if ¬ r.description.isEmpty ∧
      (let t := lowL (trimL r.description)
       t = ("ea").data || t = ("ls").data || t = ("sf").data || t = ("lf").data ||
       t = ("extracted").data || t = ("calculated").data || t = ("unknown").data ||
       t = ("high").data || t = ("medium").data || t = ("low").data) then false
  else true

/-- `cleanupRows` of `scope-extractor-v14.ts`. -/
def cleanupRows (rows : List CRow) : List CRow :=
  (rows.map cleanupRow).filter cleanupKeep

/-! ## Page grouping (`groupPagesByRoom` of `scope-extractor-v14.ts`) -/

/-- A small regex-token language covering the room title patterns.
Matching is by exhaustive alternatives (a `test` only needs existence),
so greedy/lazy distinctions are immaterial here. -/
inductive RTok where
  | litC (s : List Char)
  | cls (f : Char → Bool)
  | clsStar (f : Char → Bool)
  | opt (t : RTok)
  | seqT (a b : RTok)
  | altT (a b : RTok)
  | eps
  | failT
  | lb
  | rb

/-- All ways a token can consume a prefix of the remaining input; the
state carries the previously consumed character for word boundaries. -/
def matchTok : RTok → Option Char × List Char → List (Option Char × List Char)
  | .litC s, (pv, u) =>
    if startsWithCI s u then
      [(if s.isEmpty then pv else (u.take s.length).getLast?, u.drop s.length)]
    else []
  | .cls f, (_, u) =>
    match u with
    | c :: r => if f c then [(some c, r)] else []
    | [] => []
  | .clsStar f, (pv, u) =>
    let run := (u.takeWhile f).length
    (List.range (run + 1)).map fun k =>
      (if k = 0 then pv else (u.take k).getLast?, u.drop k)
  | .opt t, st => matchTok t st ++ [st]
  | .seqT a b, st => (matchTok a st).flatMap (matchTok b)
  | .altT a b, st => matchTok a st ++ matchTok b st
  | .eps, st => [st]
  | .failT, _ => []
  | .lb, (pv, u) =>
    match pv with
    | none => [(pv, u)]
    | some c => if isWordChar c then [] else [(pv, u)]
  | .rb, (pv, u) =>
    match u with
    | [] => [(pv, u)]
    | c :: _ => if isWordChar c then [] else [(pv, u)]

/-- `re.test(s)`: the token sequence matches somewhere in `s`. -/
def testPatGo (t : RTok) : Option Char → List Char → Bool
  | pv, u =>
    !(matchTok t (pv, u)).isEmpty ||
      (match u with
       | [] => false
       | c :: r => testPatGo t (some c) r)

def testPat (t : RTok) (s : List Char) : Bool := testPatGo t none s

def seqs (l : List RTok) : RTok := l.foldr RTok.seqT RTok.eps

def alts (l : List RTok) : RTok := l.foldr RTok.altT RTok.failT

def litT (s : String) : RTok := RTok.litC s.data

def wsStar : RTok := RTok.clsStar isWsChar

def aposTok : RTok := RTok.cls (fun c => c = aposC)

/-- The `titlePatterns` table of `groupPagesByRoom`:
`(pattern, canonical room name, specificity score)` in source order. -/
def titlePatterns : List (RTok × List Char × Nat) :=
  [(seqs [litT "Kid", .opt (litT "s"), wsStar,
      .opt (seqs [aposTok, .opt (litT "s"), wsStar]), litT "Club"],
    ("Kids Club").data, 10),
   (seqs [litT "Art", .opt (litT "s"), wsStar,
      .opt (alts [litT "&", litT "and", seqs [.opt aposTok, litT "n", .opt aposTok]]),
      wsStar, litT "Craft", .opt (litT "s")],
    ("Arts & Crafts").data, 10),
   (seqs [litT "Service", wsStar, litT "Manager"], ("Service Manager").data, 10),
   (seqs [litT "Reception", wsStar, litT "Desk"], ("Reception Desk").data, 10),
   (seqs [litT "Team", wsStar, alts [litT "Member", litT "Memb"]],
    ("Team Members").data, 10),
   (seqs [litT "Team", wsStar, litT "Room"], ("Team Room").data, 10),
   (seqs [litT "Men", .opt aposTok, .opt (litT "s"), wsStar,
      alts [litT "Vanit", litT "Locker", litT "Restroom"]],
    ("Mens Vanity").data, 10),
   (seqs [litT "Wom", .cls (fun c => c.toLower = 'e' || c.toLower = 'a'), litT "n",
      .opt aposTok, .opt (litT "s"), wsStar,
      alts [litT "Vanit", litT "Locker", litT "Restroom"]],
    ("Womens Vanity").data, 10),
   (seqs [litT "Vanit", alts [litT "y", litT "ies"], wsStar, litT "Detail"],
    ("Vanity Details").data, 10),
   (seqs [litT "Retail", wsStar,
      alts [litT "Display", litT "Trellis", litT "Area", litT "Ceiling"]],
    ("Retail Trellis").data, 10),
   (seqs [litT "Break", wsStar, litT "Room"], ("Break Room").data, 10),
   (seqs [litT "Nurse", wsStar, litT "Station"], ("Nurse Station").data, 10),
   (seqs [litT "Check", .clsStar (fun c => isWsChar c || c = '-'),
      alts [litT "In", litT "Out"]],
    ("Check-In-Out").data, 10),
   (seqs [litT "Conference", wsStar, litT "Room"], ("Conference Room").data, 10),
   (seqs [litT "Equip", .opt (litT "ment"), wsStar, litT "Cab"],
    ("Equipment Cabinet").data, 10),
   (seqs [litT "Stereo", wsStar, alts [litT "Equip", litT "Cab"]],
    ("Equipment Cabinet").data, 10),
   (litT "Janitor", ("Janitor").data, 10),
   (litT "Laundry", ("Laundry").data, 10),
   (seqs [litT "First", wsStar, litT "Floor", wsStar, litT "Plan"],
    ("First Floor").data, 10),
   (seqs [litT "Floor", wsStar, litT "Plan"], ("First Floor").data, 8),
   (seqs [.lb, litT "Locker"], ("Team Members").data, 5),
   (seqs [.lb, litT "Vanit", alts [litT "y", litT "ies"], .rb],
    ("Vanity Details").data, 5),
   (seqs [.lb, litT "Trellis", .rb], ("Retail Trellis").data, 5),
   (seqs [.lb, litT "Retail", .rb], ("Retail Trellis").data, 5),
   (seqs [.lb, litT "Lobby", .rb], ("Lobby").data, 5),
   (seqs [.lb, litT "Kitchen", .rb], ("Kitchen").data, 5),
   (seqs [.lb, litT "Mirror"], ("Vanity Details").data, 5),
   (seqs [.lb, litT "Unisex", .rb], ("Unisex").data, 5),
   (seqs [.lb, litT "Pool", .rb], ("Pool Area").data, 5),
   (seqs [.lb, litT "Fitness", .rb], ("Fitness Area").data, 5),
   (seqs [.lb, litT "Stereo", .rb], ("Service Manager").data, 5),
   (seqs [.lb, litT "AV", wsStar, litT "Equip"], ("Service Manager").data, 5)]

/-- The `(.+)` tail of the sheet-reference regex after its `\s*`:
the capture and the number of characters consumed by both, or `none`
when no non-newline character is reachable. -/
def dotPlusAfterWs (rest : List Char) : Option (List Char × Nat) :=
  let w := rest.takeWhile isWsChar
  let r2 := rest.drop w.length
  match r2 with
  | c :: _ =>
    if c = '\n' then
      let rtn := w.reverse.dropWhile (fun d => d = '\n')
      match rtn with
      | [] => none
      | d :: _ => some ([d], rtn.length)
    else
      let cap := r2.takeWhile (fun d => d ≠ '\n')
      some (cap, w.length + cap.length)
  | [] =>
    let rtn := w.reverse.dropWhile (fun d => d = '\n')
    match rtn with
    | [] => none
    | d :: _ => some ([d], rtn.length)

/-- Match the sheet-reference regex
`([AT]\d+[.\-]\d+)\s*[-–—:]\s*(.+)` (with the `i` flag) at the head of
`s`: the second capture and the match length. -/
def tryShRefAt (s : List Char) : Option (List Char × Nat) :=
  match s with
  | c :: r1 =>
    if c.toLower = 'a' || c.toLower = 't' then
      let d1 := r1.takeWhile isDigitChar
      if d1.isEmpty then none
      else
        match r1.drop d1.length with
        | p :: r2 =>
          if p = '.' || p = '-' then
            let d2 := r2.takeWhile isDigitChar
            if d2.isEmpty then none
            else
              let r3 := r2.drop d2.length
              let w1 := r3.takeWhile isWsChar
              match r3.drop w1.length with
              | dch :: r5 =>
                if dch = '-' || dch = Char.ofNat 8211 || dch = Char.ofNat 8212 ||
                    dch = ':' then
                  match dotPlusAfterWs r5 with
                  | some (cap, consumed) =>
                    some (cap, 1 + d1.length + 1 + d2.length + w1.length + 1 + consumed)
                  | none => none
                else none
              | [] => none
          else none
        | [] => none
    else none
  | [] => none

/-- Global scan collecting the trimmed second captures of the
sheet-reference regex (`sheetRefs.push(sm[2].trim())`). -/
def sheetRefGo : Nat → List Char → List (List Char)
  | 0, _ => []
  | fuel + 1, s =>
    match s with
    | [] => []
    | c :: cs =>
      match tryShRefAt (c :: cs) with
      | some (cap, len) => trimL cap :: sheetRefGo fuel ((c :: cs).drop len)
      | none => sheetRefGo fuel cs

def sheetRefScan (text : List Char) : List (List Char) :=
  sheetRefGo (text.length + 1) text

/-- The heading class `[A-Z\s']` of the detail-heading regex under the
`i` flag. -/
def headingCls (c : Char) : Bool :=
  c.isAlpha || isWsChar c || c = aposC

/-- One of `PLAN|DETAIL|SECTION|ELEVATION` (case-insensitive) as a
prefix, with its length. -/
def headingKeyword (u : List Char) : Option Nat :=
  if startsWithCI ("PLAN").data u then some 4
  else if startsWithCI ("DETAIL").data u then some 6
  else if startsWithCI ("SECTION").data u then some 7
  else if startsWithCI ("ELEVATION").data u then some 9
  else none

/-- The lazy part of the detail-heading regex: grow the capture
(characters of `[A-Z\s']`, at least one) minimally until `\s*` plus a
keyword follows; returns the capture and the characters consumed after
it. -/
def detailCapGo : Nat → List Char → List Char → Option (List Char × Nat)
  | 0, _, _ => none
  | fuel + 1, acc, u =>
    let w := u.takeWhile isWsChar
    match headingKeyword (u.drop w.length) with
    | some klen => if acc.isEmpty then none else some (acc, w.length + klen)
    | none =>
      match u with
      | c :: r => if headingCls c then detailCapGo fuel (acc ++ [c]) r else none
      | [] => none

/-- Match the detail-heading regex
`ENLARGED\s+([A-Z][A-Z\s']+?)\s*(?:PLAN|DETAIL|SECTION|ELEVATION)` (with
the `i` flag) at the head of `s`: the capture and the match length. -/
def tryDetailAt (s : List Char) : Option (List Char × Nat) :=
  if startsWithCI ("ENLARGED").data s then
    let r1 := s.drop 8
    let w1 := r1.takeWhile isWsChar
    if w1.isEmpty then none
    else
      let r2 := r1.drop w1.length
      match r2 with
      | c :: r3 =>
        if c.isAlpha then
          match detailCapGo (r3.length + 1) [] r3 with
          | some (cap, after) =>
            some (c :: cap, 8 + w1.length + 1 + cap.length + after)
          | none => none
        else none
      | [] => none
  else none

/-- Global scan collecting the trimmed first captures of the
detail-heading regex (`detailHeadings.push(dm[1].trim())`). -/
def detailGo : Nat → List Char → List (List Char)
  | 0, _ => []
  | fuel + 1, s =>
    match s with
    | [] => []
    | c :: cs =>
      match tryDetailAt (c :: cs) with
      | some (cap, len) => trimL cap :: detailGo fuel ((c :: cs).drop len)
      | none => detailGo fuel cs

def detailScan (text : List Char) : List (List Char) :=
  detailGo (text.length + 1) text

/-- The title zone: first 600 and last 600 characters of the page. -/
def titleZone (text : List Char) : List Char :=
  text.take 600 ++ '\n' :: text.drop (text.length - 600)

/-- First room pattern (in table order) matching a heading or reference
(`break` at the first match). -/
def firstPatternRoom (h : List Char) : Option (List Char) :=
  titlePatterns.findSome? fun e => if testPat e.1 h then some e.2.1 else none

/-- The multi-detail branch's matched room set, in `Set` insertion
order: first the detail headings, then the sheet references. -/
def matchedRoomsMulti (headings refs : List (List Char)) : List (List Char) :=
  let step : List (List Char) → List Char → List (List Char) := fun acc h =>
    match firstPatternRoom h with
    | some name => if acc.contains name then acc else acc ++ [name]
    | none => acc
  refs.foldl step (headings.foldl step [])

/-- The single-room scoring of `groupPagesByRoom`: scan the table in
order, checking the title zone and, per pattern, every sheet reference
(score + 5); fall back to a full-text scan of the score-ten tier. -/
def bestRoomFor (zone : List Char) (refs : List (List Char)) (text : List Char) :
    List Char :=
  let best :=
    titlePatterns.foldl
      (fun (b : List Char × Nat) e =>
        let b1 := if testPat e.1 zone ∧ b.2 < e.2.2 then (e.2.1, e.2.2) else b
        refs.foldl
          (fun bb ref => if testPat e.1 ref ∧ bb.2 < e.2.2 + 5 then (e.2.1, e.2.2 + 5) else bb)
          b1)
      (("Unclassified").data, 0)
  if best.2 = 0 then
    (titlePatterns.foldl
      (fun (b : List Char × Nat) e =>
        if 10 ≤ e.2.2 ∧ testPat e.1 text ∧ b.2 < e.2.2 then (e.2.1, e.2.2) else b)
      best).1
  else best.1

/-- Append a page number under a room name in the insertion-ordered
room map; `checkDup` reflects the duplicate check of the multi-detail
branch. -/
def mapPush (m : List (List Char × List Nat)) (name : List Char) (pn : Nat)
    (checkDup : Bool) : List (List Char × List Nat) :=
  match m with
  | [] => [(name, [pn])]
  | e :: t =>
    if e.1 = name then (e.1, if checkDup && e.2.contains pn then e.2 else e.2 ++ [pn]) :: t
    else e :: mapPush t name pn checkDup

/-- `RoomInfo` of `scope-extractor-v14.ts`. -/
structure RoomInfo where
  roomName : List Char
  roomId : List Char
  pageNums : List Nat
deriving Repr, DecidableEq

/-- `String(idx).padStart(3, "0")`. -/
def padThree (n : Nat) : List Char :=
  let ds := Nat.toDigits 10 n
  if 3 ≤ ds.length then ds else List.replicate (3 - ds.length) '0' ++ ds

/-- Whether a page takes the multi-detail branch, and the rooms it is
then assigned to. -/
def multiRooms (p : PageText) : List (List Char) :=
  let headings := detailScan p.text
  if 3 ≤ headings.length then matchedRoomsMulti headings (sheetRefScan p.text) else []

/-- The room a page is assigned to by the single-room branch. -/
def singleRoom (p : PageText) : List Char :=
  bestRoomFor (titleZone p.text) (sheetRefScan p.text) p.text

/-- Process one page into the room map (the loop body of
`groupPagesByRoom`). -/
def groupStep (m : List (List Char × List Nat)) (p : PageText) :
    List (List Char × List Nat) :=
  let rooms := multiRooms p
  if rooms.isEmpty then mapPush m (singleRoom p) p.pageNum false
  else rooms.foldl (fun mm nm => mapPush mm nm p.pageNum true) m

/-- `groupPagesByRoom` of `scope-extractor-v14.ts`. -/
def groupPagesByRoom (pages : List PageText) : List RoomInfo :=
  ((pages.foldl groupStep []).enum).map fun e =>
    ⟨e.2.1, ("ROOM-").data ++ padThree (e.1 + 1), e.2.2⟩

/-! ## Front-end page assembly (`extractTextFromPdf` of the upload page) -/

/-- The numbered page marker the front end emits before each page's text,
with the page number rendered as the digit string `ds`. -/
def pageMarker (ds : List Char) : List Char :=
  ("--- PAGE ").data ++ ds ++ (" ---").data

/-- The unnumbered page-break marker form accepted by the same regex. -/
def breakMarker : List Char := ("--- PAGE BREAK ---").data

/-- `extractTextFromPdf` of the front end: each page is rendered as its
numbered marker, a newline and the page text, and the rendered pages are
joined with blank lines. -/
def assemblePdf (ps : List (List Char × List Char)) : List Char :=
  interL ('\n' :: ['\n']) (ps.map fun p => pageMarker p.1 ++ '\n' :: p.2)

/-- The same document shape with unnumbered break markers between the
page texts instead of numbered markers before them. -/
def assembleBreak (ts : List (List Char)) : List Char :=
  interL (('\n' :: ['\n']) ++ breakMarker ++ ['\n']) ts

/-- The tail of the parts list `text.split(markerRegex)` produces on
`assemblePdf` input: alternating digit captures and page bodies. -/
def pageParts : List (List Char × List Char) → List (Option (List Char))
  | [] => []
  | [p] => [some p.1, some ('\n' :: p.2)]
  | p :: q :: ps => some p.1 :: some ('\n' :: p.2 ++ ['\n', '\n']) :: pageParts (q :: ps)

/-- The tail of the parts list on `assembleBreak` input after the first
body and its marker: page bodies separated by non-participating
(`undefined`) captures. -/
def breakTailFrom : List (List Char) → List (Option (List Char))
  | [] => []
  | [t] => [some ('\n' :: t)]
  | t :: q :: ts => some ('\n' :: t ++ ['\n', '\n']) :: none :: breakTailFrom (q :: ts)

/-- Pages numbered consecutively from `pn + 1`, with trimmed texts. -/
def numberedFrom (pn : Nat) : List (List Char) → List PageText
  | [] => []
  | t :: ts => ⟨pn + 1, trimL t⟩ :: numberedFrom (pn + 1) ts

/-- The rooms one iteration of the `groupPagesByRoom` loop assigns a
page to: the single scored room when the multi-detail branch does not
fire, otherwise every matched room of the multi-detail branch (read
directly off the two branches of `groupStep`). -/
def roomsOf (p : PageText) : List (List Char) :=
  if multiRooms p = [] then [singleRoom p] else multiRooms p

/-! ## Theorems -/

/-- C2: evaluation of `sanitizeToon` at a failing input.  A data line
with 29 semicolon-separated fields (one more than the 28 columns of
`MW_ITEM_SCHEMA_V14`) is repaired to exactly 28 fields with no field
discarded, but the two excess-adjacent fields are merged (dash-joined)
into column 2, which the v14 schema declares as `assembly_name`; the
`description` column is at index 5 and receives the field that
originally followed it, not the merged text.  The code's own comment
says the merge targets the description field. -/
theorem c2_excess_merge_lands_in_assembly_name :
    sanitizeToon (("ID1;ASSY1;AN;SEC;base_cabinet;Desc;Room;L1;Z;2;EA;1;2;3;4;extracted;Mat;PL-01;F;FC;E;HT;HS;WBS;A8.10;D1;high;notes;EXTRA").data) =
      ("ID1;ASSY1;AN - SEC;base_cabinet;Desc;Room;L1;Z;2;EA;1;2;3;4;extracted;Mat;PL-01;F;FC;E;HT;HS;WBS;A8.10;D1;high;notes;EXTRA").data ∧
    (splitOnC ';'
      (sanitizeToon (("ID1;ASSY1;AN;SEC;base_cabinet;Desc;Room;L1;Z;2;EA;1;2;3;4;extracted;Mat;PL-01;F;FC;E;HT;HS;WBS;A8.10;D1;high;notes;EXTRA").data))).length =
      expectedColsV14 ∧
    (splitOnC ';'
      (sanitizeToon (("ID1;ASSY1;AN;SEC;base_cabinet;Desc;Room;L1;Z;2;EA;1;2;3;4;extracted;Mat;PL-01;F;FC;E;HT;HS;WBS;A8.10;D1;high;notes;EXTRA").data))).getD 2 [] =
      ("AN - SEC").data ∧
    (splitOnC ';'
      (sanitizeToon (("ID1;ASSY1;AN;SEC;base_cabinet;Desc;Room;L1;Z;2;EA;1;2;3;4;extracted;Mat;PL-01;F;FC;E;HT;HS;WBS;A8.10;D1;high;notes;EXTRA").data))).getD descColV14 [] =
      ("Room").data ∧
    MW_ITEM_SCHEMA_V14.getD 2 "" = "assembly_name" ∧
    MW_ITEM_SCHEMA_V14.getD descColV14 "" = "description" := by
  decide

/-- C9, counterexample: on the known-default row
width=610, height=876, depth=610 (mm), `validateDimensions` sets the
dimension provenance to the string `default_FLAGGED`, not to
`flagged-default` as the claim states (it does set confidence to `low`
and keeps the dimension values). -/
theorem c9_counterexample_marker_string :
    (validateDimensions
        [⟨("MW-1").data, [], ("610").data, ("876").data, ("610").data,
          ("extracted").data, ("high").data, []⟩]).1 =
      [⟨("MW-1").data, [], ("610").data, ("876").data, ("610").data,
        ("default_FLAGGED").data, ("low").data, defaultDimsNote⟩] ∧
    ("default_FLAGGED").data ≠ ("flagged-default").data := by
  constructor
  · decide!
  · decide

/-- C6, counterexample: for the notation `0'-0 1/64"` the scanner emits
exactly one hint whose stored `inches` field is `0.02` (the exact value
`1/64` rounded to two decimals) and whose `mm` field is `0`, while
`round(0.02 × 25.4) = 1`: the `mm` field is not derived from the stored
`inches` field. -/
theorem c6_counterexample_mm_not_from_rounded_inches :
    (extractDimensions (("0'-0 1/64\"").data)).map (fun h => (h.inches, h.mm)) =
      [((1 : ℚ)/50, (0 : ℤ))] ∧
    ∀ h ∈ extractDimensions (("0'-0 1/64\"").data),
      h.mm ≠ jsRound (h.inches * (254 / 10)) := by
  refine ⟨by decide!, ?_⟩
  decide!

/-- C5, counterexample: the bare notation `200"` resolves to 200 inches,
strictly between 0 and 600, and the bare-inches pattern matches it, yet
`extractDimensions` emits no hint (the bare branch caps at 120 inches). -/
theorem c5_counterexample_200in_dropped :
    extractDimensions (("200\"").data) = [] ∧
    bareMatchAt (("200\"").data) 0 = some (("200").data, 4) ∧
    (jsParseFloatQ (("200").data)).getD 0 = 200 ∧
    (0 : ℚ) < 200 ∧ (200 : ℚ) < 600 := by
  refine ⟨by decide!, by decide, by decide!, by norm_num, by norm_num⟩

/-- C3, counterexample: an input whose first line is the expected header
followed by a trailing space is not an exact string match to the
expected header, yet the handler's validation accepts it and decode
succeeds — the boundary check is exact only up to trimming. -/
theorem c3_counterexample_trailing_space_accepted :
    handlerDecode (HEADER_V14 ++ [' ']) = some [] ∧
    (splitOnC '\n' (removeCR (HEADER_V14 ++ [' ']))).headD [] ≠ HEADER_V14 := by
  exact ⟨by decide, by decide⟩

/-- C1, counterexample: a field value containing a newline is quoted by
`encodeToon` exactly as the escaping rule declares, yet `decodeToon`
splits the text into lines before reading quotes, so the single encoded
row decodes as two rows. -/
theorem c1_counterexample_newline_field :
    decodeToon (encodeToon [[("x\ny").data]] [['a']]) =
      some [[("x").data], [("y").data]] ∧
    [[("x").data], [("y").data]] ≠ [[("x\ny").data]] := by
  exact ⟨by decide, by decide⟩

/-- C4, counterexample: both repair passes fail idempotence.  A line
with one excess field whose merged description contains an embedded
comma-TOON fragment passes Fix 1 on the first run of `sanitizeToon`
(which skips Fix 2 via `continue`) and only then matches Fix 2 on the
second run; and `cleanupRows`' Pattern B rewrites the description to the
item type, so the second run sees the keyword pair `rubber … base` that
the first run did not. -/
theorem c4_counterexample_not_idempotent :
    (sanitizeToon (sanitizeToon
        (("a;b;x,1,2,3,4,5,Reception Desk,y;z;;;;;;;;;;;;;;;;;;;;;;;;;").data)) ≠
      sanitizeToon (("a;b;x,1,2,3,4,5,Reception Desk,y;z;;;;;;;;;;;;;;;;;;;;;;;;;").data)) ∧
    (cleanupRows (cleanupRows
        [⟨("base rubber").data, ("Lobby").data, ("Lobby").data, [], ("EA").data, [],
          [], ("high").data, [], [], [], JVal.str [('1')], JVal.str [], JVal.str [],
          false⟩]) ≠
      cleanupRows
        [⟨("base rubber").data, ("Lobby").data, ("Lobby").data, [], ("EA").data, [],
          [], ("high").data, [], [], [], JVal.str [('1')], JVal.str [], JVal.str [],
          false⟩]) := by
  exact ⟨by decide, by decide!⟩

/-- C7, counterexample: a page with three detail headings none of which
matches any room pattern is, by the claim, outside the multi-room
exception and must land in exactly one group; but `groupPagesByRoom`
triggers the multi-room branch on its sheet-reference matches alone and
assigns the page to two rooms. -/
theorem c7_counterexample_sheet_refs_trigger_multi :
    groupPagesByRoom
        [⟨1, ("ENLARGED WIDGET PLAN\nENLARGED WIDGET DETAIL\nENLARGED WIDGET SECTION\nA1.1 - KITCHEN\nA1.2 - LOBBY").data⟩] =
      [⟨("Kitchen").data, ("ROOM-001").data, [1]⟩,
       ⟨("Lobby").data, ("ROOM-002").data, [1]⟩] ∧
    detailScan (("ENLARGED WIDGET PLAN\nENLARGED WIDGET DETAIL\nENLARGED WIDGET SECTION\nA1.1 - KITCHEN\nA1.2 - LOBBY").data) =
      [("WIDGET").data, ("WIDGET").data, ("WIDGET").data] ∧
    (∀ h ∈ detailScan (("ENLARGED WIDGET PLAN\nENLARGED WIDGET DETAIL\nENLARGED WIDGET SECTION\nA1.1 - KITCHEN\nA1.2 - LOBBY").data),
      firstPatternRoom h = none) := by
  refine ⟨by decide, by decide, ?_⟩
  decide

/-- The rows component of `validateDimensions` is the per-row map. -/
theorem validateDimensions_fst_aux (l : List (Nat × PRow))
    (acc : List PRow × List (List Char)) :
    (l.foldl
        (fun acc p =>
          let res := validateRow p.2 p.1
          (acc.1 ++ [res.1], acc.2 ++ res.2)) acc).1 =
      acc.1 ++ l.map fun p => (validateRow p.2 p.1).1 := by
  induction l generalizing acc with
  | nil => simp
  | cons hd tl ih => simp [ih]

theorem validateDimensions_fst (rows : List PRow) :
    (validateDimensions rows).1 = rows.enum.map fun p => (validateRow p.2 p.1).1 := by
  simpa [validateDimensions] using validateDimensions_fst_aux rows.enum ([], [])

/-- On a default-dimension row, `validateRow` flags the provenance and
confidence and leaves every dimension field unchanged. -/
theorem validateRow_flags (r : PRow) (idx : Nat)
    (hdef : isDefaultDimension r = true) :
    (validateRow r idx).1.dim_source = ("default_FLAGGED").data ∧
    (validateRow r idx).1.confidence = ("low").data ∧
    (validateRow r idx).1.width_mm = r.width_mm ∧
    (validateRow r idx).1.height_mm = r.height_mm ∧
    (validateRow r idx).1.depth_mm = r.depth_mm ∧
    (validateRow r idx).1.length_mm = r.length_mm := by
  unfold validateRow
  simp only [hdef, if_true]
  split <;> split <;> split <;> simp

/-- C9, amended: for every row whose width/height/depth (mm) lie within
the `< 5 mm` tolerance of an entry of `KNOWN_DEFAULTS_MM` (that is,
`isDefaultDimension` holds — in particular width 610, depth 610,
height 876), `validateDimensions` sets `dim_source` to the
`default_FLAGGED` marker, sets confidence to `low`, and leaves the
stored dimension values unchanged. -/
theorem c9_amended_default_flagging (rows : List PRow) (i : Nat) (r : PRow)
    (hget : rows.get? i = some r) (hdef : isDefaultDimension r = true) :
    ∃ r', ((validateDimensions rows).1).get? i = some r' ∧
      r'.dim_source = ("default_FLAGGED").data ∧
      r'.confidence = ("low").data ∧
      r'.width_mm = r.width_mm ∧ r'.height_mm = r.height_mm ∧
      r'.depth_mm = r.depth_mm ∧ r'.length_mm = r.length_mm := by
  refine ⟨(validateRow r i).1, ?_, ?_⟩
  · rw [validateDimensions_fst, List.get?_map, List.get?_enum, hget]
    rfl
  · exact validateRow_flags r i hdef

/-- C9, witness: the amended theorem at the concrete known-default row
width 610, height 876, depth 610. -/
theorem c9_amended_default_flagging_witness :
    ∃ r', ((validateDimensions
        [⟨("MW-1").data, [], ("610").data, ("876").data, ("610").data,
          ("extracted").data, ("high").data, []⟩]).1).get? 0 = some r' ∧
      r'.dim_source = ("default_FLAGGED").data ∧
      r'.confidence = ("low").data ∧
      r'.width_mm = ("610").data ∧ r'.height_mm = ("876").data ∧
      r'.depth_mm = ("610").data ∧ r'.length_mm = [] := by
  exact c9_amended_default_flagging
    [⟨("MW-1").data, [], ("610").data, ("876").data, ("610").data,
      ("extracted").data, ("high").data, []⟩] 0
    ⟨("MW-1").data, [], ("610").data, ("876").data, ("610").data,
      ("extracted").data, ("high").data, []⟩ (by decide) (by decide!)

/-- Dropping a predicate-satisfying prefix skips it entirely. -/
theorem dropWhile_append_all {p : Char → Bool} {l1 : List Char} (l2 : List Char)
    (h : l1.all p = true) : (l1 ++ l2).dropWhile p = l2.dropWhile p := by
  induction l1 with
  | nil => rfl
  | cons c t ih =>
    simp only [List.all_cons, Bool.and_eq_true] at h
    simp [List.dropWhile, h.1, ih h.2]

/-- Members of a feet-inches scan come from `tryFtInAt` at their index. -/
theorem ftScanGo_mem (line : List Char) (fuel idx : Nat) (m : Nat × FtParts)
    (hm : m ∈ ftScanGo line fuel idx) : tryFtInAt (line.drop m.1) = some m.2 := by
  induction fuel generalizing idx with
  | zero => simp [ftScanGo] at hm
  | succ fuel ih =>
    unfold ftScanGo at hm
    split at hm
    · simp at hm
    · cases htry : tryFtInAt (line.drop idx) with
      | some p =>
        rw [htry] at hm
        rcases List.mem_cons.mp hm with rfl | hm2
        · exact htry
        · exact ih _ hm2
      | none =>
        rw [htry] at hm
        exact ih _ hm

/-- Decomposition along `spanP`. -/
theorem spanP_eq (f : Char → Bool) (s : List Char) :
    s = (spanP f s).1 ++ (spanP f s).2 :=
  (@List.takeWhile_append_dropWhile _ f s).symm

theorem spanP_all (f : Char → Bool) (s : List Char) :
    (spanP f s).1.all f = true := List.all_takeWhile ..

/-- Decomposition along `dashSplit`. -/
theorem dashSplit_eq (r : List Char) :
    r = (dashSplit r).1 ++ (dashSplit r).2 ∧
      ((dashSplit r).1 = [] ∨ (dashSplit r).1 = ['-']) := by
  unfold dashSplit
  split <;> simp

/-- The shape of a successful match of the post-apostrophe part. -/
theorem ftAfterApos_structure (fdigits r2 : List Char) (p : FtParts)
    (h : ftAfterApos fdigits r2 = some p) :
    p.feetD = fdigits ∧
      (∃ rest, r2 = p.ws1 ++ (p.dash ++ (p.ws2 ++ rest))) ∧
      p.ws1.all isWsChar = true ∧ p.ws2.all isWsChar = true ∧
      (p.dash = [] ∨ p.dash = ['-']) := by
  simp only [ftAfterApos] at h
  split at h
  · exact absurd h (by simp)
  · rw [Option.some.injEq] at h
    subst h
    refine ⟨rfl,
      ⟨(spanP isWsChar (dashSplit (spanP isWsChar r2).2).2).2, ?_⟩,
      spanP_all .., spanP_all .., (dashSplit_eq _).2⟩
    conv_lhs => rw [spanP_eq isWsChar r2]
    congr 1
    conv_lhs => rw [(dashSplit_eq ((spanP isWsChar r2).2)).1]
    congr 1
    exact spanP_eq isWsChar _

/-- The shape of a successful feet-inches match: the input decomposes
into digits, an apostrophe, whitespace, an optional dash, whitespace and
a tail, with the recorded components. -/
theorem tryFtInAt_structure (s : List Char) (p : FtParts)
    (h : tryFtInAt s = some p) :
    (∃ rest, s = p.feetD ++ aposC :: (p.ws1 ++ (p.dash ++ (p.ws2 ++ rest)))) ∧
      ¬ p.feetD.isEmpty ∧ p.feetD.all isDigitChar = true ∧
      p.ws1.all isWsChar = true ∧ p.ws2.all isWsChar = true ∧
      (p.dash = [] ∨ p.dash = ['-']) := by
  simp only [tryFtInAt] at h
  split at h
  · exact absurd h (by simp)
  next hfd =>
    cases hdrop : (spanP isDigitChar s).2 with
    | nil => rw [hdrop] at h; exact absurd h (by simp)
    | cons c r2 =>
      rw [hdrop] at h
      have h2 : (if c = aposC then ftAfterApos (spanP isDigitChar s).1 r2 else none) =
          some p := h
      by_cases hc : c = aposC
      · rw [if_pos hc] at h2
        obtain ⟨hfde, ⟨rest, hr2⟩, hw1, hw2, hdash⟩ := ftAfterApos_structure _ _ _ h2
        refine ⟨⟨rest, ?_⟩, ?_, ?_, hw1, hw2, hdash⟩
        · conv_lhs => rw [spanP_eq isDigitChar s, hdrop]
          rw [hfde, hc, hr2]
        · rw [hfde]; exact fun he => hfd (by simpa using he)
        · rw [hfde]; exact spanP_all ..
      · rw [if_neg hc] at h2
        exact absurd h2 (by simp)

/-- A text that ends with digits, an apostrophe, whitespace, an optional
dash and whitespace satisfies the negative-lookbehind test. -/
theorem endsWithFtPfx_true (A fd w1 dash w2 : List Char)
    (hfd : ¬ fd.isEmpty) (hfdd : fd.all isDigitChar = true)
    (hw1 : w1.all isWsChar = true) (hw2 : w2.all isWsChar = true)
    (hdash : dash = [] ∨ dash = ['-']) :
    endsWithFtPfx (A ++ fd ++ aposC :: (w1 ++ (dash ++ w2))) = true := by
  obtain ⟨d, fr, hfe, hd⟩ : ∃ d fr, fd.reverse = d :: fr ∧ isDigitChar d = true := by
    cases hfe : fd.reverse with
    | nil =>
      have : fd = [] := by simpa using congrArg List.reverse hfe
      subst this
      simp at hfd
    | cons d fr =>
      have hdmem : d ∈ fd := by
        rw [← List.mem_reverse, hfe]
        exact List.mem_cons_self d fr
      exact ⟨d, fr, rfl, List.all_eq_true.mp hfdd d hdmem⟩
  have hwr1 : w1.reverse.all isWsChar = true := by simpa using hw1
  have hwr2 : w2.reverse.all isWsChar = true := by simpa using hw2
  have haposWs : isWsChar aposC = false := by decide
  have hdashWs : isWsChar '-' = false := by decide
  have haposDash : (aposC = '-') = False := by simp [aposC]
  unfold endsWithFtPfx
  rcases hdash with rfl | rfl
  · simp only [List.append_nil, List.reverse_append, List.reverse_cons, List.reverse_nil,
      List.nil_append, List.append_assoc, hfe, List.cons_append, List.singleton_append]
    have h1 : List.dropWhile isWsChar
        (w2.reverse ++ (w1.reverse ++ aposC :: d :: (fr ++ A.reverse))) =
        aposC :: d :: (fr ++ A.reverse) := by
      rw [dropWhile_append_all _ hwr2, dropWhile_append_all _ hwr1,
        List.dropWhile_cons, haposWs]
      simp
    rw [h1]
    simp [haposDash, hd]
  · simp only [List.reverse_append, List.reverse_cons, List.reverse_nil,
      List.nil_append, List.append_assoc, hfe, List.cons_append, List.singleton_append]
    have h1 : List.dropWhile isWsChar
        (w2.reverse ++ '-' :: (w1.reverse ++ aposC :: d :: (fr ++ A.reverse))) =
        '-' :: (w1.reverse ++ aposC :: d :: (fr ++ A.reverse)) := by
      rw [dropWhile_append_all _ hwr2, List.dropWhile_cons, hdashWs]
      simp
    have h2 : List.dropWhile isWsChar
        (w1.reverse ++ aposC :: d :: (fr ++ A.reverse)) =
        aposC :: d :: (fr ++ A.reverse) := by
      rw [dropWhile_append_all _ hwr1, List.dropWhile_cons, haposWs]
      simp
    rw [h1]
    simp only [if_pos rfl, h2]
    simp [hd]

/-- Every hint added by the bare-inches scan loop comes from a position
where the full bare-match condition holds, carries that match's trimmed
raw text and its exact parsed inch value, derives its millimetres from
that same value, and lies within the bare-branch bounds. -/
theorem bareScanGo_emits (line : List Char) (ln : Nat) :
    ∀ (fuel idx : Nat) (hints : List DimHint) (h : DimHint),
      h ∈ bareScanGo line ln fuel idx hints →
      h ∈ hints ∨
        ∃ q numTxt len, bareMatchAt line q = some (numTxt, len) ∧
          h.raw = trimL ((line.drop q).take len) ∧
          h.inches = (jsParseFloatQ numTxt).getD 0 ∧
          h.mm = inchesToMm h.inches ∧
          (1 : ℚ)/4 ≤ h.inches ∧ h.inches ≤ 120 ∧ h.line = ln := by
  intro fuel
  induction fuel with
  | zero => intro idx hints h hm; exact Or.inl hm
  | succ fuel ih =>
    intro idx hints h hm
    unfold bareScanGo at hm
    split at hm
    · exact Or.inl hm
    · cases hbm : bareMatchAt line idx with
      | none => rw [hbm] at hm; exact ih _ _ _ hm
      | some r =>
        obtain ⟨numTxt, len⟩ := r
        rw [hbm] at hm
        simp only [] at hm
        rcases ih _ _ _ hm with hin | hnew
        · by_cases hc : ((1 : ℚ)/4 ≤ (jsParseFloatQ numTxt).getD 0 ∧
              (jsParseFloatQ numTxt).getD 0 ≤ 120) ∧
              ¬ hints.any (fun hh => hh.line = ln &&
                hasSub (trimL ((line.drop idx).take len)) hh.context)
          · rw [if_pos hc] at hin
            rcases List.mem_append.mp hin with hold | hnew2
            · exact Or.inl hold
            · right
              rcases List.mem_singleton.mp hnew2 with rfl
              exact ⟨idx, numTxt, len, hbm, rfl, rfl, rfl, hc.1.1, hc.1.2, rfl⟩
          · rw [if_neg hc] at hin
            exact Or.inl hin
        · exact Or.inr hnew

/-- Every hint of the feet-inches branch stores the two-decimal rounding
of the exact parsed inch value of its match, derives its millimetres
from the exact value, and that value lies strictly between 0 and 600. -/
theorem ftHintsLine_shape (line : List Char) (ln : Nat) (h : DimHint)
    (hm : h ∈ ftHintsLine line ln) :
    ∃ i : ℚ, h.inches = round2 i ∧ h.mm = inchesToMm i ∧ 0 < i ∧ i < 600 ∧
      h.line = ln := by
  unfold ftHintsLine at hm
  rw [List.mem_filterMap] at hm
  obtain ⟨m, _, heq⟩ := hm
  simp only [] at heq
  cases harch : archDimToInches (trimL (ftText m.2)) with
  | none => rw [harch] at heq; simp at heq
  | some inch =>
    rw [harch] at heq
    have heq2 : (if 0 < inch ∧ inch < 600 then
        some (⟨trimL (ftText m.2), round2 inch, inchesToMm inch,
          contextWindow line m.1 (ftLen m.2), ln⟩ : DimHint) else none) = some h := heq
    by_cases hr : 0 < inch ∧ inch < 600
    · rw [if_pos hr] at heq2
      rw [Option.some.injEq] at heq2
      subst heq2
      exact ⟨inch, rfl, rfl, hr.1, hr.2, rfl⟩
    · rw [if_neg hr] at heq2
      simp at heq2

/-- Invariance of a hint predicate under the whole dimension scan. -/
theorem extractDimensions_mem_inv (P : DimHint → Prop)
    (hft : ∀ line ln h, h ∈ ftHintsLine line ln → P h)
    (hbare : ∀ line ln fuel idx hints h, (∀ g ∈ hints, P g) →
      h ∈ bareScanGo line ln fuel idx hints → P h)
    (text : List Char) (h : DimHint) (hm : h ∈ extractDimensions text) : P h := by
  unfold extractDimensions at hm
  have main : ∀ (l : List (Nat × List Char)) (acc : List DimHint),
      (∀ g ∈ acc, P g) →
      ∀ g ∈ l.foldl
          (fun hints p =>
            bareScanGo p.2 (p.1 + 1) (p.2.length + 1) 0 (hints ++ ftHintsLine p.2 (p.1 + 1)))
          acc, P g := by
    intro l
    induction l with
    | nil => intro acc hacc g hg; exact hacc g hg
    | cons x t iht =>
      intro acc hacc g hg
      refine iht _ ?_ g hg
      intro g2 hg2
      refine hbare x.2 (x.1 + 1) (x.2.length + 1) 0
        (acc ++ ftHintsLine x.2 (x.1 + 1)) g2 ?_ hg2
      intro g3 hg3
      rcases List.mem_append.mp hg3 with h3 | h3
      · exact hacc g3 h3
      · exact hft x.2 (x.1 + 1) g3 h3
  exact main _ [] (by simp) h hm

/-- The branch-wise value shape of every emitted dimension hint. -/
theorem extractDimensions_shape (text : List Char) (h : DimHint)
    (hm : h ∈ extractDimensions text) :
    (∃ i : ℚ, h.inches = round2 i ∧ h.mm = inchesToMm i ∧ 0 < i ∧ i < 600) ∨
      (h.mm = inchesToMm h.inches ∧ (1 : ℚ)/4 ≤ h.inches ∧ h.inches ≤ 120) := by
  refine extractDimensions_mem_inv
    (fun g => (∃ i : ℚ, g.inches = round2 i ∧ g.mm = inchesToMm i ∧ 0 < i ∧ i < 600) ∨
      (g.mm = inchesToMm g.inches ∧ (1 : ℚ)/4 ≤ g.inches ∧ g.inches ≤ 120))
    ?_ ?_ text h hm
  · intro line ln g hg
    obtain ⟨i, h1, h2, h3, h4, _⟩ := ftHintsLine_shape line ln g hg
    exact Or.inl ⟨i, h1, h2, h3, h4⟩
  · intro line ln fuel idx hints g hinv hg
    rcases bareScanGo_emits line ln fuel idx hints g hg with hin | hnew
    · exact hinv g hin
    · obtain ⟨q, nt, len, _, _, h2, h3, h4, h5, _⟩ := hnew
      exact Or.inr ⟨h3, h4, h5⟩

/-- C6, amended: every hint's `mm` field is `round(i × 25.4)` for the
exact parsed inch value `i` of its match; the stored `inches` field is
that same value, rounded to two decimals in the feet-inches branch and
unrounded in the bare-inches branch.  In particular the notation
`3'-10"` yields a hint of 46 inches and 1168 mm. -/
theorem c6_amended_mm_from_exact_parse :
    (∀ (text : List Char) (h : DimHint), h ∈ extractDimensions text →
      ∃ i : ℚ, h.mm = inchesToMm i ∧ (h.inches = round2 i ∨ h.inches = i)) ∧
    extractDimensions (("3'-10\"").data) =
      [⟨("3'-10\"").data, 46, 1168, ("3'-10\"").data, 1⟩] := by
  constructor
  · intro text h hm
    rcases extractDimensions_shape text h hm with ⟨i, h1, h2, _, _⟩ | ⟨h2, _, _⟩
    · exact ⟨i, h2, Or.inl h1⟩
    · exact ⟨h.inches, h2, Or.inr rfl⟩
  · decide!

/-- C6, witness: the amended statement applied to the single hint of
`3'-10"`. -/
theorem c6_amended_mm_from_exact_parse_witness :
    ∃ i : ℚ,
      (⟨("3'-10\"").data, 46, 1168, ("3'-10\"").data, 1⟩ : DimHint).mm = inchesToMm i ∧
      ((⟨("3'-10\"").data, 46, 1168, ("3'-10\"").data, 1⟩ : DimHint).inches = round2 i ∨
        (⟨("3'-10\"").data, 46, 1168, ("3'-10\"").data, 1⟩ : DimHint).inches = i) :=
  c6_amended_mm_from_exact_parse.1 (("3'-10\"").data)
    ⟨("3'-10\"").data, 46, 1168, ("3'-10\"").data, 1⟩ (by decide!)

/-- C5, amended: a feet-inches match is retained exactly when its
resolved inches lie strictly between 0 and 600 (first conjunct:
soundness of both branches — every emitted hint either stores the
two-decimal rounding of a feet-inches value in (0, 600) or a bare-inches
value in [0.25, 120]; second conjunct: completeness for the feet-inches
branch).  Bare-inches matches are retained only within [0.25, 120], not
(0, 600). -/
theorem c5_amended_retention_bounds :
    (∀ (text : List Char) (h : DimHint), h ∈ extractDimensions text →
      (∃ i : ℚ, h.inches = round2 i ∧ 0 < i ∧ i < 600) ∨
        ((1 : ℚ)/4 ≤ h.inches ∧ h.inches ≤ 120)) ∧
    (∀ (line : List Char) (ln : Nat) (m : Nat × FtParts), m ∈ ftScanLine line →
      ∀ inch : ℚ, archDimToInches (trimL (ftText m.2)) = some inch →
      0 < inch → inch < 600 →
      ∃ h ∈ ftHintsLine line ln, h.raw = trimL (ftText m.2) ∧
        h.inches = round2 inch ∧ h.mm = inchesToMm inch) := by
  constructor
  · intro text h hm
    rcases extractDimensions_shape text h hm with ⟨i, h1, _, h3, h4⟩ | ⟨_, h3, h4⟩
    · exact Or.inl ⟨i, h1, h3, h4⟩
    · exact Or.inr ⟨h3, h4⟩
  · intro line ln m hm inch harch h0 h600
    refine ⟨⟨trimL (ftText m.2), round2 inch, inchesToMm inch,
      contextWindow line m.1 (ftLen m.2), ln⟩, ?_, rfl, rfl, rfl⟩
    unfold ftHintsLine
    rw [List.mem_filterMap]
    refine ⟨m, hm, ?_⟩
    simp only [harch]
    rw [if_pos ⟨h0, h600⟩]

/-- C5, witness: both conjuncts at the hint of `3'-10"` (exact inches
46 with `0 < 46 < 600`). -/
theorem c5_amended_retention_bounds_witness :
    ((∃ i : ℚ,
        (⟨("3'-10\"").data, 46, 1168, ("3'-10\"").data, 1⟩ : DimHint).inches = round2 i ∧
        0 < i ∧ i < 600) ∨
      ((1 : ℚ)/4 ≤ (⟨("3'-10\"").data, 46, 1168, ("3'-10\"").data, 1⟩ : DimHint).inches ∧
        (⟨("3'-10\"").data, 46, 1168, ("3'-10\"").data, 1⟩ : DimHint).inches ≤ 120)) ∧
    ∃ h ∈ ftHintsLine (("3'-10\"").data) 1, h.raw = ("3'-10\"").data ∧
      h.inches = round2 46 ∧ h.mm = inchesToMm 46 := by
  constructor
  · exact c5_amended_retention_bounds.1 (("3'-10\"").data)
      ⟨("3'-10\"").data, 46, 1168, ("3'-10\"").data, 1⟩ (by decide!)
  · have := c5_amended_retention_bounds.2 (("3'-10\"").data) 1
      (0, ⟨['3'], [], ['-'], [], ('1' :: ['0']), [], ['"']⟩) (by decide) 46 (by decide!)
      (by norm_num) (by norm_num)
    simpa using this

/-- C8: the bare-inches pattern never matches at the start of the
inches portion of any span matched by the feet-inches pattern on the
same line — the position is rejected by the lookbehind — so no
bare-inches hint is ever emitted whose matched text is that inches
portion (second conjunct: every emitted bare hint carries the raw text
of a position where the bare pattern did match); and the feet-inches
loop contributes at most one hint per feet-inches match. -/
theorem c8_no_bare_rematch_of_consumed_inches :
    (∀ (line : List Char) (m : Nat × FtParts), m ∈ ftScanLine line →
      bareMatchAt line (m.1 + ftInchOff m.2) = none) ∧
    (∀ (line : List Char) (ln fuel idx : Nat) (hints : List DimHint) (h : DimHint),
      h ∈ bareScanGo line ln fuel idx hints → h ∈ hints ∨
        ∃ q numTxt len, bareMatchAt line q = some (numTxt, len) ∧
          h.raw = trimL ((line.drop q).take len)) ∧
    (∀ (line : List Char) (ln : Nat),
      (ftHintsLine line ln).length ≤ (ftScanLine line).length) := by
  refine ⟨?_, ?_, ?_⟩
  · intro line m hm
    have htry := ftScanGo_mem line (line.length + 1) 0 m hm
    obtain ⟨⟨rest, hseq⟩, hfd, hfdd, hw1, hw2, hdash⟩ := tryFtInAt_structure _ _ htry
    have hlen : (m.2.feetD ++ aposC :: (m.2.ws1 ++ (m.2.dash ++ m.2.ws2))).length =
        ftInchOff m.2 := by
      simp [ftInchOff, List.length_append]
      omega
    have hsplit : line.take (m.1 + ftInchOff m.2) =
        line.take m.1 ++ (m.2.feetD ++ aposC :: (m.2.ws1 ++ (m.2.dash ++ m.2.ws2))) := by
      rw [List.take_add line m.1 (ftInchOff m.2), hseq]
      congr 1
      have hre : m.2.feetD ++ aposC :: (m.2.ws1 ++ (m.2.dash ++ (m.2.ws2 ++ rest))) =
          (m.2.feetD ++ aposC :: (m.2.ws1 ++ (m.2.dash ++ m.2.ws2))) ++ rest := by
        simp [List.append_assoc]
      rw [hre]
      exact List.take_left' hlen
    have hpfx := endsWithFtPfx_true (line.take m.1) m.2.feetD m.2.ws1 m.2.dash m.2.ws2
      (by simpa using hfd) hfdd hw1 hw2 hdash
    unfold bareMatchAt
    rw [hsplit]
    simp only [List.append_assoc] at hpfx ⊢
    simp [hpfx]
  · intro line ln fuel idx hints h hm
    rcases bareScanGo_emits line ln fuel idx hints h hm with hin | hnew
    · exact Or.inl hin
    · obtain ⟨q, nt, len, h1, h2, _⟩ := hnew
      exact Or.inr ⟨q, nt, len, h1, h2⟩
  · intro line ln
    unfold ftHintsLine ftScanLine
    exact List.length_filterMap_le _ _

/-- C8, witness: the line `3'-10"` has its single feet-inches match at
index 0 with inches portion starting at offset 3, and the bare pattern
is rejected there. -/
theorem c8_no_bare_rematch_witness :
    bareMatchAt (("3'-10\"").data)
      ((0, (⟨['3'], [], ['-'], [], ('1' :: ['0']), [], ['"']⟩ : FtParts)).1 +
        ftInchOff (0, (⟨['3'], [], ['-'], [], ('1' :: ['0']), [], ['"']⟩ : FtParts)).2) =
      none :=
  c8_no_bare_rematch_of_consumed_inches.1 (("3'-10\"").data)
    (0, ⟨['3'], [], ['-'], [], ('1' :: ['0']), [], ['"']⟩) (by decide)

/-- C3, amended: whenever the handler's decode path succeeds, the text it
decoded is non-empty and its first line equals the expected v14 header
up to trimming of surrounding whitespace on both sides — the validation
is trim-tolerant, not an exact string match — and an input containing no
header at all is a hard failure producing no rows. -/
theorem c3_amended_trim_tolerant_validation (raw : List Char)
    (rs : List (List (List Char))) (h : handlerDecode raw = some rs) :
    (∃ t, decodeToon t = some rs ∧ ¬ t.isEmpty ∧
      trimL ((splitOnC '\n' (removeCR t)).headD []) = trimL HEADER_V14) ∧
    handlerDecode (("no toon here").data) = none := by
  refine ⟨?_, by decide⟩
  have key : ∀ t2 : List Char, isValidToon t2 HEADER_V14 = true →
      decodeToon t2 = some rs →
      ∃ t, decodeToon t = some rs ∧ ¬ t.isEmpty ∧
        trimL ((splitOnC '\n' (removeCR t)).headD []) = trimL HEADER_V14 := by
    intro t2 hv hd
    refine ⟨t2, hd, ?_, ?_⟩
    · intro he
      unfold isValidToon at hv
      rw [if_pos he] at hv
      exact Bool.false_ne_true hv
    · unfold isValidToon at hv
      split at hv
      · exact absurd hv Bool.false_ne_true
      · exact of_decide_eq_true hv
  simp only [handlerDecode] at h
  split at h
  · rename_i hv1
    exact key _ hv1 h
  · split at h
    · rename_i hv2
      exact key _ hv2 h
    · exact absurd h (by simp)

/-- C3, witness for the amended theorem at the accepted input with a
trailing space after the header. -/
theorem c3_amended_trim_tolerant_validation_witness :
    (∃ t, decodeToon t = some [] ∧ ¬ t.isEmpty ∧
      trimL ((splitOnC '\n' (removeCR t)).headD []) = trimL HEADER_V14) ∧
    handlerDecode (("no toon here").data) = none :=
  c3_amended_trim_tolerant_validation (HEADER_V14 ++ [' ']) [] (by decide)

/-- A digit character is not whitespace, is a digit for `isDigitChar`,
and does not lower-case to `b`. -/
theorem digit_char_facts (c : Char) (h : c ∈ ("0123456789").data) :
    isWsChar c = false ∧ isDigitChar c = true ∧ ¬ (('b' : Char) = c.toLower) := by
  fin_cases h <;> exact ⟨rfl, rfl, by decide⟩

/-- A digit character differs from each of the six recognised
whitespace characters. -/
theorem digit_not_ws_props (c : Char) (h : c ∈ ("0123456789").data) :
    ¬(c = ' ') ∧ ¬(c = '\t') ∧ ¬(c = '\n') ∧ ¬(c = '\x0d') ∧
      ¬(c = Char.ofNat 11) ∧ ¬(c = Char.ofNat 12) := by
  fin_cases h <;>
    exact ⟨by decide, by decide, by decide, by decide, by decide, by decide⟩

/-- `takeWhile` passes over a block on which the predicate holds. -/
theorem takeWhile_append_all {p : Char → Bool} {l1 : List Char} (l2 : List Char)
    (h : ∀ c ∈ l1, p c = true) :
    (l1 ++ l2).takeWhile p = l1 ++ l2.takeWhile p := by
  induction l1 with
  | nil => simp
  | cons c l ih =>
    rw [List.cons_append, List.takeWhile_cons, h c (by simp), List.cons_append,
      ih (fun d hd => h d (by simp [hd]))]
    rfl

/-- The marker regex matches a numbered page marker at the head of the
input, capturing the digit string. -/
theorem tryMarkerAt_pageMarker (d0 : Char) (ds rest : List Char)
    (h0 : d0 ∈ ("0123456789").data) (h2 : ∀ c ∈ ds, c ∈ ("0123456789").data) :
    tryMarkerAt (pageMarker (d0 :: ds) ++ rest) =
      some (some (d0 :: ds), 14 + ds.length) := by
  obtain ⟨hw0, hd0, hb0⟩ := digit_char_facts d0 h0
  have hA : pageMarker (d0 :: ds) ++ rest =
      '-' :: '-' :: '-' :: ' ' :: 'P' :: 'A' :: 'G' :: 'E' :: ' ' :: d0 ::
        (ds ++ (' ' :: '-' :: '-' :: '-' :: rest)) := by
    simp [pageMarker]
  have htk : (ds ++ (' ' :: '-' :: '-' :: '-' :: rest)).takeWhile isDigitChar =
      ds ++ [] := by
    rw [takeWhile_append_all _ (fun c hc => (digit_char_facts c (h2 c hc)).2.1)]
    rfl
  have hdp : (ds ++ (' ' :: '-' :: '-' :: '-' :: rest)).drop ds.length =
      ' ' :: '-' :: '-' :: '-' :: rest := by
    have := List.drop_left ds (' ' :: '-' :: '-' :: '-' :: rest)
    exact this
  have hnw := digit_not_ws_props d0 h0
  obtain ⟨hn1, hn2, hn3, hn4, hn5, hn6⟩ := hnw
  rw [hA]
  simp only [tryMarkerAt]
  simp [startsWithL, startsWithCI, lowL, hd0, hb0, htk, hdp,
    List.takeWhile_cons, hn1, hn2, hn3, hn4, hn5, hn6,
    show isWsChar ' ' = true from rfl, show isWsChar 'P' = false from rfl,
    show isWsChar '-' = false from rfl, isWsChar]
  omega

/-- The marker regex matches the unnumbered break marker at the head of
the input, with a non-participating digit group. -/
theorem tryMarkerAt_breakMarker (rest : List Char) :
    tryMarkerAt (breakMarker ++ rest) = some (none, 18) := rfl

/-- Positions that do not start with `---` never match the marker. -/
theorem tryMarkerAt_none (s : List Char)
    (h : startsWithL ('-' :: '-' :: '-' :: []) s = false) :
    tryMarkerAt s = none := by
  simp [tryMarkerAt, show ("---").data = ('-' :: '-' :: '-' :: []) from rfl, h]

/-- No suffix of a string free of an occurrence of `p` starts with `p`. -/
theorem hasSub_drop (p s : List Char) (h : hasSub p s = false) (i : Nat) :
    startsWithL p (s.drop i) = false := by
  induction s generalizing i with
  | nil => simpa [hasSub, anySuffix] using h
  | cons c s ih =>
    simp only [hasSub, anySuffix, Bool.or_eq_false_iff] at h
    match i with
    | 0 => exact h.1
    | i + 1 => exact ih h.2 i

/-- A failed `---` prefix test on a string of length at least three is
preserved by appending. -/
theorem sw3_extend (s r : List Char) (h3 : 3 ≤ s.length)
    (h : startsWithL ('-' :: '-' :: '-' :: []) s = false) :
    startsWithL ('-' :: '-' :: '-' :: []) (s ++ r) = false := by
  match s, h3 with
  | x :: y :: z :: s', _ =>
    simpa [startsWithL] using h

/-- Prepending a non-dash character preserves freedom from `---`. -/
theorem hasSub3_cons (c : Char) (t : List Char) (hc : ¬ (('-' : Char) = c)) :
    hasSub ('-' :: '-' :: '-' :: []) (c :: t) =
      hasSub ('-' :: '-' :: '-' :: []) t := by
  simp [hasSub, anySuffix, startsWithL, hc]

/-- Appending a non-dash pair preserves freedom from `---`. -/
theorem hasSub3_append2 (t : List Char) (a b : Char)
    (ha : ¬ (('-' : Char) = a)) (hb : ¬ (('-' : Char) = b))
    (h : hasSub ('-' :: '-' :: '-' :: []) t = false) :
    hasSub ('-' :: '-' :: '-' :: []) (t ++ [a, b]) = false := by
  induction t with
  | nil => simp [hasSub, anySuffix, startsWithL, ha]
  | cons c t ih =>
    simp only [hasSub, anySuffix, Bool.or_eq_false_iff] at h
    simp only [List.cons_append, hasSub, anySuffix, Bool.or_eq_false_iff]
    refine ⟨?_, ih h.2⟩
    have h1 := h.1
    match t with
    | [] => simp [startsWithL, ha, hb]
    | [x] => simp [startsWithL, ha]
    | x :: y :: t' => simpa [startsWithL] using h1

/-- Inside a block that is free of `---` and ends in two non-dash
characters, no scan position starts a `---`, whatever follows. -/
theorem sw3_scan (u : List Char) (a b : Char) (rest : List Char)
    (ha : ¬ (('-' : Char) = a)) (hb : ¬ (('-' : Char) = b))
    (h : hasSub ('-' :: '-' :: '-' :: []) (u ++ [a, b]) = false) :
    ∀ i < (u ++ [a, b]).length,
      startsWithL ('-' :: '-' :: '-' :: []) ((u ++ [a, b]).drop i ++ rest) = false := by
  induction u with
  | nil =>
    intro i hi
    simp only [List.nil_append, List.length_cons, List.length_singleton] at hi
    match i, hi with
    | 0, _ => simp [startsWithL, ha]
    | 1, _ => simp [startsWithL, hb]
  | cons c u ih =>
    intro i hi
    match i with
    | 0 =>
      apply sw3_extend
      · simp only [List.drop_zero, List.cons_append, List.length_cons,
          List.length_append]
        omega
      · simp only [hasSub, anySuffix, Bool.or_eq_false_iff, List.cons_append] at h
        exact h.1
    | i + 1 =>
      have h' : hasSub ('-' :: '-' :: '-' :: []) (u ++ [a, b]) = false := by
        simp only [hasSub, anySuffix, Bool.or_eq_false_iff, List.cons_append] at h
        exact h.2
      have hi' : i < (u ++ [a, b]).length := by
        simp only [List.cons_append, List.length_cons] at hi
        omega
      exact ih h' i hi'

/-- Splitting an empty remainder pushes the pending segment. -/
theorem splitGoPg_nil (fuel : Nat) (cur : List Char)
    (acc : List (Option (List Char))) :
    splitGoPg fuel [] cur acc = acc ++ [some cur] := by
  cases fuel <;> simp [splitGoPg]

/-- A marker match at the head of the remainder pushes the pending
segment and the capture, and skips the matched span. -/
theorem splitGoPg_step_marker (c : Char) (cs : List Char) (fuel : Nat)
    (cur : List Char) (acc : List (Option (List Char)))
    (cap : Option (List Char)) (len : Nat)
    (hm : tryMarkerAt (c :: cs) = some (cap, len)) :
    splitGoPg (fuel + 1) (c :: cs) cur acc =
      splitGoPg fuel ((c :: cs).drop len) [] (acc ++ [some cur, cap]) := by
  simp only [splitGoPg, hm]

/-- Scanning over a block at none of whose positions the marker matches
appends the block to the pending segment. -/
theorem splitGoPg_skip (t : List Char) :
    ∀ (fuel : Nat) (rest cur : List Char) (acc : List (Option (List Char))),
    (∀ i < t.length, tryMarkerAt (t.drop i ++ rest) = none) →
    splitGoPg (t.length + fuel) (t ++ rest) cur acc =
      splitGoPg fuel rest (cur ++ t) acc := by
  induction t with
  | nil => intro fuel rest cur acc _; simp
  | cons c t ih =>
    intro fuel rest cur acc h
    have h0 : tryMarkerAt (c :: (t ++ rest)) = none := by
      have := h 0 (by simp)
      simpa using this
    have hlen : (c :: t).length + fuel = (t.length + fuel) + 1 := by
      simp only [List.length_cons]; omega
    rw [hlen, List.cons_append]
    simp only [splitGoPg, h0]
    have := ih fuel rest (cur ++ [c]) acc (fun i hi => by
      have := h (i + 1) (by simp only [List.length_cons]; omega)
      simpa using this)
    rw [this]
    simp

/-- A marker match at the head of a non-empty remainder. -/
theorem splitGoPg_step_marker2 (s : List Char) (fuel : Nat)
    (cur : List Char) (acc : List (Option (List Char)))
    (cap : Option (List Char)) (len : Nat)
    (hs : s ≠ []) (hm : tryMarkerAt s = some (cap, len)) :
    splitGoPg (fuel + 1) s cur acc =
      splitGoPg fuel (s.drop len) [] (acc ++ [some cur, cap]) := by
  match s, hs with
  | c :: cs, _ => exact splitGoPg_step_marker c cs fuel cur acc cap len hm

/-- The length of a numbered page marker. -/
theorem pageMarker_length (ds : List Char) :
    (pageMarker ds).length = 13 + ds.length := by
  simp [pageMarker, show ("--- PAGE ").data.length = 9 from rfl,
    show (" ---").data.length = 4 from rfl]
  omega

/-- Scanning over a marker-free final block pushes it with the pending
segment. -/
theorem splitGoPg_skip_end (t : List Char) (fuel : Nat) (cur : List Char)
    (acc : List (Option (List Char)))
    (h : ∀ i < t.length, tryMarkerAt (t.drop i) = none) :
    splitGoPg (t.length + fuel) t cur acc = splitGoPg fuel [] (cur ++ t) acc := by
  have := splitGoPg_skip t fuel [] cur acc (by
    intro i hi
    rw [List.append_nil]
    exact h i hi)
  simpa using this

/-- The split loop on an assembled numbered document: the pending
segment is pushed, and the markers and bodies produce `pageParts`. -/
theorem splitGoPg_assemblePdf (ps : List (List Char × List Char)) :
    ps ≠ [] →
    (∀ p ∈ ps, p.1 ≠ [] ∧ (∀ c ∈ p.1, c ∈ ("0123456789").data) ∧
      hasSub ('-' :: '-' :: '-' :: []) p.2 = false) →
    ∀ fuel, (assemblePdf ps).length ≤ fuel →
    ∀ cur acc, splitGoPg fuel (assemblePdf ps) cur acc =
      acc ++ some cur :: pageParts ps := by
  induction ps with
  | nil => intro h; exact absurd rfl h
  | cons p ps ih =>
    intro _ hcond fuel hf cur acc
    obtain ⟨hd, hdig, hnd⟩ := hcond p (by simp)
    obtain ⟨d0, ds, hds⟩ : ∃ d0 ds, p.1 = d0 :: ds := by
      cases hp1 : p.1
      · exact absurd hp1 hd
      · exact ⟨_, _, rfl⟩
    have hnm : ¬ (('-' : Char) = '\n') := by decide
    cases ps with
    | nil =>
      have hasm : assemblePdf [p] = pageMarker (d0 :: ds) ++ ('\n' :: p.2) := by
        simp [assemblePdf, interL, hds]
      have hml : (pageMarker (d0 :: ds)).length = 14 + ds.length := by
        rw [pageMarker_length]; simp; omega
      cases fuel with
      | zero =>
        rw [hasm] at hf
        simp [hml] at hf
      | succ f =>
        rw [hasm]
        rw [splitGoPg_step_marker2 _ f cur acc (some (d0 :: ds)) (14 + ds.length)
          (by simp [pageMarker]) (tryMarkerAt_pageMarker d0 ds ('\n' :: p.2)
            (hdig d0 (by rw [hds]; simp)) (fun c hc => hdig c (by rw [hds]; simp [hc])))]
        rw [← hml, List.drop_left]
        have hscan : ∀ i < ('\n' :: p.2).length,
            tryMarkerAt (('\n' :: p.2).drop i) = none := by
          intro i hi
          apply tryMarkerAt_none
          exact hasSub_drop _ _ (by rw [hasSub3_cons '\n' p.2 hnm]; exact hnd) i
        have hfl : ('\n' :: p.2).length ≤ f := by
          rw [hasm] at hf
          simp only [List.length_append, hml, List.length_cons] at hf ⊢
          omega
        have hfeq : f = ('\n' :: p.2).length + (f - ('\n' :: p.2).length) := by omega
        rw [hfeq]
        rw [splitGoPg_skip_end ('\n' :: p.2) _ [] _ hscan]
        rw [splitGoPg_nil]
        simp [pageParts, hds]
    | cons q ps' =>
      obtain ⟨hd2, _, _⟩ := hcond q (by simp)
      have hasm : assemblePdf (p :: q :: ps') =
          pageMarker (d0 :: ds) ++
            ('\n' :: (p.2 ++ (('\n' :: ['\n']) ++ assemblePdf (q :: ps')))) := by
        simp [assemblePdf, interL, hds]
      have hml : (pageMarker (d0 :: ds)).length = 14 + ds.length := by
        rw [pageMarker_length]; simp; omega
      cases fuel with
      | zero =>
        rw [hasm] at hf
        simp [hml] at hf
      | succ f =>
        rw [hasm]
        rw [splitGoPg_step_marker2 _ f cur acc (some (d0 :: ds)) (14 + ds.length)
          (by simp [pageMarker]) (tryMarkerAt_pageMarker d0 ds _
            (hdig d0 (by rw [hds]; simp)) (fun c hc => hdig c (by rw [hds]; simp [hc])))]
        rw [← hml, List.drop_left]
        have hblock : '\n' :: (p.2 ++ (('\n' :: ['\n']) ++ assemblePdf (q :: ps'))) =
            (('\n' :: p.2) ++ ['\n', '\n']) ++ assemblePdf (q :: ps') := by
          simp
        rw [hblock]
        have hsub : hasSub ('-' :: '-' :: '-' :: [])
            (('\n' :: p.2) ++ ['\n', '\n']) = false := by
          apply hasSub3_append2 _ _ _ hnm hnm
          rw [hasSub3_cons '\n' p.2 hnm]
          exact hnd
        have hscan := sw3_scan ('\n' :: p.2) '\n' '\n' (assemblePdf (q :: ps'))
          hnm hnm hsub
        have hfl : (('\n' :: p.2) ++ ['\n', '\n']).length +
            (assemblePdf (q :: ps')).length ≤ f := by
          rw [hasm] at hf
          simp only [List.length_append, hml, List.length_cons] at hf ⊢
          omega
        have hfeq : f = (('\n' :: p.2) ++ ['\n', '\n']).length +
            (f - (('\n' :: p.2) ++ ['\n', '\n']).length) := by omega
        rw [hfeq]
        rw [splitGoPg_skip (('\n' :: p.2) ++ ['\n', '\n']) _ _ [] _ (by
          intro i hi
          exact tryMarkerAt_none _ (hscan i hi))]
        rw [ih (by simp) (fun r hr => hcond r (by simp [hr])) _ (by omega) _ _]
        simp [pageParts, hds]

/-- The split loop on the tail of a break-separated document. -/
theorem splitGoPg_assembleBreak (ts : List (List Char)) :
    ts ≠ [] →
    (∀ t ∈ ts, hasSub ('-' :: '-' :: '-' :: []) t = false) →
    ∀ fuel, ('\n' :: assembleBreak ts).length ≤ fuel →
    ∀ acc, splitGoPg fuel ('\n' :: assembleBreak ts) [] acc =
      acc ++ breakTailFrom ts := by
  induction ts with
  | nil => intro h; exact absurd rfl h
  | cons t ts ih =>
    intro _ hcond fuel hf acc
    have hnd := hcond t (by simp)
    have hnm : ¬ (('-' : Char) = '\n') := by decide
    cases ts with
    | nil =>
      have hasm : ('\n' :: assembleBreak [t]) = '\n' :: t := by
        simp [assembleBreak, interL]
      rw [hasm] at hf ⊢
      have hscan : ∀ i < ('\n' :: t).length,
          tryMarkerAt (('\n' :: t).drop i) = none := by
        intro i hi
        apply tryMarkerAt_none
        exact hasSub_drop _ _ (by rw [hasSub3_cons '\n' t hnm]; exact hnd) i
      have hfeq : fuel = ('\n' :: t).length + (fuel - ('\n' :: t).length) := by
        simp only [List.length_cons] at hf ⊢
        omega
      rw [hfeq, splitGoPg_skip_end ('\n' :: t) _ [] _ hscan, splitGoPg_nil]
      simp [breakTailFrom]
    | cons q ts' =>
      have hasm : ('\n' :: assembleBreak (t :: q :: ts')) =
          (('\n' :: t) ++ ['\n', '\n']) ++
            (breakMarker ++ ('\n' :: assembleBreak (q :: ts'))) := by
        simp [assembleBreak, interL, breakMarker]
      rw [hasm] at hf ⊢
      have hsub : hasSub ('-' :: '-' :: '-' :: [])
          (('\n' :: t) ++ ['\n', '\n']) = false := by
        apply hasSub3_append2 _ _ _ hnm hnm
        rw [hasSub3_cons '\n' t hnm]
        exact hnd
      have hscan := sw3_scan ('\n' :: t) '\n' '\n'
        (breakMarker ++ ('\n' :: assembleBreak (q :: ts'))) hnm hnm hsub
      have hlb : (breakMarker ++ ('\n' :: assembleBreak (q :: ts'))).length =
          18 + ('\n' :: assembleBreak (q :: ts')).length := by
        simp [breakMarker]
        omega
      have hfl : (('\n' :: t) ++ ['\n', '\n']).length + 1 +
          ('\n' :: assembleBreak (q :: ts')).length ≤ fuel := by
        simp only [List.length_append, List.length_cons, hlb] at hf ⊢
        omega
      have hfeq : fuel = (('\n' :: t) ++ ['\n', '\n']).length +
          (fuel - (('\n' :: t) ++ ['\n', '\n']).length) := by omega
      rw [hfeq]
      rw [splitGoPg_skip (('\n' :: t) ++ ['\n', '\n']) _ _ [] _ (by
        intro i hi
        exact tryMarkerAt_none _ (hscan i hi))]
      have hf2 : ∃ f2, fuel - (('\n' :: t) ++ ['\n', '\n']).length = f2 + 1 := by
        refine ⟨fuel - (('\n' :: t) ++ ['\n', '\n']).length - 1, ?_⟩
        omega
      obtain ⟨f2, hf2⟩ := hf2
      rw [hf2]
      rw [splitGoPg_step_marker2 _ f2 _ _ none 18 (by simp [breakMarker])
        (tryMarkerAt_breakMarker _)]
      rw [show (18 : Nat) = breakMarker.length from rfl, List.drop_left]
      rw [ih (by simp) (fun r hr => hcond r (by simp [hr])) f2 (by omega) _]
      simp [breakTailFrom]

/-- `dropWhile` over an append splits at the first block. -/
theorem dropWhile_append_split (p : Char → Bool) (l1 l2 : List Char) :
    (l1 ++ l2).dropWhile p =
      if (l1.dropWhile p).isEmpty then l2.dropWhile p
      else l1.dropWhile p ++ l2 := by
  induction l1 with
  | nil => simp
  | cons c l ih =>
    by_cases hc : p c = true
    · simpa [List.dropWhile_cons, hc] using ih
    · simp [List.dropWhile_cons, hc]

/-- A trailing whitespace character is removed by trailing trim. -/
theorem trimTrailL_append_ws (s : List Char) (a : Char) (ha : isWsChar a = true) :
    trimTrailL (s ++ [a]) = trimTrailL s := by
  simp [trimTrailL, List.dropWhile_cons, ha]

/-- A trailing whitespace character is removed by `trim`. -/
theorem trimL_append_ws (s : List Char) (a : Char) (ha : isWsChar a = true) :
    trimL (s ++ [a]) = trimL s := by
  unfold trimL trimLeadL
  rw [dropWhile_append_split]
  by_cases h : (s.dropWhile isWsChar).isEmpty
  · rw [if_pos h]
    have h0 : s.dropWhile isWsChar = [] := by
      cases hx : s.dropWhile isWsChar
      · rfl
      · rw [hx] at h; simp at h
    rw [h0]
    simp [List.dropWhile_cons, ha, trimTrailL]
  · rw [if_neg h]
    exact trimTrailL_append_ws _ a ha

/-- A leading whitespace character is removed by `trim`. -/
theorem trimL_cons_ws (c : Char) (s : List Char) (hc : isWsChar c = true) :
    trimL (c :: s) = trimL s := by
  simp [trimL, trimLeadL, List.dropWhile_cons, hc]

/-- `trim` is the identity on whitespace-free strings. -/
theorem trimL_no_ws (s : List Char) (h : ∀ c ∈ s, isWsChar c = false) :
    trimL s = s := by
  unfold trimL trimLeadL trimTrailL
  cases s with
  | nil => rfl
  | cons c t =>
    rw [List.dropWhile_cons, h c (by simp)]
    simp only [Bool.false_eq_true, if_false]
    cases hr : (c :: t).reverse with
    | nil => simpa using congrArg List.length hr
    | cons x r =>
      have hx : isWsChar x = false := by
        apply h
        rw [← List.mem_reverse, hr]
        exact List.mem_cons_self x r
      rw [List.dropWhile_cons, hx]
      simp only [Bool.false_eq_true, if_false]
      rw [← hr, List.reverse_reverse]

/-- The trim of a page body with its marker-adjacent newlines. -/
theorem trimL_body (t : List Char) :
    trimL (('\n' :: t) ++ ['\n', '\n']) = trimL t := by
  have h1 : ('\n' :: t) ++ ['\n', '\n'] = ((('\n' :: t) ++ ['\n']) ++ ['\n']) := by
    simp
  rw [h1, trimL_append_ws _ '\n' rfl, trimL_append_ws _ '\n' rfl,
    trimL_cons_ws '\n' t rfl]

/-- The accumulation loop skips a `none` (undefined) part. -/
theorem parsePagesGo_cons_none (rest : List (Option (List Char))) (pn : Nat)
    (acc : List PageText) :
    parsePagesGo (none :: rest) pn acc = parsePagesGo rest pn acc := rfl

/-- The accumulation loop skips an empty part. -/
theorem parsePagesGo_cons_empty (rest : List (Option (List Char))) (pn : Nat)
    (acc : List PageText) :
    parsePagesGo (some [] :: rest) pn acc = parsePagesGo rest pn acc := rfl

/-- A digit part sets the page counter. -/
theorem parsePagesGo_cons_digits (d : List Char)
    (rest : List (Option (List Char))) (pn : Nat) (acc : List PageText)
    (hne : d ≠ []) (hdig : ∀ c ∈ d, c ∈ ("0123456789").data) :
    parsePagesGo (some d :: rest) pn acc =
      parsePagesGo rest (natOfDigits d) acc := by
  have htr : trimL d = d :=
    trimL_no_ws d (fun c hc => (digit_char_facts c (hdig c hc)).1)
  have hE : d.isEmpty = false := by
    cases d
    · exact absurd rfl hne
    · rfl
  have hall : d.all isDigitChar = true := by
    rw [List.all_eq_true]
    intro c hc
    exact (digit_char_facts c (hdig c hc)).2.1
  simp only [parsePagesGo]
  simp [htr, hE, hall]

/-- A long non-numeric part is pushed with a pre-incremented counter. -/
theorem parsePagesGo_cons_body (p0 : List Char)
    (rest : List (Option (List Char))) (pn : Nat) (acc : List PageText)
    (h5 : 5 < (trimL p0).length) (hnum : (trimL p0).all isDigitChar = false) :
    parsePagesGo (some p0 :: rest) pn acc =
      parsePagesGo rest (pn + 1) (acc ++ [⟨pn + 1, trimL p0⟩]) := by
  have hne : (trimL p0).isEmpty = false := by
    cases h : trimL p0
    · rw [h] at h5; simp at h5
    · rfl
  simp only [parsePagesGo]
  simp [hne, hnum, h5]

/-- The accumulation loop on the parts of a numbered document. -/
theorem parsePagesGo_pageParts (ps : List (List Char × List Char)) :
    (∀ p ∈ ps, p.1 ≠ [] ∧ (∀ c ∈ p.1, c ∈ ("0123456789").data) ∧
      5 < (trimL p.2).length ∧ (trimL p.2).all isDigitChar = false) →
    ∀ pn acc, parsePagesGo (pageParts ps) pn acc =
      acc ++ ps.map (fun p => ⟨natOfDigits p.1 + 1, trimL p.2⟩) := by
  induction ps with
  | nil => intro _ pn acc; simp [pageParts, parsePagesGo]
  | cons p ps ih =>
    intro hcond pn acc
    obtain ⟨hd, hdig, h5, hnum⟩ := hcond p (by simp)
    cases ps with
    | nil =>
      rw [show pageParts [p] = [some p.1, some ('\n' :: p.2)] from rfl]
      rw [parsePagesGo_cons_digits p.1 _ pn acc hd hdig]
      have htb : trimL ('\n' :: p.2) = trimL p.2 := trimL_cons_ws '\n' p.2 rfl
      rw [parsePagesGo_cons_body _ _ _ _ (by rw [htb]; exact h5)
        (by rw [htb]; exact hnum)]
      simp [parsePagesGo, htb]
    | cons q ps' =>
      rw [show pageParts (p :: q :: ps') =
        some p.1 :: some (('\n' :: p.2) ++ ['\n', '\n']) :: pageParts (q :: ps')
        from rfl]
      rw [parsePagesGo_cons_digits p.1 _ pn acc hd hdig]
      have htb := trimL_body p.2
      rw [parsePagesGo_cons_body _ _ _ _ (by rw [htb]; exact h5)
        (by rw [htb]; exact hnum)]
      rw [ih (fun r hr => hcond r (by simp [hr])) _ _]
      simp only [List.cons_append] at htb
      simp [htb]

/-- The accumulation loop on the parts of a break-separated tail. -/
theorem parsePagesGo_breakTail (ts : List (List Char)) :
    (∀ t ∈ ts, 5 < (trimL t).length ∧ (trimL t).all isDigitChar = false) →
    ∀ pn acc, parsePagesGo (breakTailFrom ts) pn acc =
      acc ++ numberedFrom pn ts := by
  induction ts with
  | nil => intro _ pn acc; simp [breakTailFrom, parsePagesGo, numberedFrom]
  | cons t ts ih =>
    intro hcond pn acc
    obtain ⟨h5, hnum⟩ := hcond t (by simp)
    have htb : trimL ('\n' :: t) = trimL t := trimL_cons_ws '\n' t rfl
    cases ts with
    | nil =>
      rw [show breakTailFrom [t] = [some ('\n' :: t)] from rfl]
      rw [parsePagesGo_cons_body _ _ _ _ (by rw [htb]; exact h5)
        (by rw [htb]; exact hnum)]
      simp [parsePagesGo, numberedFrom, htb]
    | cons q ts' =>
      rw [show breakTailFrom (t :: q :: ts') =
        some (('\n' :: t) ++ ['\n', '\n']) :: none :: breakTailFrom (q :: ts')
        from rfl]
      have htb2 := trimL_body t
      rw [parsePagesGo_cons_body _ _ _ _ (by rw [htb2]; exact h5)
        (by rw [htb2]; exact hnum)]
      rw [parsePagesGo_cons_none]
      rw [ih (fun r hr => hcond r (by simp [hr])) _ _]
      simp only [List.cons_append] at htb2
      simp [numberedFrom, htb2]

/-- `parsePages` on a front-end-assembled numbered document: every page
text is returned with its marker number plus one. -/
theorem parsePages_assemblePdf (ps : List (List Char × List Char))
    (hne : ps ≠ [])
    (hcond : ∀ p ∈ ps, p.1 ≠ [] ∧ (∀ c ∈ p.1, c ∈ ("0123456789").data) ∧
      hasSub ('-' :: '-' :: '-' :: []) p.2 = false ∧
      5 < (trimL p.2).length ∧ (trimL p.2).all isDigitChar = false) :
    parsePages (assemblePdf ps) =
      ps.map (fun p => ⟨natOfDigits p.1 + 1, trimL p.2⟩) := by
  have hsplit : splitPages (assemblePdf ps) = some [] :: pageParts ps := by
    unfold splitPages
    rw [splitGoPg_assemblePdf ps hne
      (fun p hp => ⟨(hcond p hp).1, (hcond p hp).2.1, (hcond p hp).2.2.1⟩)
      _ (by omega) [] []]
    simp
  have hlen : 1 ≤ (pageParts ps).length := by
    cases ps with
    | nil => exact absurd rfl hne
    | cons p ps' =>
      cases ps' <;> simp [pageParts]
  simp only [parsePages]
  rw [hsplit]
  rw [if_neg (by simp only [List.length_cons]; omega)]
  rw [parsePagesGo_cons_empty]
  rw [parsePagesGo_pageParts ps
    (fun p hp => ⟨(hcond p hp).1, (hcond p hp).2.1, (hcond p hp).2.2.2.1,
      (hcond p hp).2.2.2.2⟩) 0 []]
  simp

/-- `parsePages` on a break-separated document: the page texts are
numbered consecutively from one. -/
theorem parsePages_assembleBreak (ts : List (List Char)) (hne : ts ≠ [])
    (hcond : ∀ t ∈ ts, hasSub ('-' :: '-' :: '-' :: []) t = false ∧
      5 < (trimL t).length ∧ (trimL t).all isDigitChar = false) :
    parsePages (assembleBreak ts) = numberedFrom 0 ts := by
  have hnm : ¬ (('-' : Char) = '\n') := by decide
  cases ts with
  | nil => exact absurd rfl hne
  | cons t ts' =>
    obtain ⟨hnd, h5, hnum⟩ := hcond t (by simp)
    cases ts' with
    | nil =>
      have hasm : assembleBreak [t] = t := by simp [assembleBreak, interL]
      rw [hasm]
      have hsplit : splitPages t = [some t] := by
        unfold splitPages
        rw [splitGoPg_skip_end t 1 [] []
          (fun i _ => tryMarkerAt_none _ (hasSub_drop _ _ hnd i)), splitGoPg_nil]
        simp
      simp only [parsePages]
      rw [hsplit]
      simp [numberedFrom]
    | cons q ts'' =>
      have hasm : assembleBreak (t :: q :: ts'') =
          (t ++ ['\n', '\n']) ++
            (breakMarker ++ ('\n' :: assembleBreak (q :: ts''))) := by
        simp [assembleBreak, interL, breakMarker]
      have hsub : hasSub ('-' :: '-' :: '-' :: []) (t ++ ['\n', '\n']) = false :=
        hasSub3_append2 _ _ _ hnm hnm hnd
      have hsplit : splitPages (assembleBreak (t :: q :: ts'')) =
          some (t ++ ['\n', '\n']) :: none :: breakTailFrom (q :: ts'') := by
        unfold splitPages
        rw [hasm]
        have hfeq : ((t ++ ['\n', '\n']) ++
            (breakMarker ++ ('\n' :: assembleBreak (q :: ts'')))).length + 1 =
            (t ++ ['\n', '\n']).length +
              ((breakMarker ++ ('\n' :: assembleBreak (q :: ts''))).length + 1) := by
          simp
          omega
        rw [hfeq]
        rw [splitGoPg_skip (t ++ ['\n', '\n']) _ _ [] [] (by
          intro i hi
          exact tryMarkerAt_none _
            (sw3_scan t '\n' '\n' _ hnm hnm hsub i hi))]
        rw [splitGoPg_step_marker2 _
          ((breakMarker ++ ('\n' :: assembleBreak (q :: ts''))).length) _ _
          none 18 (by simp [breakMarker]) (tryMarkerAt_breakMarker _)]
        rw [show (18 : Nat) = breakMarker.length from rfl, List.drop_left]
        rw [splitGoPg_assembleBreak (q :: ts'') (by simp)
          (fun r hr => (hcond r (by simp [hr])).1) _
          (by simp [breakMarker]) _]
        simp
      simp only [parsePages]
      rw [hsplit]
      rw [if_neg (by simp only [List.length_cons]; omega)]
      have htb : trimL (t ++ ['\n', '\n']) = trimL t := by
        rw [show t ++ ['\n', '\n'] = (t ++ ['\n']) ++ ['\n'] by simp,
          trimL_append_ws _ '\n' rfl, trimL_append_ws _ '\n' rfl]
      rw [parsePagesGo_cons_body _ _ _ _ (by rw [htb]; exact h5)
        (by rw [htb]; exact hnum)]
      rw [parsePagesGo_cons_none]
      rw [parsePagesGo_breakTail (q :: ts'')
        (fun r hr => ⟨(hcond r (by simp [hr])).2.1, (hcond r (by simp [hr])).2.2⟩) 1 _]
      simp [numberedFrom, htb]

/-- C10: on a front-end-assembled document, where each page text is
preceded by its numbered `--- PAGE k ---` marker (digit string `p.1`,
marker-free body `p.2` of trimmed length above five and not all digits),
`parsePages` returns each page's trimmed text with page number `k + 1`
— the marker number shifted by one — whereas a document whose page
texts are separated by unnumbered `--- PAGE BREAK ---` markers yields
consecutive page numbers starting at one. -/
theorem c10_page_number_offset (ps : List (List Char × List Char))
    (ts : List (List Char)) (hne : ps ≠ []) (htne : ts ≠ [])
    (hps : ∀ p ∈ ps, p.1 ≠ [] ∧ (∀ c ∈ p.1, c ∈ ("0123456789").data) ∧
      hasSub ('-' :: '-' :: '-' :: []) p.2 = false ∧
      5 < (trimL p.2).length ∧ (trimL p.2).all isDigitChar = false)
    (hts : ∀ t ∈ ts, hasSub ('-' :: '-' :: '-' :: []) t = false ∧
      5 < (trimL t).length ∧ (trimL t).all isDigitChar = false) :
    parsePages (assemblePdf ps) =
      ps.map (fun p => ⟨natOfDigits p.1 + 1, trimL p.2⟩) ∧
    parsePages (assembleBreak ts) = numberedFrom 0 ts :=
  ⟨parsePages_assemblePdf ps hne hps, parsePages_assembleBreak ts htne hts⟩

/-- C10, witness: a two-page document with markers `--- PAGE 1 ---` and
`--- PAGE 2 ---` is parsed with page numbers 2 and 3, and the same page
texts separated by a break marker get page numbers 1 and 2. -/
theorem c10_page_number_offset_witness :
    parsePages (assemblePdf [(['1'], ("MILLWORK PLAN KITCHEN").data),
        (['2'], ("RECEPTION DESK ELEVATION").data)]) =
      ([(['1'], ("MILLWORK PLAN KITCHEN").data),
        (['2'], ("RECEPTION DESK ELEVATION").data)]).map
        (fun p => ⟨natOfDigits p.1 + 1, trimL p.2⟩) ∧
    parsePages (assembleBreak [("MILLWORK PLAN KITCHEN").data,
        ("RECEPTION DESK ELEVATION").data]) =
      numberedFrom 0 [("MILLWORK PLAN KITCHEN").data,
        ("RECEPTION DESK ELEVATION").data] :=
  c10_page_number_offset
    [(['1'], ("MILLWORK PLAN KITCHEN").data),
     (['2'], ("RECEPTION DESK ELEVATION").data)]
    [("MILLWORK PLAN KITCHEN").data, ("RECEPTION DESK ELEVATION").data]
    (by decide) (by decide) (by decide) (by decide)

/-- `takeWhile` is the identity when the predicate holds everywhere. -/
theorem takeWhile_all {p : Char → Bool} {l : List Char}
    (h : ∀ c ∈ l, p c = true) : l.takeWhile p = l := by
  have := @takeWhile_append_all p l [] h
  simpa using this

/-- Splitting a separator-free string yields a single segment. -/
theorem splitOnC_no_sep (c : Char) (s : List Char) (h : ∀ x ∈ s, ¬ x = c) :
    splitOnC c s = [s] := by
  induction s with
  | nil => rfl
  | cons x s ih =>
    have hx : ¬ x = c := h x (by simp)
    rw [splitOnC, if_neg hx, ih (fun y hy => h y (by simp [hy]))]

/-- Splitting at an explicit separator after a separator-free prefix. -/
theorem splitOnC_append (c : Char) (a b : List Char) (h : ∀ x ∈ a, ¬ x = c) :
    splitOnC c (a ++ c :: b) = a :: splitOnC c b := by
  induction a with
  | nil =>
    rw [List.nil_append, splitOnC, if_pos rfl]
  | cons x a ih =>
    have hx : ¬ x = c := h x (by simp)
    rw [List.cons_append, splitOnC, if_neg hx,
      ih (fun y hy => h y (by simp [hy]))]

/-- `split` undoes `join` on separator-free segments. -/
theorem splitOnC_interL (c : Char) (ls : List (List Char)) (hne : ls ≠ [])
    (h : ∀ l ∈ ls, ∀ x ∈ l, ¬ x = c) :
    splitOnC c (interL [c] ls) = ls := by
  induction ls with
  | nil => exact absurd rfl hne
  | cons l ls ih =>
    cases ls with
    | nil =>
      rw [show interL [c] [l] = l from rfl]
      exact splitOnC_no_sep c l (h l (by simp))
    | cons m ls' =>
      rw [show interL [c] (l :: m :: ls') = l ++ c :: interL [c] (m :: ls')
        by simp [interL]]
      rw [splitOnC_append c _ _ (h l (by simp))]
      rw [ih (by simp) (fun r hr => h r (by simp [hr]))]

/-- Membership in a joined list comes from the separator or a segment. -/
theorem interL_mem (x : Char) (c : Char) (ls : List (List Char))
    (h : x ∈ interL [c] ls) : x = c ∨ ∃ l ∈ ls, x ∈ l := by
  induction ls with
  | nil => simp [interL] at h
  | cons l ls ih =>
    cases ls with
    | nil =>
      right
      exact ⟨l, by simp, by simpa [interL] using h⟩
    | cons m ls' =>
      rw [show interL [c] (l :: m :: ls') = l ++ c :: interL [c] (m :: ls')
        by simp [interL]] at h
      rcases List.mem_append.mp h with h1 | h1
      · exact Or.inr ⟨l, by simp, h1⟩
      · rcases List.mem_cons.mp h1 with h2 | h2
        · exact Or.inl h2
        · rcases ih h2 with h3 | ⟨r, hr, hxr⟩
          · exact Or.inl h3
          · exact Or.inr ⟨r, by simp [hr], hxr⟩

/-- `removeCR` is the identity on carriage-return-free strings. -/
theorem removeCR_id (s : List Char) (h : ∀ c ∈ s, ¬ c = '\r') :
    removeCR s = s := by
  unfold removeCR
  rw [List.filter_eq_self]
  intro a ha
  simpa using h a ha

/-- Reading a list positionally through `getD` over its index range. -/
theorem range_map_getD (g : List Char → List Char) (l : List (List Char)) :
    (List.range l.length).map (fun j => g (l.getD j [])) = l.map g := by
  induction l with
  | nil => simp
  | cons a l ih =>
    rw [List.length_cons, List.range_succ_eq_map]
    simp only [List.map_cons, List.map_map, List.getD_cons_zero]
    congr 1

/-- The scanner consumes a doubled-quote body and its closing quote,
recovering the raw field. -/
theorem splitLineGo_quoted (sep : List Char) (f : List Char) :
    ∀ (rest cur : List Char) (out : List (List Char)),
    rest.head? ≠ some '"' →
    splitLineGo sep (doubleQuotes f ++ '"' :: rest) cur true out =
      splitLineGo sep rest (cur ++ f) false out := by
  induction f with
  | nil =>
    intro rest cur out hr
    rw [show doubleQuotes [] = [] from rfl, List.nil_append]
    cases rest with
    | nil => simp [splitLineGo]
    | cons d r2 =>
      have hd : ¬ d = '"' := by
        intro h
        exact hr (by simp [h])
      simp [splitLineGo, hd]
  | cons a f ih =>
    intro rest cur out hr
    by_cases ha : a = '"'
    · subst ha
      rw [show doubleQuotes ('"' :: f) = '"' :: '"' :: doubleQuotes f from rfl]
      rw [List.cons_append, List.cons_append]
      rw [show splitLineGo sep
          ('"' :: '"' :: (doubleQuotes f ++ '"' :: rest)) cur true out =
        splitLineGo sep (doubleQuotes f ++ '"' :: rest) (cur ++ ['"']) true out
        by simp [splitLineGo]]
      rw [ih rest (cur ++ ['"']) out hr]
      simp
    · rw [show doubleQuotes (a :: f) = a :: doubleQuotes f by
        simp [doubleQuotes, ha]]
      rw [List.cons_append]
      rw [show splitLineGo sep (a :: (doubleQuotes f ++ '"' :: rest)) cur true out =
        splitLineGo sep (doubleQuotes f ++ '"' :: rest) (cur ++ [a]) true out
        by rw [splitLineGo.eq_def]; simp [ha]]
      rw [ih rest (cur ++ [a]) out hr]
      simp

/-- The scanner passes over a quote-free, separator-free block. -/
theorem splitLineGo_plain (f : List Char) (hq : ∀ c ∈ f, ¬ c = '"')
    (hs : ∀ c ∈ f, ¬ c = ';') :
    ∀ (rest cur : List Char) (out : List (List Char)),
    splitLineGo [';'] (f ++ rest) cur false out =
      splitLineGo [';'] rest (cur ++ f) false out := by
  induction f with
  | nil => intro rest cur out; simp
  | cons a f ih =>
    intro rest cur out
    have ha : ¬ a = '"' := hq a (by simp)
    have ha2 : ¬ a = ';' := hs a (by simp)
    rw [List.cons_append]
    rw [show splitLineGo [';'] (a :: (f ++ rest)) cur false out =
      splitLineGo [';'] (f ++ rest) (cur ++ [a]) false out
      by simp [splitLineGo, ha, ha2]]
    rw [ih (fun c hc => hq c (by simp [hc])) (fun c hc => hs c (by simp [hc]))
      rest (cur ++ [a]) out]
    simp

/-- The scanner recovers a field from its escaped form. -/
theorem splitLineGo_field (f : List Char) (rest cur : List Char)
    (out : List (List Char)) (hr : rest.head? ≠ some '"') :
    splitLineGo [';'] (escapeField f ++ rest) cur false out =
      splitLineGo [';'] rest (cur ++ f) false out := by
  by_cases h : needsQuote f = true
  · rw [escapeField, if_pos h]
    rw [show ('"' :: (doubleQuotes f ++ ['"'])) ++ rest =
      '"' :: (doubleQuotes f ++ '"' :: rest) by simp]
    rw [show splitLineGo [';'] ('"' :: (doubleQuotes f ++ '"' :: rest)) cur false out
      = splitLineGo [';'] (doubleQuotes f ++ '"' :: rest) cur true out by
        simp [splitLineGo]]
    exact splitLineGo_quoted [';'] f rest cur out hr
  · rw [escapeField, if_neg h]
    simp only [needsQuote, Bool.or_eq_true, not_or] at h
    push_neg at h
    obtain ⟨⟨⟨⟨hsep, _⟩, _⟩, hqt⟩, _⟩ := h
    have hq : ∀ c ∈ f, ¬ c = '"' := by
      intro c hc he
      subst he
      exact hqt (List.elem_iff.mpr hc)
    have hs : ∀ c ∈ f, ¬ c = ';' := by
      intro c hc he
      subst he
      exact hsep (List.elem_iff.mpr hc)
    exact splitLineGo_plain f hq hs rest cur out

/-- The scanner splits an encoded line back into its raw fields. -/
theorem splitLineGo_fields (fs : List (List Char)) (hne : fs ≠ []) :
    ∀ out, splitLineGo [';'] (interL [';'] (fs.map escapeField)) [] false out =
      out ++ fs := by
  induction fs with
  | nil => exact absurd rfl hne
  | cons f fs ih =>
    intro out
    cases fs with
    | nil =>
      rw [show interL [';'] ([f].map escapeField) = escapeField f from rfl]
      rw [← List.append_nil (escapeField f)]
      rw [splitLineGo_field f [] [] out (by simp)]
      simp [splitLineGo]
    | cons g fs' =>
      rw [show interL [';'] ((f :: g :: fs').map escapeField) =
        escapeField f ++ ';' :: interL [';'] ((g :: fs').map escapeField)
        by simp [interL]]
      rw [splitLineGo_field f _ [] out (by simp)]
      rw [show splitLineGo [';']
          (';' :: interL [';'] ((g :: fs').map escapeField)) ([] ++ f) false out =
        splitLineGo [';'] (interL [';'] ((g :: fs').map escapeField)) [] false
          (out ++ [[] ++ f]) by simp [splitLineGo]]
      rw [ih (by simp)]
      simp

/-- The leftmost-match scan of `findParamAux` passes over a prefix with
no match position. -/
theorem findParamAux_skip (key pre X : List Char)
    (h : ∀ i < pre.length, startsWithL key (pre.drop i ++ X) = false) :
    findParamAux key (pre ++ X) = findParamAux key X := by
  induction pre with
  | nil => simp
  | cons c pre ih =>
    have h0 : startsWithL key (c :: (pre ++ X)) = false := by
      have := h 0 (by simp)
      simpa using this
    rw [List.cons_append, findParamAux.eq_def]
    simp only [h0, Bool.false_eq_true, if_false]
    exact ih (fun i hi => by
      have := h (i + 1) (by simp only [List.length_cons]; omega)
      simpa using this)

/-- The `cols=` capture of the encoded header is the joined column list,
for a non-empty whitespace-free column list. -/
theorem findParamAux_cols (J : List Char) (hJ : J ≠ [])
    (hw : ∀ c ∈ J, isWsChar c = false) :
    findParamAux (("cols=").data) (headerPrefixL ++ J) = some J := by
  have hsplit : headerPrefixL ++ J =
      ("#TOON v=1 sep=; ").data ++ (("cols=").data ++ J) := by
    rw [show headerPrefixL = ("#TOON v=1 sep=; ").data ++ ("cols=").data
      from rfl, List.append_assoc]
  rw [hsplit]
  rw [findParamAux_skip _ _ _ (by
    intro i hi
    have hi16 : i < 16 := hi
    interval_cases i <;> rfl)]
  rw [show ("cols=").data ++ J = 'c' :: 'o' :: 'l' :: 's' :: '=' :: J from rfl]
  rw [findParamAux.eq_def]
  have hsw : startsWithL (("cols=").data) ('c' :: 'o' :: 'l' :: 's' :: '=' :: J) =
      true := rfl
  simp only [hsw, if_true]
  have htk : (('c' :: 'o' :: 'l' :: 's' :: '=' :: J).drop
      (("cols=").data).length).takeWhile (fun d => ¬ isWsChar d) = J := by
    rw [show ('c' :: 'o' :: 'l' :: 's' :: '=' :: J).drop
      (("cols=").data).length = J from rfl]
    exact takeWhile_all (fun c hc => by simp [hw c hc])
  rw [htk]
  have hJE : J.isEmpty = false := by
    cases J
    · exact absurd rfl hJ
    · rfl
  simp [hJE]

/-- The `sep=` capture of the encoded header is the default separator. -/
theorem findParamAux_sep (J : List Char) :
    findParamAux (("sep=").data) (headerPrefixL ++ J) = some [';'] := by
  have hsplit : headerPrefixL ++ J =
      ("#TOON v=1 ").data ++ (("sep=").data ++ (("; cols=").data ++ J)) := by
    rw [show headerPrefixL =
      ("#TOON v=1 ").data ++ (("sep=").data ++ ("; cols=").data) from rfl]
    simp
  rw [hsplit]
  rw [findParamAux_skip _ _ _ (by
    intro i hi
    have hi10 : i < 10 := hi
    interval_cases i <;> rfl)]
  rfl

/-- Doubling quotes introduces no new characters. -/
theorem doubleQuotes_mem (c : Char) (f : List Char)
    (h : c ∈ doubleQuotes f) : c ∈ f := by
  induction f with
  | nil => simp [doubleQuotes] at h
  | cons a t ih =>
    by_cases ha : a = '"'
    · subst ha
      rw [show doubleQuotes ('"' :: t) = '"' :: '"' :: doubleQuotes t from rfl] at h
      rcases List.mem_cons.mp h with h1 | h1
      · simp [h1]
      · rcases List.mem_cons.mp h1 with h2 | h2
        · simp [h2]
        · simp [ih h2]
    · rw [show doubleQuotes (a :: t) = a :: doubleQuotes t by
        simp [doubleQuotes, ha]] at h
      rcases List.mem_cons.mp h with h1 | h1
      · simp [h1]
      · simp [ih h1]

/-- Escaping introduces only quote characters. -/
theorem escapeField_mem (c : Char) (f : List Char)
    (h : c ∈ escapeField f) : c = '"' ∨ c ∈ f := by
  unfold escapeField at h
  split at h
  · rcases List.mem_cons.mp h with h1 | h1
    · exact Or.inl h1
    · rcases List.mem_append.mp h1 with h2 | h2
      · exact Or.inr (doubleQuotes_mem c f h2)
      · exact Or.inl (by simpa using h2)
  · exact Or.inr h

/-- The last entry of a list with a non-empty second block. -/
theorem getLast_append_ne (l1 l2 : List Char) (h : l2 ≠ []) :
    (l1 ++ l2).getLast? = l2.getLast? := by
  induction l1 with
  | nil => simp
  | cons c l1 ih =>
    have hne : l1 ++ l2 ≠ [] := by
      intro hx
      exact h (List.append_eq_nil.mp hx).2
    cases hx : l1 ++ l2 with
    | nil => exact absurd hx hne
    | cons d m =>
      rw [List.cons_append, hx, List.getLast?_cons_cons, ← hx, ih]

/-- Leading trim is the identity when the first character is not
whitespace. -/
theorem trimLeadL_id (s : List Char)
    (h : ∀ c, s.head? = some c → isWsChar c = false) : trimLeadL s = s := by
  cases s with
  | nil => rfl
  | cons c t =>
    unfold trimLeadL
    rw [List.dropWhile_cons, h c rfl]
    simp

/-- Trailing trim is the identity when the last character is not
whitespace. -/
theorem trimTrailL_id (s : List Char)
    (h : ∀ c, s.getLast? = some c → isWsChar c = false) : trimTrailL s = s := by
  unfold trimTrailL
  cases hr : s.reverse with
  | nil => simpa using congrArg List.reverse hr
  | cons c t =>
    have hc : isWsChar c = false := by
      apply h
      rw [← List.head?_reverse, hr]
      rfl
    rw [List.dropWhile_cons, hc]
    simp only [Bool.false_eq_true, if_false]
    rw [← hr, List.reverse_reverse]

/-- `trim` is the identity when both edge characters are not
whitespace. -/
theorem trimL_edge (s : List Char)
    (h1 : ∀ c, s.head? = some c → isWsChar c = false)
    (h2 : ∀ c, s.getLast? = some c → isWsChar c = false) : trimL s = s := by
  unfold trimL
  rw [trimLeadL_id s h1, trimTrailL_id s h2]

/-- An escaped field has no leading whitespace when its raw form has
none. -/
theorem escapeField_head (f : List Char)
    (h : ∀ c, f.head? = some c → isWsChar c = false) :
    ∀ c, (escapeField f).head? = some c → isWsChar c = false := by
  intro c hc
  unfold escapeField at hc
  split at hc
  · rw [show ('"' :: (doubleQuotes f ++ ['"'])).head? = some '"' from rfl] at hc
    cases hc
    rfl
  · exact h c hc

/-- An escaped field has no trailing whitespace when its raw form has
none. -/
theorem escapeField_last (f : List Char)
    (h : ∀ c, f.getLast? = some c → isWsChar c = false) :
    ∀ c, (escapeField f).getLast? = some c → isWsChar c = false := by
  intro c hc
  unfold escapeField at hc
  split at hc
  · rw [show ('"' :: (doubleQuotes f ++ ['"'])) =
      ('"' :: doubleQuotes f) ++ ['"'] from rfl,
      getLast_append_ne _ _ (by simp)] at hc
    cases hc
    rfl
  · exact h c hc

/-- A joined line of edge-clean fields has no leading whitespace. -/
theorem interL_head_ws (ls : List (List Char))
    (h : ∀ l ∈ ls, ∀ c, l.head? = some c → isWsChar c = false) :
    ∀ c, (interL [';'] ls).head? = some c → isWsChar c = false := by
  induction ls with
  | nil => intro c hc; simp [interL] at hc
  | cons l ls ih =>
    cases ls with
    | nil =>
      intro c hc
      exact h l (by simp) c (by simpa [interL] using hc)
    | cons m ls' =>
      rw [show interL [';'] (l :: m :: ls') = l ++ ';' :: interL [';'] (m :: ls')
        by simp [interL]]
      intro c hc
      cases l with
      | nil =>
        rw [show (([] : List Char) ++ ';' :: interL [';'] (m :: ls')).head? =
          some ';' from rfl] at hc
        cases hc
        rfl
      | cons a l' =>
        rw [show ((a :: l') ++ ';' :: interL [';'] (m :: ls')).head? = some a
          from rfl] at hc
        cases hc
        exact h (c :: l') (by simp) c rfl

/-- A joined line of edge-clean fields has no trailing whitespace. -/
theorem interL_last_ws (ls : List (List Char))
    (h : ∀ l ∈ ls, ∀ c, l.getLast? = some c → isWsChar c = false) :
    ∀ c, (interL [';'] ls).getLast? = some c → isWsChar c = false := by
  induction ls with
  | nil => intro c hc; simp [interL] at hc
  | cons l ls ih =>
    cases ls with
    | nil =>
      intro c hc
      exact h l (by simp) c (by simpa [interL] using hc)
    | cons m ls' =>
      rw [show interL [';'] (l :: m :: ls') = l ++ ';' :: interL [';'] (m :: ls')
        by simp [interL]]
      intro c hc
      rw [getLast_append_ne _ _ (by simp)] at hc
      cases hX : interL [';'] (m :: ls') with
      | nil =>
        rw [hX] at hc
        cases hc
        rfl
      | cons x xs =>
        rw [hX, List.getLast?_cons_cons, ← hX] at hc
        exact ih (fun r hr => h r (by simp [hr])) c hc

/-- Splitting an encoded row recovers its fields. -/
theorem splitLineJs_encodeRow (schema : List (List Char)) (r : List (List Char))
    (hlen : r.length = schema.length) (hne : r ≠ [])
    (hu : ∀ f ∈ r, unescapeField f = f) :
    splitLineJs [';'] (encodeRow schema r) = r := by
  have henc : encodeRow schema r = interL [';'] (r.map escapeField) := by
    unfold encodeRow
    rw [← hlen, range_map_getD escapeField r]
  rw [henc]
  unfold splitLineJs
  rw [splitLineGo_fields r hne []]
  rw [List.nil_append]
  calc r.map unescapeField = r.map id := List.map_congr_left (fun f hf => hu f hf)
    _ = r := List.map_id r

/-- Characters of an encoded row are separators, quotes, or field
characters. -/
theorem encodeRow_mem (schema : List (List Char)) (r : List (List Char))
    (c : Char) (h : c ∈ encodeRow schema r) :
    c = ';' ∨ c = '"' ∨ ∃ f ∈ r, c ∈ f := by
  unfold encodeRow at h
  rcases interL_mem c ';' _ h with h1 | ⟨l, hl, hcl⟩
  · exact Or.inl h1
  · rcases List.mem_map.mp hl with ⟨j, _, hj⟩
    rcases escapeField_mem c _ (hj ▸ hcl) with h2 | h2
    · exact Or.inr (Or.inl h2)
    · by_cases hjl : j < r.length
      · refine Or.inr (Or.inr ⟨r.getD j [], ?_, h2⟩)
        rw [List.getD_eq_getElem r [] hjl]
        exact List.getElem_mem hjl
      · rw [List.getD_eq_default r [] (by omega)] at h2
        simp at h2

/-- Reading a list positionally over its own index range. -/
theorem range_getD_id (l : List (List Char)) :
    (List.range l.length).map (fun j => l.getD j []) = l := by
  have := range_map_getD (fun x => x) l
  simpa using this

/-- C1, amended: the codec round-trips every row list whose fields use
only the escaping the decoder actually survives: fields free of newline
and carriage return (the quoting rule does not protect them, since
decode splits lines before reading quotes), fields that `unescapeField`
leaves fixed (not both starting and ending with a quote, which the
decoder unescapes twice), fields without leading or trailing whitespace
(data lines are trimmed before splitting), rows exactly as long as the
schema, non-empty encoded lines (blank lines are dropped), and a
non-empty schema of non-empty, whitespace-free, comma-free column
names.  Separators, quotes and leading `#` in field values are covered
by the escaping, as claimed. -/
theorem c1_amended_round_trip (rows : List (List (List Char)))
    (schema : List (List Char)) (hsne : schema ≠ [])
    (hschema : ∀ nm ∈ schema, nm ≠ [] ∧
      ∀ c ∈ nm, isWsChar c = false ∧ ¬ c = ',')
    (hrows : ∀ r ∈ rows, r.length = schema.length ∧ encodeRow schema r ≠ [] ∧
      ∀ f ∈ r, unescapeField f = f ∧
        ∀ c ∈ f, ¬ c = '\n' ∧ ¬ c = '\r' ∧
          (f.head? = some c → isWsChar c = false) ∧
          (f.getLast? = some c → isWsChar c = false)) :
    decodeToon (encodeToon rows schema) = some rows := by
  have hJw : ∀ c ∈ interL [','] schema, isWsChar c = false := by
    intro c hc
    rcases interL_mem c ',' schema hc with h1 | ⟨nm, hnm, hcnm⟩
    · subst h1; rfl
    · exact ((hschema nm hnm).2 c hcnm).1
  have hJnl : ∀ c ∈ interL [','] schema, ¬ c = '\n' := by
    intro c hc he
    subst he
    exact (by decide : isWsChar '\n' ≠ false) (hJw _ hc)
  have hJcr : ∀ c ∈ interL [','] schema, ¬ c = '\r' := by
    intro c hc he
    subst he
    exact (by decide : isWsChar '\r' ≠ false) (hJw _ hc)
  have hJne : interL [','] schema ≠ [] := by
    cases schema with
    | nil => exact absurd rfl hsne
    | cons nm rest =>
      cases rest with
      | nil => simpa [interL] using (hschema nm (by simp)).1
      | cons m rest' =>
        rw [show interL [','] (nm :: m :: rest') =
          nm ++ ',' :: interL [','] (m :: rest') by simp [interL]]
        simp
  have hmk : mkHeader schema = headerPrefixL ++ interL [','] schema := rfl
  have hhead_nl : ∀ c ∈ mkHeader schema, ¬ c = '\n' := by
    intro c hc he
    subst he
    rw [hmk] at hc
    rcases List.mem_append.mp hc with h1 | h1
    · revert h1; decide
    · exact hJnl '\n' h1 rfl
  have hhead_cr : ∀ c ∈ mkHeader schema, ¬ c = '\r' := by
    intro c hc he
    subst he
    rw [hmk] at hc
    rcases List.mem_append.mp hc with h1 | h1
    · revert h1; decide
    · exact hJcr '\r' h1 rfl
  have hline_nl : ∀ r ∈ rows, ∀ c ∈ encodeRow schema r, ¬ c = '\n' := by
    intro r hr c hc he
    subst he
    rcases encodeRow_mem schema r '\n' hc with h1 | h1 | ⟨f, hf, hcf⟩
    · exact absurd h1 (by decide)
    · exact absurd h1 (by decide)
    · exact (((hrows r hr).2.2 f hf).2 '\n' hcf).1 rfl
  have hline_cr : ∀ r ∈ rows, ∀ c ∈ encodeRow schema r, ¬ c = '\r' := by
    intro r hr c hc he
    subst he
    rcases encodeRow_mem schema r '\r' hc with h1 | h1 | ⟨f, hf, hcf⟩
    · exact absurd h1 (by decide)
    · exact absurd h1 (by decide)
    · exact (((hrows r hr).2.2 f hf).2 '\r' hcf).2.1 rfl
  have htext : encodeToon rows schema =
      mkHeader schema ++ '\n' :: interL ['\n'] (rows.map (encodeRow schema)) := rfl
  have hrc : removeCR (encodeToon rows schema) = encodeToon rows schema := by
    apply removeCR_id
    intro c hc
    rw [htext] at hc
    rcases List.mem_append.mp hc with h1 | h1
    · exact hhead_cr c h1
    · rcases List.mem_cons.mp h1 with h2 | h2
      · subst h2; decide
      · rcases interL_mem c '\n' _ h2 with h3 | ⟨l, hl, hcl⟩
        · subst h3; decide
        · rcases List.mem_map.mp hl with ⟨r, hrr, hlr⟩
          exact hline_cr r hrr c (hlr ▸ hcl)
  have hsp1 : splitOnC '\n' (removeCR (encodeToon rows schema)) =
      mkHeader schema ::
        splitOnC '\n' (interL ['\n'] (rows.map (encodeRow schema))) := by
    rw [hrc]
    rw [htext]
    exact splitOnC_append '\n' _ _ hhead_nl
  have hsw : startsWithL (("#TOON").data) (mkHeader schema) = true := rfl
  rw [decodeToon.eq_def, hsp1]
  simp only [hsw, not_true, Bool.true_eq_false, if_false, ite_false]
  rw [hmk, findParamAux_cols _ hJne hJw, findParamAux_sep]
  simp only []
  rw [splitOnC_interL ',' schema hsne
    (fun nm hnm c hc => ((hschema nm hnm).2 c hc).2)]
  cases rows with
  | nil =>
    simp [interL, splitOnC, trimL, trimLeadL, trimTrailL]
  | cons r0 rows' =>
    have hlsp : splitOnC '\n' (interL ['\n'] ((r0 :: rows').map (encodeRow schema))) =
        (r0 :: rows').map (encodeRow schema) := by
      apply splitOnC_interL '\n' _ (by simp)
      intro l hl c hc
      rcases List.mem_map.mp hl with ⟨r, hrr, hlr⟩
      exact hline_nl r hrr c (hlr ▸ hc)
    rw [hlsp]
    have hedge : ∀ r ∈ r0 :: rows', trimL (encodeRow schema r) = encodeRow schema r := by
      intro r hr
      apply trimL_edge
      · apply interL_head_ws
        intro l hl
        rcases List.mem_map.mp hl with ⟨j, _, hj⟩
        rw [← hj]
        apply escapeField_head
        intro c hcc
        by_cases hjl : j < r.length
        · have hmem : r.getD j [] ∈ r := by
            rw [List.getD_eq_getElem r [] hjl]
            exact List.getElem_mem hjl
          exact (((hrows r hr).2.2 _ hmem).2 c
            (List.mem_of_mem_head? hcc)).2.2.1 hcc
        · rw [List.getD_eq_default r [] (by omega)] at hcc
          simp at hcc
      · apply interL_last_ws
        intro l hl
        rcases List.mem_map.mp hl with ⟨j, _, hj⟩
        rw [← hj]
        apply escapeField_last
        intro c hcc
        by_cases hjl : j < r.length
        · have hmem : r.getD j [] ∈ r := by
            rw [List.getD_eq_getElem r [] hjl]
            exact List.getElem_mem hjl
          exact (((hrows r hr).2.2 _ hmem).2 c
            (List.mem_of_mem_getLast? hcc)).2.2.2 hcc
        · rw [List.getD_eq_default r [] (by omega)] at hcc
          simp at hcc
    have hmt : ((r0 :: rows').map (encodeRow schema)).map trimL =
        (r0 :: rows').map (encodeRow schema) := by
      rw [List.map_map]
      apply List.map_congr_left
      intro r hr
      exact hedge r hr
    rw [hmt]
    have hflt : ((r0 :: rows').map (encodeRow schema)).filter
        (fun l => ¬ l.isEmpty) = (r0 :: rows').map (encodeRow schema) := by
      rw [List.filter_eq_self]
      intro l hl
      rcases List.mem_map.mp hl with ⟨r, hrr, hlr⟩
      have := (hrows r hrr).2.1
      rw [← hlr]
      cases hE : encodeRow schema r
      · exact absurd hE this
      · simp
    rw [hflt]
    rw [List.map_map]
    have hrow : ∀ r ∈ r0 :: rows',
        (List.range schema.length).map
          (fun j => (splitLineJs [';'] (encodeRow schema r)).getD j []) = r := by
      intro r hr
      have hlen := (hrows r hr).1
      have hrne : r ≠ [] := by
        intro hE
        rw [hE] at hlen
        cases schema with
        | nil => exact absurd rfl hsne
        | cons nm rest => simp at hlen
      rw [splitLineJs_encodeRow schema r hlen hrne
        (fun f hf => ((hrows r hr).2.2 f hf).1)]
      rw [← hlen]
      exact range_getD_id r
    congr 1
    conv_rhs => rw [← List.map_id (r0 :: rows')]
    apply List.map_congr_left
    intro r hr
    exact hrow r hr

/-- C1, witness for the amended round-trip at a concrete row whose
fields exercise the separator and quote escaping. -/
theorem c1_amended_round_trip_witness :
    decodeToon (encodeToon [[("a;b").data, ("say \"hi\"").data]]
      [("col1").data, ("col2").data]) =
      some [[("a;b").data, ("say \"hi\"").data]] :=
  c1_amended_round_trip [[("a;b").data, ("say \"hi\"").data]]
    [("col1").data, ("col2").data] (by decide) (by decide) (by decide)

/-- A prefix match survives extension on the right. -/
theorem startsWithL_mono (p u t : List Char) (h : startsWithL p u = true) :
    startsWithL p (u ++ t) = true := by
  induction p generalizing u with
  | nil => rfl
  | cons q p ih =>
    cases u with
    | nil => simp [startsWithL] at h
    | cons c u' =>
      rw [List.cons_append]
      simp only [startsWithL, Bool.and_eq_true] at h ⊢
      exact ⟨h.1, ih u' h.2⟩

/-- A case-insensitive prefix match survives extension on the right. -/
theorem startsWithCI_mono (p u t : List Char) (h : startsWithCI p u = true) :
    startsWithCI p (u ++ t) = true := by
  unfold startsWithCI lowL at h ⊢
  rw [List.map_append]
  exact startsWithL_mono _ _ _ h

/-- A room-name occurrence survives extension on the right. -/
theorem roomOccAt_mono (names : List (List Char)) (u t : List Char)
    (h : roomOccAt names u = true) : roomOccAt names (u ++ t) = true := by
  unfold roomOccAt at h ⊢
  rcases List.any_eq_true.mp h with ⟨nm, hnm, hsw⟩
  exact List.any_eq_true.mpr ⟨nm, hnm, startsWithCI_mono _ _ _ hsw⟩

/-- No room-name occurrence starts at the end of a string. -/
theorem roomOccAt_nil (names : List (List Char)) : roomOccAt names [] = false := by
  unfold roomOccAt
  rw [List.any_eq_false]
  intro nm _
  simp [startsWithCI, lowL, startsWithL]

/-- A scan that found no hit saw none at any position. -/
theorem firstHitIdx_none_all (hit : List Char → Bool) (s : List Char)
    (h : firstHitIdx hit s = none) (hnil : hit [] = false) :
    ∀ j, hit (s.drop j) = false := by
  induction s with
  | nil => intro j; simpa using hnil
  | cons c s ih =>
    rw [firstHitIdx] at h
    split at h
    · exact absurd h (by simp)
    · intro j
      match j with
      | 0 =>
        rename_i hmiss
        simpa using (Bool.not_eq_true _).mp hmiss
      | j + 1 =>
        exact ih (by
          cases hfi : firstHitIdx hit s
          · rfl
          · rw [hfi] at h; simp at h) j

/-- The scan hit nothing before its first hit. -/
theorem firstHitIdx_some_lt (hit : List Char → Bool) (s : List Char) (i : Nat)
    (h : firstHitIdx hit s = some i) : ∀ j < i, hit (s.drop j) = false := by
  induction s generalizing i with
  | nil => simp [firstHitIdx] at h
  | cons c s ih =>
    rw [firstHitIdx] at h
    split at h
    · intro j hj
      cases h
      omega
    · intro j hj
      cases hfi : firstHitIdx hit s with
      | none => rw [hfi] at h; simp at h
      | some i' =>
        rw [hfi] at h
        have hii : i' + 1 = i := by simpa using h
        match j with
        | 0 =>
          rename_i hmiss
          simpa using (Bool.not_eq_true _).mp hmiss
        | j + 1 => exact ih i' hfi j (by omega)

/-- A position-free scan is recorded as a `none` result. -/
theorem firstHitIdx_none_of (hit : List Char → Bool) (s : List Char)
    (h : ∀ j, hit (s.drop j) = false) : firstHitIdx hit s = none := by
  induction s with
  | nil => rfl
  | cons c s ih =>
    rw [firstHitIdx]
    rw [if_neg (by simpa using h 0)]
    rw [ih (fun j => by simpa using h (j + 1))]
    rfl

/-- Stripping from the first hit leaves a hit-free string, for a
right-extension-closed hit predicate. -/
theorem strip_suffix_no_hit (hit : List Char → Bool)
    (hmono : ∀ u t, hit u = true → hit (u ++ t) = true)
    (hnil : hit [] = false) (s : List Char) :
    ∀ j, hit ((stripFromFirst hit s).drop j) = false := by
  cases hfi : firstHitIdx hit s with
  | none =>
    rw [show stripFromFirst hit s = s by unfold stripFromFirst; rw [hfi]]
    exact firstHitIdx_none_all hit s hfi hnil
  | some i =>
    rw [show stripFromFirst hit s = s.take i by unfold stripFromFirst; rw [hfi]]
    intro j
    by_cases hj : j < (s.take i).length
    · cases hhit : hit ((s.take i).drop j) with
      | false => rfl
      | true =>
        have h1 : hit ((s.take i).drop j ++ s.drop i) = true := hmono _ _ hhit
        have h2 : (s.take i).drop j ++ s.drop i = s.drop j := by
          rw [← List.drop_append_of_le_length (by omega)]
          rw [List.take_append_drop]
        rw [h2] at h1
        have hji : j < i := by
          rw [List.length_take] at hj
          omega
        exact absurd h1 (by simp [firstHitIdx_some_lt hit s i hfi j hji])
    · rw [List.drop_eq_nil_of_le (by omega)]
      exact hnil

/-- A hit-free property passes to contiguous substrings, for a
right-extension-closed hit predicate. -/
theorem sub_no_hit (hit : List Char → Bool)
    (hmono : ∀ u t, hit u = true → hit (u ++ t) = true)
    (hnil : hit [] = false) (u a b w : List Char)
    (hw : w = a ++ u ++ b)
    (hno : ∀ j, hit (w.drop j) = false) :
    ∀ j, hit (u.drop j) = false := by
  intro j
  by_cases hj : j < u.length
  · cases hhit : hit (u.drop j) with
    | false => rfl
    | true =>
      have h1 : hit (u.drop j ++ b) = true := hmono _ _ hhit
      have h2 : w.drop (a.length + j) = u.drop j ++ b := by
        rw [hw, List.append_assoc]
        rw [show a.length + j = a.length + j from rfl]
        rw [List.drop_append_eq_append_drop]
        rw [List.drop_eq_nil_of_le (by omega), List.nil_append]
        rw [show a.length + j - a.length = j by omega]
        rw [List.drop_append_of_le_length (by omega)]
      rw [← h2] at h1
      rw [hno (a.length + j)] at h1
      exact absurd h1 (by simp)
  · rw [List.drop_eq_nil_of_le (by omega)]
    exact hnil

/-- Stripping is the identity on hit-free strings. -/
theorem strip_id_of_no_hit (hit : List Char → Bool) (u : List Char)
    (hno : ∀ j, hit (u.drop j) = false) : stripFromFirst hit u = u := by
  unfold stripFromFirst
  rw [firstHitIdx_none_of hit u hno]

/-- Trimming cuts a contiguous substring out of the middle. -/
theorem trim_sub (u : List Char) : ∃ a b, u = a ++ trimL u ++ b := by
  refine ⟨u.takeWhile isWsChar,
    ((u.dropWhile isWsChar).reverse.takeWhile isWsChar).reverse, ?_⟩
  unfold trimL trimTrailL trimLeadL
  have h2 : (u.dropWhile isWsChar) =
      ((u.dropWhile isWsChar).reverse.dropWhile isWsChar).reverse ++
        ((u.dropWhile isWsChar).reverse.takeWhile isWsChar).reverse := by
    conv_lhs => rw [← List.reverse_reverse (u.dropWhile isWsChar)]
    rw [← List.reverse_append, List.takeWhile_append_dropWhile]
  conv_lhs => rw [← @List.takeWhile_append_dropWhile _ isWsChar u]
  rw [List.append_assoc, ← h2]

/-- The head surviving a `dropWhile` fails the predicate. -/
theorem dropWhile_head_not (p : Char → Bool) (s : List Char) (c : Char)
    (h : (s.dropWhile p).head? = some c) : p c = false := by
  induction s with
  | nil => simp at h
  | cons a s ih =>
    rw [List.dropWhile_cons] at h
    split at h
    · exact ih h
    · rename_i hpa
      rw [List.head?_cons] at h
      cases h
      simpa using hpa

/-- The head of a trimmed string is not whitespace. -/
theorem trimL_head_not (s : List Char) (c : Char)
    (h : (trimL s).head? = some c) : isWsChar c = false := by
  unfold trimL trimTrailL at h
  set v := trimLeadL s with hv
  cases hx : (v.reverse.dropWhile isWsChar).reverse with
  | nil => rw [hx] at h; simp at h
  | cons d m =>
    rw [hx, List.head?_cons] at h
    cases h
    have hpre : v = (v.reverse.dropWhile isWsChar).reverse ++
        (v.reverse.takeWhile isWsChar).reverse := by
      conv_lhs => rw [← List.reverse_reverse v]
      rw [← List.reverse_append, List.takeWhile_append_dropWhile]
    have hhead : v.head? = some c := by
      rw [hpre, hx]
      rfl
    rw [hv] at hhead
    unfold trimLeadL at hhead
    exact dropWhile_head_not isWsChar s c hhead

/-- The last character of a trimmed string is not whitespace. -/
theorem trimL_last_not (s : List Char) (c : Char)
    (h : (trimL s).getLast? = some c) : isWsChar c = false := by
  unfold trimL trimTrailL at h
  rw [List.getLast?_reverse] at h
  exact dropWhile_head_not isWsChar _ c h

/-- Trimming is idempotent. -/
theorem trimL_idem (s : List Char) : trimL (trimL s) = trimL s :=
  trimL_edge (trimL s) (trimL_head_not s) (trimL_last_not s)

/-- Members of a trimmed string are members of the string. -/
theorem trimL_mem (c : Char) (s : List Char) (h : c ∈ trimL s) : c ∈ s := by
  obtain ⟨a, b, hab⟩ := trim_sub s
  rw [hab]
  simp [h]

/-- The comma-count and pattern test survive into the strip analysis:
`fix2Clean` is idempotent. -/
theorem fix2Clean_idem (s : List Char) : fix2Clean (fix2Clean s) = fix2Clean s := by
  unfold fix2Clean
  have hmono := roomOccAt_mono sanitizeRoomNames
  have hnil := roomOccAt_nil sanitizeRoomNames
  have hno : ∀ j, roomOccAt sanitizeRoomNames
      ((trimL (stripFromFirst (roomOccAt sanitizeRoomNames) s)).drop j) = false := by
    obtain ⟨a, b, hab⟩ := trim_sub (stripFromFirst (roomOccAt sanitizeRoomNames) s)
    exact sub_no_hit _ hmono hnil _ a b _ hab
      (strip_suffix_no_hit _ hmono hnil s)
  rw [strip_id_of_no_hit _ _ hno]
  exact trimL_idem _

/-- Segments of a split are separator-free. -/
theorem splitOnC_seg_sep_free (c : Char) (s : List Char) :
    ∀ seg ∈ splitOnC c s, ∀ x ∈ seg, ¬ x = c := by
  induction s with
  | nil =>
    intro seg hseg x hx
    rw [show splitOnC c [] = [[]] from rfl] at hseg
    simp at hseg
    subst hseg
    simp at hx
  | cons a s ih =>
    intro seg hseg x hx
    rw [splitOnC] at hseg
    split at hseg
    · rcases List.mem_cons.mp hseg with h1 | h1
      · subst h1; simp at hx
      · exact ih seg h1 x hx
    · rename_i ha
      cases hsp : splitOnC c s with
      | nil => rw [hsp] at hseg; simp at hseg; subst hseg; simp at hx; subst hx; exact ha
      | cons h t =>
        rw [hsp] at hseg
        rcases List.mem_cons.mp hseg with h1 | h1
        · subst h1
          rcases List.mem_cons.mp hx with h2 | h2
          · subst h2; exact ha
          · exact ih h (by rw [hsp]; simp) x h2
        · exact ih seg (by rw [hsp]; simp [h1]) x hx

/-- Segment members are members of the split string. -/
theorem splitOnC_seg_mem (c : Char) (s : List Char) :
    ∀ seg ∈ splitOnC c s, ∀ x ∈ seg, x ∈ s := by
  induction s with
  | nil =>
    intro seg hseg x hx
    rw [show splitOnC c [] = [[]] from rfl] at hseg
    simp at hseg
    subst hseg
    simp at hx
  | cons a s ih =>
    intro seg hseg x hx
    rw [splitOnC] at hseg
    split at hseg
    · rcases List.mem_cons.mp hseg with h1 | h1
      · subst h1; simp at hx
      · exact List.mem_cons_of_mem a (ih seg h1 x hx)
    · cases hsp : splitOnC c s with
      | nil => rw [hsp] at hseg; simp at hseg; subst hseg; simp at hx; simp [hx]
      | cons h t =>
        rw [hsp] at hseg
        rcases List.mem_cons.mp hseg with h1 | h1
        · subst h1
          rcases List.mem_cons.mp hx with h2 | h2
          · simp [h2]
          · exact List.mem_cons_of_mem a (ih h (by rw [hsp]; simp) x h2)
        · exact List.mem_cons_of_mem a (ih seg (by rw [hsp]; simp [h1]) x hx)

/-- A split never returns the empty list. -/
theorem splitOnC_ne_nil (c : Char) (s : List Char) : splitOnC c s ≠ [] := by
  induction s with
  | nil => simp [splitOnC]
  | cons a s ih =>
    rw [splitOnC]
    split
    · simp
    · cases hsp : splitOnC c s with
      | nil => exact absurd hsp ih
      | cons h t => simp

/-- Joining undoes splitting. -/
theorem interL_splitOnC (c : Char) (s : List Char) :
    interL [c] (splitOnC c s) = s := by
  induction s with
  | nil => rfl
  | cons a s ih =>
    rw [splitOnC]
    split
    · rename_i ha
      cases hsp : splitOnC c s with
      | nil => exact absurd hsp (splitOnC_ne_nil c s)
      | cons h t =>
        rw [show interL [c] ([] :: h :: t) = [] ++ c :: interL [c] (h :: t)
          by simp [interL]]
        rw [← hsp, ih, ha]
        rfl
    · cases hsp : splitOnC c s with
      | nil =>
        have := congrArg (interL [c]) hsp
        rw [ih] at this
        simp [interL] at this ⊢
        simp [← this]
      | cons h t =>
        cases t with
        | nil =>
          have := congrArg (interL [c]) hsp
          rw [ih] at this
          simp [interL] at this ⊢
          simp [← this]
        | cons h2 t2 =>
          have := congrArg (interL [c]) hsp
          rw [ih] at this
          rw [show interL [c] ((a :: h) :: h2 :: t2) =
            (a :: h) ++ c :: interL [c] (h2 :: t2) by simp [interL]]
          rw [show interL [c] (h :: h2 :: t2) = h ++ c :: interL [c] (h2 :: t2)
            by simp [interL]] at this
          rw [List.cons_append, this]

/-- A separator-free prefix test does not depend on what follows the
first separator. -/
theorem sw_through_sep (p : List Char) (sep : Char)
    (hp : ∀ c ∈ p, ¬ c = sep) (a X Y : List Char) :
    startsWithL p (a ++ sep :: X) = startsWithL p (a ++ sep :: Y) := by
  induction p generalizing a with
  | nil => rfl
  | cons q p ih =>
    cases a with
    | nil =>
      have hq : ¬ q = sep := hp q (by simp)
      simp [startsWithL, hq]
    | cons b a' =>
      rw [List.cons_append, List.cons_append]
      rw [show startsWithL (q :: p) (b :: (a' ++ sep :: X)) =
        (decide (q = b) && startsWithL p (a' ++ sep :: X)) from rfl]
      rw [show startsWithL (q :: p) (b :: (a' ++ sep :: Y)) =
        (decide (q = b) && startsWithL p (a' ++ sep :: Y)) from rfl]
      rw [ih (fun c hc => hp c (by simp [hc])) a']

/-- A string with a non-whitespace member does not trim to empty. -/
theorem trimL_ne_nil (u : List Char) (c : Char) (hc : c ∈ u)
    (hw : isWsChar c = false) : (trimL u).isEmpty = false := by
  cases hT : trimL u with
  | cons d m => rfl
  | nil =>
    exfalso
    have hall : ∀ x ∈ u, isWsChar x = true := by
      have h1 : (u.dropWhile isWsChar).reverse.dropWhile isWsChar = [] := by
        have := congrArg List.reverse hT
        unfold trimL trimTrailL at this
        simpa using this
      rw [List.dropWhile_eq_nil_iff] at h1
      intro x hx
      by_cases hxw : isWsChar x = true
      · exact hxw
      · exfalso
        have hxd : x ∈ u.dropWhile isWsChar := by
          have hsplit := @List.takeWhile_append_dropWhile _ isWsChar u
          rw [← hsplit] at hx
          rcases List.mem_append.mp hx with h2 | h2
          · exact absurd (List.mem_takeWhile_imp h2) hxw
          · exact h2
        exact hxw (h1 x (by simpa using hxd))
    rw [hall c hc] at hw
    exact absurd hw (by simp)

/-- The separator occurs in a join of at least two segments. -/
theorem interL_sep_mem (c : Char) (l m : List Char) (ls : List (List Char)) :
    c ∈ interL [c] (l :: m :: ls) := by
  rw [show interL [c] (l :: m :: ls) = l ++ c :: interL [c] (m :: ls)
    by simp [interL]]
  simp

/-- Members of a stripped string are members of the string. -/
theorem stripFromFirst_mem (hit : List Char → Bool) (s : List Char) (c : Char)
    (h : c ∈ stripFromFirst hit s) : c ∈ s := by
  unfold stripFromFirst at h
  split at h
  · exact h
  · exact List.mem_of_mem_take h

/-- Membership in a join with a general separator. -/
theorem interL_mem_gen (x : Char) (sep : List Char) (ls : List (List Char))
    (h : x ∈ interL sep ls) : x ∈ sep ∨ ∃ l ∈ ls, x ∈ l := by
  induction ls with
  | nil => simp [interL] at h
  | cons l ls ih =>
    cases ls with
    | nil =>
      right
      exact ⟨l, by simp, by simpa [interL] using h⟩
    | cons m ls' =>
      rw [show interL sep (l :: m :: ls') = l ++ sep ++ interL sep (m :: ls')
        by simp [interL]] at h
      rcases List.mem_append.mp h with h1 | h1
      · rcases List.mem_append.mp h1 with h2 | h2
        · exact Or.inr ⟨l, by simp, h2⟩
        · exact Or.inl h2
      · rcases ih h1 with h3 | ⟨r, hr, hxr⟩
        · exact Or.inl h3
        · exact Or.inr ⟨r, by simp [hr], hxr⟩

/-- Members of a cleaned description are members of the original. -/
theorem fix2Clean_mem (c : Char) (d : List Char) (h : c ∈ fix2Clean d) :
    c ∈ d := by
  unfold fix2Clean at h
  exact stripFromFirst_mem _ _ _ (trimL_mem c _ h)

/-- The sanitizer adds only separators, spaces and dashes to a line. -/
theorem sanitizeLine_mem (line : List Char) (c : Char) (h : c ∈ sanitizeLine line) :
    c ∈ line ∨ c = ';' ∨ c = ' ' ∨ c = '-' := by
  simp only [sanitizeLine] at h
  split at h
  · exact Or.inl h
  · split at h
    · rcases interL_mem_gen c [';'] _ h with h1 | ⟨l, hl, hcl⟩
      · right; left; simpa using h1
      · rcases List.mem_append.mp hl with h2 | h2
        · exact Or.inl (splitOnC_seg_mem ';' line l (List.mem_of_mem_take h2) c hcl)
        · rcases List.mem_cons.mp h2 with h3 | h3
          · subst h3
            rcases interL_mem_gen c ((" - ").data) _ hcl with h4 | ⟨m, hm, hcm⟩
            · right; right
              simp at h4
              tauto
            · exact Or.inl (splitOnC_seg_mem ';' line m
                (List.mem_of_mem_drop (List.mem_of_mem_take hm)) c hcm)
          · exact Or.inl (splitOnC_seg_mem ';' line l
              (List.mem_of_mem_drop h3) c hcl)
    · split at h
      · split at h
        · rcases interL_mem_gen c [';'] _ h with h1 | ⟨l, hl, hcl⟩
          · right; left; simpa using h1
          · rcases List.mem_append.mp hl with h2 | h2
            · exact Or.inl (splitOnC_seg_mem ';' line l
                (List.mem_of_mem_take h2) c hcl)
            · rcases List.mem_cons.mp h2 with h3 | h3
              · subst h3
                have hcd := fix2Clean_mem c _ hcl
                by_cases hb : 2 < (splitOnC ';' line).length
                · have : (splitOnC ';' line).getD 2 [] ∈ splitOnC ';' line := by
                    rw [List.getD_eq_getElem _ [] hb]
                    exact List.getElem_mem hb
                  exact Or.inl (splitOnC_seg_mem ';' line _ this c hcd)
                · rw [List.getD_eq_default _ [] (by omega)] at hcd
                  simp at hcd
              · exact Or.inl (splitOnC_seg_mem ';' line l
                  (List.mem_of_mem_drop h3) c hcl)
        · exact Or.inl h
      · exact Or.inl h

/-- The sanitizer passes header and blank lines through. -/
theorem sanitizeLine_id_head (line : List Char)
    (h1 : (startsWithL (("#TOON").data) line || (trimL line).isEmpty) = true) :
    sanitizeLine line = line := by
  unfold sanitizeLine
  rw [if_pos h1]

/-- The sanitizer passes short lines through. -/
theorem sanitizeLine_id_lt (line : List Char)
    (h1 : (startsWithL (("#TOON").data) line || (trimL line).isEmpty) = false)
    (hlt : (splitOnC ';' line).length < expectedColsV14) :
    sanitizeLine line = line := by
  simp only [sanitizeLine]
  rw [if_neg (by simp [h1]), if_neg (by omega), if_neg (by omega)]

/-- The sanitizer passes full-width lines with untriggered Fix 2
through. -/
theorem sanitizeLine_id_eq_nofix (line : List Char)
    (h1 : (startsWithL (("#TOON").data) line || (trimL line).isEmpty) = false)
    (heq : (splitOnC ';' line).length = expectedColsV14)
    (hfix : (commaCount ((splitOnC ';' line).getD 2 []) ≥ 5 &&
      fix2PatTest ((splitOnC ';' line).getD 2 [])) = false) :
    sanitizeLine line = line := by
  simp only [sanitizeLine]
  rw [if_neg (by simp [h1]), if_neg (by omega), if_pos heq,
    if_neg (by rw [hfix]; simp)]

/-- The sanitizer's Fix 2 rewrite on a triggered full-width line. -/
theorem sanitizeLine_fix2 (line : List Char)
    (h1 : (startsWithL (("#TOON").data) line || (trimL line).isEmpty) = false)
    (heq : (splitOnC ';' line).length = expectedColsV14)
    (hfix : (commaCount ((splitOnC ';' line).getD 2 []) ≥ 5 &&
      fix2PatTest ((splitOnC ';' line).getD 2 [])) = true) :
    sanitizeLine line = interL [';'] ((splitOnC ';' line).take 2 ++
      fix2Clean ((splitOnC ';' line).getD 2 []) :: (splitOnC ';' line).drop 3) := by
  simp only [sanitizeLine]
  rw [if_neg (by simp [h1]), if_neg (by omega), if_pos heq, if_pos hfix]

/-- One sanitizer pass is stable on lines within the declared column
count. -/
theorem sanitizeLine_stable (line : List Char)
    (hcols : (splitOnC ';' line).length ≤ expectedColsV14) :
    sanitizeLine (sanitizeLine line) = sanitizeLine line := by
  by_cases h1 : (startsWithL (("#TOON").data) line || (trimL line).isEmpty) = true
  · rw [sanitizeLine_id_head line h1]
    exact sanitizeLine_id_head line h1
  · have h1' : (startsWithL (("#TOON").data) line || (trimL line).isEmpty) = false := by
      simpa using h1
    by_cases heq : (splitOnC ';' line).length = expectedColsV14
    · by_cases hfix : (commaCount ((splitOnC ';' line).getD 2 []) ≥ 5 &&
        fix2PatTest ((splitOnC ';' line).getD 2 [])) = true
      · have hexp : expectedColsV14 = 28 := rfl
        obtain ⟨f0, f1, f2, rest, hfields⟩ : ∃ f0 f1 f2 rest,
            splitOnC ';' line = f0 :: f1 :: f2 :: rest := by
          match hsp : splitOnC ';' line, heq with
          | a :: b :: c :: r, _ => exact ⟨a, b, c, r, rfl⟩
          | [], hq => rw [hexp] at hq; simp at hq
          | [a], hq => rw [hexp] at hq; simp at hq
          | [a, b], hq => rw [hexp] at hq; simp at hq
        have hrest : rest.length = 25 := by
          rw [hfields, hexp] at heq
          simp at heq
          omega
        obtain ⟨r0, rest', hr0⟩ : ∃ r0 rest', rest = r0 :: rest' := by
          cases rest with
          | nil => simp at hrest
          | cons r0 rest' => exact ⟨r0, rest', rfl⟩
        have hL1 : sanitizeLine line =
            interL [';'] (f0 :: f1 :: fix2Clean f2 :: rest) := by
          rw [sanitizeLine_fix2 line h1' heq hfix, hfields]
          rfl
        rw [hL1]
        have hline : line = interL [';'] (f0 :: f1 :: f2 :: rest) := by
          rw [← hfields, interL_splitOnC]
        have hsegfree : ∀ l ∈ f0 :: f1 :: fix2Clean f2 :: rest, ∀ x ∈ l, ¬ x = ';' := by
          intro l hl x hx
          rcases List.mem_cons.mp hl with h2 | h2
          · exact splitOnC_seg_sep_free ';' line l (by rw [hfields]; simp [h2]) x hx
          · rcases List.mem_cons.mp h2 with h3 | h3
            · exact splitOnC_seg_sep_free ';' line l (by rw [hfields]; simp [h3]) x hx
            · rcases List.mem_cons.mp h3 with h4 | h4
              · subst h4
                exact splitOnC_seg_sep_free ';' line f2 (by rw [hfields]; simp) x
                  (fix2Clean_mem x f2 hx)
              · exact splitOnC_seg_sep_free ';' line l (by rw [hfields]; simp [h4]) x hx
        have hsplit' : splitOnC ';' (interL [';'] (f0 :: f1 :: fix2Clean f2 :: rest)) =
            f0 :: f1 :: fix2Clean f2 :: rest :=
          splitOnC_interL ';' _ (by simp) hsegfree
        have hswline : startsWithL (("#TOON").data) line = false := by
          rcases Bool.or_eq_false_iff.mp h1' with ⟨ha, _⟩
          exact ha
        have hsw' : startsWithL (("#TOON").data)
            (interL [';'] (f0 :: f1 :: fix2Clean f2 :: rest)) = false := by
          rw [show interL [';'] (f0 :: f1 :: fix2Clean f2 :: rest) =
            f0 ++ ';' :: interL [';'] (f1 :: fix2Clean f2 :: rest) by simp [interL]]
          rw [sw_through_sep (("#TOON").data) ';' (by decide) f0 _
            (interL [';'] (f1 :: f2 :: rest))]
          rw [show f0 ++ ';' :: interL [';'] (f1 :: f2 :: rest) =
            interL [';'] (f0 :: f1 :: f2 :: rest) by simp [interL]]
          rw [← hline]
          exact hswline
        have hblank' : (trimL (interL [';'] (f0 :: f1 :: fix2Clean f2 :: rest))).isEmpty
            = false :=
          trimL_ne_nil _ ';' (interL_sep_mem ';' f0 f1 _) rfl
        have h1'' : (startsWithL (("#TOON").data)
            (interL [';'] (f0 :: f1 :: fix2Clean f2 :: rest)) ||
            (trimL (interL [';'] (f0 :: f1 :: fix2Clean f2 :: rest))).isEmpty) = false := by
          rw [hsw', hblank']
          rfl
        have heq' : (splitOnC ';'
            (interL [';'] (f0 :: f1 :: fix2Clean f2 :: rest))).length =
            expectedColsV14 := by
          rw [hsplit', hexp]
          simp
          omega
        by_cases hfix' : (commaCount ((splitOnC ';'
            (interL [';'] (f0 :: f1 :: fix2Clean f2 :: rest))).getD 2 []) ≥ 5 &&
            fix2PatTest ((splitOnC ';'
            (interL [';'] (f0 :: f1 :: fix2Clean f2 :: rest))).getD 2 [])) = true
        · rw [sanitizeLine_fix2 _ h1'' heq' hfix', hsplit']
          rw [show (f0 :: f1 :: fix2Clean f2 :: rest).take 2 = [f0, f1] from rfl]
          rw [show (f0 :: f1 :: fix2Clean f2 :: rest).getD 2 [] = fix2Clean f2 from rfl]
          rw [show (f0 :: f1 :: fix2Clean f2 :: rest).drop 3 = rest from rfl]
          rw [fix2Clean_idem]
          rfl
        · exact sanitizeLine_id_eq_nofix _ h1'' heq' (by simpa using hfix')
      · have hid := sanitizeLine_id_eq_nofix line h1' heq (by simpa using hfix)
        rw [hid]
        exact hid
    · have hid := sanitizeLine_id_lt line h1' (by omega)
      rw [hid]
      exact hid

/-- C4 support: the sanitizer is idempotent on documents whose lines
stay within the declared column count. -/
theorem sanitizeToon_idem_of (toon : List Char)
    (h : ∀ l ∈ splitOnC '\n' toon, (splitOnC ';' l).length ≤ expectedColsV14) :
    sanitizeToon (sanitizeToon toon) = sanitizeToon toon := by
  unfold sanitizeToon
  have hnl : ∀ l' ∈ (splitOnC '\n' toon).map sanitizeLine, ∀ x ∈ l', ¬ x = '\n' := by
    intro l' hl' x hx
    rcases List.mem_map.mp hl' with ⟨l, hl, hll⟩
    rcases sanitizeLine_mem l x (hll ▸ hx) with h1 | h1 | h1 | h1
    · exact splitOnC_seg_sep_free '\n' toon l hl x h1
    · subst h1; decide
    · subst h1; decide
    · subst h1; decide
  rw [splitOnC_interL '\n' _ (by simpa using splitOnC_ne_nil '\n' toon) hnl]
  rw [List.map_map]
  congr 1
  apply List.map_congr_left
  intro l hl
  exact sanitizeLine_stable l (h l hl)

/-- A `takeWhile` can only grow under right extension. -/
theorem takeWhile_prefix_ext (p : Char → Bool) (u t : List Char) :
    ∃ w, (u ++ t).takeWhile p = u.takeWhile p ++ w := by
  induction u with
  | nil => exact ⟨t.takeWhile p, by simp⟩
  | cons a u ih =>
    by_cases ha : p a = true
    · obtain ⟨w, hw⟩ := ih
      exact ⟨w, by rw [List.cons_append, List.takeWhile_cons, ha,
        List.takeWhile_cons, ha]; simp [hw]⟩
    · refine ⟨[], ?_⟩
      rw [List.cons_append, List.takeWhile_cons, List.takeWhile_cons]
      simp only [Bool.not_eq_true] at ha
      rw [ha]
      simp

/-- Dropping the `takeWhile` leaves the `dropWhile`. -/
theorem drop_takeWhile_len (p : Char → Bool) (s : List Char) :
    s.drop (s.takeWhile p).length = s.dropWhile p := by
  nth_rewrite 2 [← @List.takeWhile_append_dropWhile _ p s]
  rw [List.drop_left]

/-- No trailing-fragment occurrence starts at the end of a string. -/
theorem trailOccAt_nil : trailOccAt [] = false := rfl

/-- A trailing-fragment occurrence survives extension on the right. -/
theorem trailOccAt_mono (u t : List Char) (h : trailOccAt u = true) :
    trailOccAt (u ++ t) = true := by
  unfold trailOccAt at h ⊢
  rw [Bool.and_eq_true] at h
  obtain ⟨h2, hany⟩ := h
  rw [Bool.and_eq_true]
  obtain ⟨w, hw⟩ := takeWhile_prefix_ext (fun c => c = ',') u t
  have hlen : (u.takeWhile (fun c => c = ',')).length ≤
      ((u ++ t).takeWhile (fun c => c = ',')).length := by
    rw [hw]
    simp
  have h2' : 2 ≤ (u.takeWhile (fun c => c = ',')).length := of_decide_eq_true h2
  refine ⟨decide_eq_true (by omega), ?_⟩
  rcases List.any_eq_true.mp hany with ⟨k, hk, hkP⟩
  refine List.any_eq_true.mpr ⟨k, ?_, ?_⟩
  · rw [List.mem_range] at hk ⊢
    omega
  · have hk2 : k + 2 ≤ u.length := by
      rw [List.mem_range] at hk
      have := (List.takeWhile_sublist (fun c : Char => c = ',') (l := u)).length_le
      omega
    simp only at hkP ⊢
    split at hkP
    · rename_i r3 hdm
      have hds : (u.drop (k + 2)).takeWhile isDigitChar ++ ',' :: r3 =
          u.drop (k + 2) := by
        conv_rhs => rw [← @List.takeWhile_append_dropWhile _ isDigitChar
          (u.drop (k + 2))]
        rw [← drop_takeWhile_len isDigitChar (u.drop (k + 2)), hdm]
      have hrest' : (u ++ t).drop (k + 2) = u.drop (k + 2) ++ t :=
        List.drop_append_of_le_length hk2
      have htwL : ∀ X, ((u.drop (k + 2)).takeWhile isDigitChar ++
          ',' :: X).takeWhile isDigitChar =
          (u.drop (k + 2)).takeWhile isDigitChar := by
        intro X
        rw [takeWhile_append_all _ (fun c hc => List.mem_takeWhile_imp hc)]
        rw [show ((',' :: X).takeWhile isDigitChar) = [] from rfl]
        simp
      have hds' : ((u ++ t).drop (k + 2)).takeWhile isDigitChar =
          (u.drop (k + 2)).takeWhile isDigitChar := by
        conv_lhs => rw [hrest', ← hds, List.append_assoc, List.cons_append]
        exact htwL (r3 ++ t)
      rw [hds']
      have hdrop : ((u ++ t).drop (k + 2)).drop
          ((u.drop (k + 2)).takeWhile isDigitChar).length = ',' :: (r3 ++ t) := by
        conv_lhs => rw [hrest', ← hds, List.append_assoc, List.cons_append]
        rw [htwL r3, List.drop_left]
      rw [hdrop]
      rw [Bool.or_eq_true, Bool.or_eq_true, Bool.or_eq_true] at hkP
      rcases hkP with ((h3 | h3) | h3) | h3 <;>
        simp [startsWithCI_mono _ _ t h3]
    · exact absurd hkP (by simp)

/-- A stripped string is a prefix of the original. -/
theorem stripFromFirst_sub (hit : List Char → Bool) (s : List Char) :
    ∃ b, s = stripFromFirst hit s ++ b := by
  unfold stripFromFirst
  cases firstHitIdx hit s with
  | none => exact ⟨[], by simp⟩
  | some i => exact ⟨s.drop i, by rw [List.take_append_drop]⟩

/-- The semicolon-to-comma map fixes semicolon-free strings. -/
theorem mapSemi_id (u : List Char) (h : ∀ c ∈ u, ¬ c = ';') :
    u.map (fun c => if c = ';' then ',' else c) = u := by
  calc u.map (fun c => if c = ';' then ',' else c) = u.map id :=
        List.map_congr_left (fun c hc => by rw [if_neg (h c hc)]; rfl)
    _ = u := List.map_id u

/-- Members of the semicolon-to-comma image are never semicolons. -/
theorem mapSemi_mem (c : Char) (d : List Char)
    (h : c ∈ d.map (fun c => if c = ';' then ',' else c)) : ¬ c = ';' := by
  rcases List.mem_map.mp h with ⟨x, _, hx⟩
  by_cases hxs : x = ';'
  · rw [if_pos hxs] at hx
    rw [← hx]
    decide
  · rw [if_neg hxs] at hx
    rw [← hx]
    exact hxs

/-- The description-cleaning chain is idempotent. -/
theorem descChainClean_idem (d : List Char) :
    descChainClean (descChainClean d) = descChainClean d := by
  unfold descChainClean
  have hfm : (trimL (stripFromFirst trailOccAt
      (stripFromFirst (roomOccAt cleanupRoomNames)
        (d.map fun c => if c = ';' then ',' else c)))).map
      (fun c => if c = ';' then ',' else c) =
      trimL (stripFromFirst trailOccAt
        (stripFromFirst (roomOccAt cleanupRoomNames)
          (d.map fun c => if c = ';' then ',' else c))) := by
    apply mapSemi_id
    intro c hc
    exact mapSemi_mem c d (stripFromFirst_mem _ _ _ (stripFromFirst_mem _ _ _
      (trimL_mem c _ hc)))
  rw [hfm]
  obtain ⟨b1, hb1⟩ := stripFromFirst_sub trailOccAt
    (stripFromFirst (roomOccAt cleanupRoomNames)
      (d.map fun c => if c = ';' then ',' else c))
  obtain ⟨a2, b2, hab2⟩ := trim_sub (stripFromFirst trailOccAt
    (stripFromFirst (roomOccAt cleanupRoomNames)
      (d.map fun c => if c = ';' then ',' else c)))
  have hnoR : ∀ j, roomOccAt cleanupRoomNames
      ((trimL (stripFromFirst trailOccAt
        (stripFromFirst (roomOccAt cleanupRoomNames)
          (d.map fun c => if c = ';' then ',' else c)))).drop j) = false := by
    apply sub_no_hit _ (roomOccAt_mono _) (roomOccAt_nil _) _ a2 (b2 ++ b1) _
      (by rw [← List.append_assoc, ← hab2, ← hb1])
    exact strip_suffix_no_hit _ (roomOccAt_mono _) (roomOccAt_nil _) _
  rw [strip_id_of_no_hit _ _ hnoR]
  have hnoT : ∀ j, trailOccAt
      ((trimL (stripFromFirst trailOccAt
        (stripFromFirst (roomOccAt cleanupRoomNames)
          (d.map fun c => if c = ';' then ',' else c)))).drop j) = false := by
    apply sub_no_hit _ trailOccAt_mono trailOccAt_nil _ a2 b2 _ hab2
    exact strip_suffix_no_hit _ trailOccAt_mono trailOccAt_nil _
  rw [strip_id_of_no_hit _ _ hnoT]
  exact trimL_idem _

/-- The description-cleaning stage is idempotent. -/
theorem fixDesc_idem (x : CRow) : fixDesc (fixDesc x) = fixDesc x := by
  unfold fixDesc
  by_cases hd : x.description.isEmpty = true
  · rw [if_pos hd, if_pos hd]
  · rw [if_neg hd]
    by_cases hd2 : (descChainClean x.description).isEmpty = true
    · rw [if_pos (by simpa using hd2)]
    · rw [if_neg (by simpa using hd2)]
      simp only [descChainClean_idem]

/-- The shift repair is skipped on empty or valid item types. -/
theorem fixShift_id (r : CRow)
    (h : (trimL r.item_type).isEmpty = true ∨
      isValidItemType (trimL r.item_type) = true) :
    fixShift r = r := by
  unfold fixShift
  rw [if_neg]
  rintro ⟨h1, h2⟩
  rcases h with h | h
  · exact h1 (by simpa using h)
  · exact h2 (by simpa using h)

/-- Field preservation of the later cleanup stages. -/
theorem fixConfNotes_fields (r : CRow) :
    (fixConfNotes r).room = r.room ∧ (fixConfNotes r).item_type = r.item_type ∧
    (fixConfNotes r).description = r.description ∧
    (fixConfNotes r).height_mm = r.height_mm ∧
    (fixConfNotes r).width_mm = r.width_mm ∧
    (fixConfNotes r).depth_mm = r.depth_mm ∧
    (fixConfNotes r).material = r.material ∧
    (fixConfNotes r).material_code = r.material_code ∧
    (fixConfNotes r).sheet_ref = r.sheet_ref := by
  unfold fixConfNotes
  split <;> exact ⟨rfl, rfl, rfl, rfl, rfl, rfl, rfl, rfl, rfl⟩

theorem fixDimWords_fields (r : CRow) :
    (fixDimWords r).room = r.room ∧ (fixDimWords r).item_type = r.item_type ∧
    (fixDimWords r).description = r.description ∧
    (fixDimWords r).notes = r.notes ∧
    (fixDimWords r).confidence = r.confidence ∧
    (fixDimWords r).material = r.material ∧
    (fixDimWords r).material_code = r.material_code ∧
    (fixDimWords r).sheet_ref = r.sheet_ref :=
  ⟨rfl, rfl, rfl, rfl, rfl, rfl, rfl, rfl⟩

theorem fixTall_fields (r : CRow) :
    (fixTall r).room = r.room ∧ (fixTall r).description = r.description ∧
    (fixTall r).notes = r.notes ∧ (fixTall r).confidence = r.confidence ∧
    (fixTall r).height_mm = r.height_mm ∧ (fixTall r).width_mm = r.width_mm ∧
    (fixTall r).depth_mm = r.depth_mm ∧ (fixTall r).material = r.material ∧
    (fixTall r).material_code = r.material_code ∧
    (fixTall r).sheet_ref = r.sheet_ref := by
  simp only [fixTall]
  split <;> exact ⟨rfl, rfl, rfl, rfl, rfl, rfl, rfl, rfl, rfl, rfl⟩

theorem fixMatCode_fields (r : CRow) :
    (fixMatCode r).room = r.room ∧ (fixMatCode r).item_type = r.item_type ∧
    (fixMatCode r).description = r.description ∧
    (fixMatCode r).notes = r.notes ∧
    (fixMatCode r).height_mm = r.height_mm ∧
    (fixMatCode r).width_mm = r.width_mm ∧
    (fixMatCode r).depth_mm = r.depth_mm ∧
    (fixMatCode r).material = r.material ∧
    (fixMatCode r).sheet_ref = r.sheet_ref := by
  simp only [fixMatCode]
  split
  · exact ⟨rfl, rfl, rfl, rfl, rfl, rfl, rfl, rfl, rfl⟩
  · split
    · exact ⟨rfl, rfl, rfl, rfl, rfl, rfl, rfl, rfl, rfl⟩
    · split <;> exact ⟨rfl, rfl, rfl, rfl, rfl, rfl, rfl, rfl, rfl⟩

theorem fixMaterial_fields (r : CRow) :
    (fixMaterial r).room = r.room ∧ (fixMaterial r).item_type = r.item_type ∧
    (fixMaterial r).description = r.description ∧
    (fixMaterial r).notes = r.notes ∧
    (fixMaterial r).height_mm = r.height_mm ∧
    (fixMaterial r).width_mm = r.width_mm ∧
    (fixMaterial r).depth_mm = r.depth_mm ∧
    (fixMaterial r).material_code = r.material_code ∧
    (fixMaterial r).sheet_ref = r.sheet_ref := by
  unfold fixMaterial
  split <;> exact ⟨rfl, rfl, rfl, rfl, rfl, rfl, rfl, rfl, rfl⟩

theorem fixSheetRef_fields (r : CRow) :
    (fixSheetRef r).room = r.room ∧ (fixSheetRef r).item_type = r.item_type ∧
    (fixSheetRef r).description = r.description ∧
    (fixSheetRef r).notes = r.notes ∧
    (fixSheetRef r).height_mm = r.height_mm ∧
    (fixSheetRef r).width_mm = r.width_mm ∧
    (fixSheetRef r).depth_mm = r.depth_mm ∧
    (fixSheetRef r).material = r.material ∧
    (fixSheetRef r).material_code = r.material_code := by
  simp only [fixSheetRef]
  split
  · exact ⟨rfl, rfl, rfl, rfl, rfl, rfl, rfl, rfl, rfl⟩
  · split
    · exact ⟨rfl, rfl, rfl, rfl, rfl, rfl, rfl, rfl, rfl⟩
    · split <;> exact ⟨rfl, rfl, rfl, rfl, rfl, rfl, rfl, rfl, rfl⟩

theorem fixDesc_fields (r : CRow) :
    (fixDesc r).room = r.room ∧ (fixDesc r).item_type = r.item_type ∧
    (fixDesc r).notes = r.notes ∧ (fixDesc r).confidence = r.confidence ∧
    (fixDesc r).height_mm = r.height_mm ∧ (fixDesc r).width_mm = r.width_mm ∧
    (fixDesc r).depth_mm = r.depth_mm ∧ (fixDesc r).material = r.material ∧
    (fixDesc r).material_code = r.material_code ∧
    (fixDesc r).sheet_ref = r.sheet_ref := by
  unfold fixDesc
  split <;> exact ⟨rfl, rfl, rfl, rfl, rfl, rfl, rfl, rfl, rfl, rfl⟩

/-- A confidence word is a non-empty string. -/
theorem isConfWord_ne_nil (s : List Char) (h : isConfWord s = true) :
    s.isEmpty = false := by
  cases s with
  | nil => simp [isConfWord, lowL] at h
  | cons c t => rfl

/-- After the confidence/notes swap, the swap trigger is dead. -/
theorem fixConfNotes_P3 (r : CRow) :
    (fixConfNotes r).notes.isEmpty = true ∨
    isConfWord (fixConfNotes r).notes = false ∨
    isConfWord (fixConfNotes r).confidence = true := by
  unfold fixConfNotes
  split
  · rename_i h
    exact Or.inr (Or.inr h.2.1)
  · rename_i h
    by_cases h1 : r.notes.isEmpty = true
    · exact Or.inl h1
    · by_cases h2 : isConfWord r.notes = true
      · by_cases h3 : isConfWord r.confidence = true
        · exact Or.inr (Or.inr h3)
        · exact absurd ⟨by simpa using h1, h2, by simpa using h3⟩ h
      · exact Or.inr (Or.inl (by simpa using h2))

/-- The material-code cleaner keeps a confident confidence field. -/
theorem fixMatCode_conf_keep (r : CRow) (h : isConfWord r.confidence = true) :
    (fixMatCode r).confidence = r.confidence := by
  simp only [fixMatCode]
  split
  · rfl
  · split
    · simp [isConfWord_ne_nil r.confidence h]
    · split <;> rfl

/-- The material cleaner keeps a confident confidence field. -/
theorem fixMaterial_conf_keep (r : CRow) (h : isConfWord r.confidence = true) :
    (fixMaterial r).confidence = r.confidence := by
  unfold fixMaterial
  split
  · simp [isConfWord_ne_nil r.confidence h]
  · rfl

/-- The sheet-ref cleaner keeps a confident confidence field. -/
theorem fixSheetRef_conf_keep (r : CRow) (h : isConfWord r.confidence = true) :
    (fixSheetRef r).confidence = r.confidence := by
  simp only [fixSheetRef]
  split
  · rfl
  · split
    · simp [isConfWord_ne_nil r.confidence h]
    · split <;> rfl

/-- The cleared-dimension state of `fixDimWords` output. -/
theorem fixDimWords_P4 (r : CRow) :
    dimWordV (fixDimWords r).width_mm = false ∧
    dimWordV (fixDimWords r).depth_mm = false ∧
    dimWordS (fixDimWords r).height_mm = false := by
  refine ⟨?_, ?_, ?_⟩
  · show dimWordV (if dimWordV r.width_mm then JVal.str [] else r.width_mm) = false
    split
    · rfl
    · rename_i h; simpa using h
  · show dimWordV (if dimWordV r.depth_mm then JVal.str [] else r.depth_mm) = false
    split
    · rfl
    · rename_i h; simpa using h
  · show dimWordS (if dimWordS r.height_mm then [] else r.height_mm) = false
    split
    · rfl
    · rename_i h; simpa using h

/-- `fixDimWords` is the identity on cleared rows. -/
theorem fixDimWords_id (r : CRow)
    (h1 : dimWordV r.width_mm = false) (h2 : dimWordV r.depth_mm = false)
    (h3 : dimWordS r.height_mm = false) : fixDimWords r = r := by
  unfold fixDimWords
  rw [if_neg (by simp [h1, h2, h3]), if_neg (by simp [h1, h2, h3]),
    if_neg (by simp [h1, h2, h3])]

/-- The dead-trigger state of `fixTall` output. -/
theorem fixTall_P5 (r : CRow) :
    (decide ((fixTall r).item_type = ("tall_cabinet").data) &&
      !(fixTall r).height_mm.isEmpty &&
      (match jsNumberQ (fixTall r).height_mm with
       | some h => decide (0 < h ∧ h ≤ 914)
       | none => false)) = false := by
  simp only [fixTall]
  split
  · simp
  · rename_i h
    simpa using h

/-- `fixTall` output item types. -/
theorem fixTall_item (r : CRow) :
    (fixTall r).item_type = r.item_type ∨
    (fixTall r).item_type = ("base_cabinet").data := by
  simp only [fixTall]
  split
  · exact Or.inr rfl
  · exact Or.inl rfl

/-- `fixTall` is the identity when its trigger is dead. -/
theorem fixTall_id (r : CRow)
    (h : (decide (r.item_type = ("tall_cabinet").data) &&
      !r.height_mm.isEmpty &&
      (match jsNumberQ r.height_mm with
       | some h => decide (0 < h ∧ h ≤ 914)
       | none => false)) = false) : fixTall r = r := by
  simp only [fixTall]
  rw [if_neg (by rw [h]; simp)]

/-- `fixConfNotes` is the identity when its trigger is dead. -/
theorem fixConfNotes_id (r : CRow)
    (h : r.notes.isEmpty = true ∨ isConfWord r.notes = false ∨
      isConfWord r.confidence = true) : fixConfNotes r = r := by
  unfold fixConfNotes
  rw [if_neg]
  rintro ⟨h1, h2, h3⟩
  rcases h with h | h | h
  · exact h1 h
  · rw [h2] at h
    exact absurd h (by simp)
  · exact h3 h

/-- The stable state of `fixMatCode` output. -/
theorem fixMatCode_P6 (r : CRow) :
    (fixMatCode r).material_code = [] ∨
    (isConfWord (trimL (fixMatCode r).material_code) = false ∧
      ¬ 25 < (trimL (fixMatCode r).material_code).length) := by
  simp only [fixMatCode]
  split
  · rename_i h
    left
    cases hx : r.material_code
    · rfl
    · rw [hx] at h; simp at h
  · split
    · exact Or.inl rfl
    · split
      · exact Or.inl rfl
      · rename_i h1 h2
        exact Or.inr ⟨by simpa using h1, h2⟩

/-- `fixMatCode` is the identity on its stable states. -/
theorem fixMatCode_id (r : CRow)
    (h : r.material_code = [] ∨
      (isConfWord (trimL r.material_code) = false ∧
        ¬ 25 < (trimL r.material_code).length)) : fixMatCode r = r := by
  simp only [fixMatCode]
  rcases h with h | ⟨h1, h2⟩
  · rw [if_pos (by rw [h]; rfl)]
  · by_cases he : r.material_code.isEmpty = true
    · rw [if_pos he]
    · rw [if_neg he, if_neg (by simp [h1]), if_neg h2]

/-- The stable state of `fixMaterial` output. -/
theorem fixMaterial_P7 (r : CRow) :
    (!(fixMaterial r).material.isEmpty &&
      isConfWord (trimL (fixMaterial r).material)) = false := by
  unfold fixMaterial
  split
  · rfl
  · rename_i h
    simpa using h

/-- `fixMaterial` is the identity when its trigger is dead. -/
theorem fixMaterial_id (r : CRow)
    (h : (!r.material.isEmpty && isConfWord (trimL r.material)) = false) :
    fixMaterial r = r := by
  unfold fixMaterial
  rw [if_neg (by simp [h])]

/-- The sheet-ref cleaner is dead on any row whose sheet-ref field came
out of a previous pass. -/
theorem fixSheetRef_away (x r' : CRow)
    (hsr : r'.sheet_ref = (fixSheetRef x).sheet_ref) : fixSheetRef r' = r' := by
  simp only [fixSheetRef] at hsr ⊢
  split at hsr
  · rename_i hE
    rw [if_pos (by rw [hsr]; exact hE)]
  · split at hsr
    · rw [if_pos (by rw [hsr]; rfl)]
    · split at hsr
      · rw [if_pos (by rw [hsr]; rfl)]
      · rename_i hE hC hD
        by_cases hE' : r'.sheet_ref.isEmpty = true
        · rw [if_pos hE']
        · rw [if_neg hE', hsr, if_neg hC, if_neg (by simpa using hD)]

/-- One cleanup pass is stable on rows whose item type is empty or
already valid and whose room field is not a unit token. -/
theorem cleanupRow_stable (r : CRow)
    (hroom : unitRoomTest r.room = false)
    (hitem : (trimL r.item_type).isEmpty = true ∨
      isValidItemType (trimL r.item_type) = true) :
    cleanupRow (cleanupRow r) = cleanupRow r := by
  have hshift : fixShift r = r := fixShift_id r hitem
  obtain ⟨hc1, hc2, hc3, hc4, hc5, hc6, hc7, hc8, hc9⟩ :=
    fixConfNotes_fields r
  obtain ⟨hd1, hd2, hd3, hd4, hd5, hd6, hd7, hd8⟩ :=
    fixDimWords_fields (fixConfNotes r)
  obtain ⟨ht1, ht2, ht3, ht4, ht5, ht6, ht7, ht8, ht9, ht10⟩ :=
    fixTall_fields (fixDimWords (fixConfNotes r))
  obtain ⟨hm1, hm2, hm3, hm4, hm5, hm6, hm7, hm8, hm9⟩ :=
    fixMatCode_fields (fixTall (fixDimWords (fixConfNotes r)))
  obtain ⟨hn1, hn2, hn3, hn4, hn5, hn6, hn7, hn8, hn9⟩ :=
    fixMaterial_fields (fixMatCode (fixTall (fixDimWords (fixConfNotes r))))
  obtain ⟨hs1, hs2, hs3, hs4, hs5, hs6, hs7, hs8, hs9⟩ :=
    fixSheetRef_fields
      (fixMaterial (fixMatCode (fixTall (fixDimWords (fixConfNotes r)))))
  obtain ⟨hf1, hf2, hf3, hf4, hf5, hf6, hf7, hf8, hf9, hf10⟩ :=
    fixDesc_fields (fixSheetRef
      (fixMaterial (fixMatCode (fixTall (fixDimWords (fixConfNotes r))))))
  have hpass : cleanupRow r =
      fixDesc (fixSheetRef (fixMaterial (fixMatCode (fixTall (fixDimWords
        (fixConfNotes r)))))) := by
    unfold cleanupRow
    rw [if_neg (by simp [hroom]), hshift]
  rw [hpass]
  set r' := fixDesc (fixSheetRef (fixMaterial (fixMatCode (fixTall (fixDimWords
    (fixConfNotes r)))))) with hr'
  have hroom' : r'.room = r.room := by
    rw [hr', hf1, hs1, hn1, hm1, ht1, hd1, hc1]
  have hitemEq : r'.item_type =
      (fixTall (fixDimWords (fixConfNotes r))).item_type := by
    rw [hr', hf2, hs2, hn2, hm2]
  have hitem' : (trimL r'.item_type).isEmpty = true ∨
      isValidItemType (trimL r'.item_type) = true := by
    rw [hitemEq]
    rcases fixTall_item (fixDimWords (fixConfNotes r)) with h | h
    · rw [h, hd2, hc2]
      exact hitem
    · rw [h]
      right
      decide
  have hheightEq : r'.height_mm =
      (fixDimWords (fixConfNotes r)).height_mm := by
    rw [hr', hf5, hs5, hn5, hm5, ht5]
  have hnotesEq : r'.notes = (fixConfNotes r).notes := by
    rw [hr', hf3, hs4, hn4, hm4, ht3, hd4]
  unfold cleanupRow
  rw [if_neg (by rw [hroom']; simp [hroom])]
  rw [fixShift_id r' hitem']
  have hcn : fixConfNotes r' = r' := by
    apply fixConfNotes_id
    rcases fixConfNotes_P3 r with h | h | h
    · left
      rw [hnotesEq]
      exact h
    · right; left
      rw [hnotesEq]
      exact h
    · right; right
      have hconfEq : r'.confidence = (fixConfNotes r).confidence := by
        have k2 : (fixDimWords (fixConfNotes r)).confidence =
            (fixConfNotes r).confidence := hd5
        have k3 : (fixTall (fixDimWords (fixConfNotes r))).confidence =
            (fixConfNotes r).confidence := by rw [ht4, k2]
        have k4 : (fixMatCode (fixTall (fixDimWords
            (fixConfNotes r)))).confidence = (fixConfNotes r).confidence := by
          rw [fixMatCode_conf_keep _ (by rw [k3]; exact h), k3]
        have k5 : (fixMaterial (fixMatCode (fixTall (fixDimWords
            (fixConfNotes r))))).confidence = (fixConfNotes r).confidence := by
          rw [fixMaterial_conf_keep _ (by rw [k4]; exact h), k4]
        have k6 : (fixSheetRef (fixMaterial (fixMatCode (fixTall (fixDimWords
            (fixConfNotes r)))))).confidence = (fixConfNotes r).confidence := by
          rw [fixSheetRef_conf_keep _ (by rw [k5]; exact h), k5]
        rw [hr', hf4, k6]
      rw [hconfEq]
      exact h
  rw [hcn]
  have hdw : fixDimWords r' = r' := by
    apply fixDimWords_id
    · rw [show r'.width_mm = (fixDimWords (fixConfNotes r)).width_mm by
        rw [hr', hf6, hs6, hn6, hm6, ht6]]
      exact (fixDimWords_P4 (fixConfNotes r)).1
    · rw [show r'.depth_mm = (fixDimWords (fixConfNotes r)).depth_mm by
        rw [hr', hf7, hs7, hn7, hm7, ht7]]
      exact (fixDimWords_P4 (fixConfNotes r)).2.1
    · rw [hheightEq]
      exact (fixDimWords_P4 (fixConfNotes r)).2.2
  rw [hdw]
  have htl : fixTall r' = r' := by
    apply fixTall_id
    rw [hitemEq, show r'.height_mm =
      (fixTall (fixDimWords (fixConfNotes r))).height_mm by rw [hheightEq, ht5]]
    exact fixTall_P5 (fixDimWords (fixConfNotes r))
  rw [htl]
  have hmc : fixMatCode r' = r' := by
    apply fixMatCode_id
    rw [show r'.material_code =
      (fixMatCode (fixTall (fixDimWords (fixConfNotes r)))).material_code by
        rw [hr', hf9, hs9, hn8]]
    exact fixMatCode_P6 (fixTall (fixDimWords (fixConfNotes r)))
  rw [hmc]
  have hmt : fixMaterial r' = r' := by
    apply fixMaterial_id
    rw [show r'.material =
      (fixMaterial (fixMatCode (fixTall (fixDimWords
        (fixConfNotes r))))).material by rw [hr', hf8, hs8]]
    exact fixMaterial_P7 (fixMatCode (fixTall (fixDimWords (fixConfNotes r))))
  rw [hmt]
  have hsr : fixSheetRef r' = r' := by
    apply fixSheetRef_away
      (fixMaterial (fixMatCode (fixTall (fixDimWords (fixConfNotes r)))))
    rw [hr', hf10]
  rw [hsr]
  rw [hr']
  exact fixDesc_idem _

/-- C4 support: the row cleanup is idempotent on rows whose item type
is empty or already valid and whose room field is not a unit token. -/
theorem cleanupRows_idem_of (rows : List CRow)
    (h : ∀ r ∈ rows, unitRoomTest r.room = false ∧
      ((trimL r.item_type).isEmpty = true ∨
        isValidItemType (trimL r.item_type) = true)) :
    cleanupRows (cleanupRows rows) = cleanupRows rows := by
  unfold cleanupRows
  have hmap : ((rows.map cleanupRow).filter cleanupKeep).map cleanupRow =
      (rows.map cleanupRow).filter cleanupKeep := by
    conv_rhs => rw [← List.map_id ((rows.map cleanupRow).filter cleanupKeep)]
    apply List.map_congr_left
    intro x hx
    have hx2 : x ∈ rows.map cleanupRow := List.mem_of_mem_filter hx
    rcases List.mem_map.mp hx2 with ⟨r, hr, hxr⟩
    rw [← hxr]
    exact cleanupRow_stable r (h r hr).1 (h r hr).2
  rw [hmap]
  rw [List.filter_eq_self.mpr (fun a ha => List.of_mem_filter ha)]

/-- C4, amended: the output repairs are idempotent only on restricted
inputs.  `sanitizeToon` is idempotent on documents whose lines each
split into at most the declared column count (Fix 1 outputs can
re-trigger Fix 2 on a second pass, as the counterexample shows), and
`cleanupRows` is idempotent on rows whose trimmed item type is empty or
already a valid item type and whose room field is not a unit token
(Pattern B rewrites can re-trigger keyword inference on a second pass). -/
theorem c4_amended_restricted_idempotence (toon : List Char) (rows : List CRow)
    (htoon : ∀ l ∈ splitOnC '\n' toon,
      (splitOnC ';' l).length ≤ expectedColsV14)
    (hrows : ∀ r ∈ rows, unitRoomTest r.room = false ∧
      ((trimL r.item_type).isEmpty = true ∨
        isValidItemType (trimL r.item_type) = true)) :
    sanitizeToon (sanitizeToon toon) = sanitizeToon toon ∧
    cleanupRows (cleanupRows rows) = cleanupRows rows :=
  ⟨sanitizeToon_idem_of toon htoon, cleanupRows_idem_of rows hrows⟩

/-- C4, witness for the amended idempotence on a short document and a
valid-typed row. -/
theorem c4_amended_restricted_idempotence_witness :
    sanitizeToon (sanitizeToon (("a;b;x,1,2,EA,3,4;d\nrow2;y;z").data)) =
      sanitizeToon (("a;b;x,1,2,EA,3,4;d\nrow2;y;z").data) ∧
    cleanupRows (cleanupRows
      [⟨("base_cabinet").data, ("Lobby").data, ("desk; unit,,2").data, [],
        ("EA").data, ("900").data, [], ("high").data, [], [], [],
        JVal.str [('2')], JVal.str [], JVal.str [], false⟩]) =
      cleanupRows
      [⟨("base_cabinet").data, ("Lobby").data, ("desk; unit,,2").data, [],
        ("EA").data, ("900").data, [], ("high").data, [], [], [],
        JVal.str [('2')], JVal.str [], JVal.str [], false⟩] :=
  c4_amended_restricted_idempotence (("a;b;x,1,2,EA,3,4;d\nrow2;y;z").data)
    [⟨("base_cabinet").data, ("Lobby").data, ("desk; unit,,2").data, [],
      ("EA").data, ("900").data, [], ("high").data, [], [], [],
      JVal.str [('2')], JVal.str [], JVal.str [], false⟩]
    (by decide) (by decide)

/-- Membership in the room map after one push. -/
theorem mapPush_mem (m : List (List Char × List Nat)) (name : List Char)
    (pn : Nat) (d : Bool) (nm : List Char) (q : Nat) :
    (∃ e ∈ mapPush m name pn d, e.1 = nm ∧ q ∈ e.2) ↔
      (∃ e ∈ m, e.1 = nm ∧ q ∈ e.2) ∨ (nm = name ∧ q = pn) := by
  induction m with
  | nil =>
    simp only [mapPush]
    constructor
    · rintro ⟨e, he, h1, h2⟩
      simp at he
      subst he
      simp at h2
      exact Or.inr ⟨h1.symm, h2⟩
    · rintro (⟨e, he, _, _⟩ | ⟨h1, h2⟩)
      · simp at he
      · exact ⟨(name, [pn]), by simp, h1.symm, by simp [h2]⟩
  | cons e t ih =>
    by_cases hname : e.1 = name
    · rw [show mapPush (e :: t) name pn d =
        (e.1, if d && e.2.contains pn then e.2 else e.2 ++ [pn]) :: t by
          rw [mapPush, if_pos hname]]
      constructor
      · rintro ⟨f, hf, h1, h2⟩
        rcases List.mem_cons.mp hf with h3 | h3
        · subst h3
          simp only at h1 h2
          by_cases hdc : (d && e.2.contains pn) = true
          · rw [if_pos hdc] at h2
            exact Or.inl ⟨e, by simp, h1, h2⟩
          · rw [if_neg hdc] at h2
            rcases List.mem_append.mp h2 with h4 | h4
            · exact Or.inl ⟨e, by simp, h1, h4⟩
            · simp at h4
              exact Or.inr ⟨h1 ▸ hname, h4⟩
        · exact Or.inl ⟨f, by simp [h3], h1, h2⟩
      · rintro (⟨f, hf, h1, h2⟩ | ⟨h1, h2⟩)
        · rcases List.mem_cons.mp hf with h3 | h3
          · subst h3
            refine ⟨(f.1, if d && f.2.contains pn then f.2 else f.2 ++ [pn]),
              by simp, h1, ?_⟩
            split
            · exact h2
            · simp [h2]
          · exact ⟨f, by simp [h3], h1, h2⟩
        · refine ⟨(e.1, if d && e.2.contains pn then e.2 else e.2 ++ [pn]),
            by simp, by rw [hname, h1], ?_⟩
          by_cases hdc : (d && e.2.contains pn) = true
          · rw [if_pos hdc]
            rw [Bool.and_eq_true] at hdc
            have hmem2 : pn ∈ e.2 := List.elem_iff.mp hdc.2
            simpa [h2] using hmem2
          · rw [if_neg hdc]
            simp [h2]
    · rw [show mapPush (e :: t) name pn d = e :: mapPush t name pn d by
        rw [mapPush, if_neg hname]]
      constructor
      · rintro ⟨f, hf, h1, h2⟩
        rcases List.mem_cons.mp hf with h3 | h3
        · exact Or.inl ⟨f, by simp [h3], h1, h2⟩
        · rcases ih.mp ⟨f, h3, h1, h2⟩ with h4 | h4
          · rcases h4 with ⟨g, hg, hg1, hg2⟩
            exact Or.inl ⟨g, by simp [hg], hg1, hg2⟩
          · exact Or.inr h4
      · rintro (⟨f, hf, h1, h2⟩ | ⟨h1, h2⟩)
        · rcases List.mem_cons.mp hf with h3 | h3
          · exact ⟨f, by simp [h3], h1, h2⟩
          · rcases ih.mpr (Or.inl ⟨f, h3, h1, h2⟩) with ⟨g, hg, hg1, hg2⟩
            exact ⟨g, by simp [hg], hg1, hg2⟩
        · rcases ih.mpr (Or.inr ⟨h1, h2⟩) with ⟨g, hg, hg1, hg2⟩
          exact ⟨g, by simp [hg], hg1, hg2⟩

/-- The key list after one push. -/
theorem mapPush_keys (m : List (List Char × List Nat)) (name : List Char)
    (pn : Nat) (d : Bool) :
    (mapPush m name pn d).map Prod.fst =
      if name ∈ m.map Prod.fst then m.map Prod.fst
      else m.map Prod.fst ++ [name] := by
  induction m with
  | nil => simp [mapPush]
  | cons e t ih =>
    by_cases hname : e.1 = name
    · rw [show mapPush (e :: t) name pn d =
        (e.1, if d && e.2.contains pn then e.2 else e.2 ++ [pn]) :: t by
          rw [mapPush, if_pos hname]]
      have hin : name ∈ List.map Prod.fst (e :: t) := by rw [← hname]; simp
      rw [if_pos hin]
      simp
    · rw [show mapPush (e :: t) name pn d = e :: mapPush t name pn d by
        rw [mapPush, if_neg hname]]
      by_cases hmem : name ∈ t.map Prod.fst
      · rw [if_pos (by simp [hmem])]
        simp [ih, hmem]
      · rw [if_neg (by simp [hmem]; intro h; exact hname h.symm)]
        simp [ih, hmem]

/-- Pushing `pn` under every room of a list, as the multi-detail branch
does, adds exactly the pairs (room, pn). -/
theorem foldl_push_mem (rooms : List (List Char)) (m : List (List Char × List Nat))
    (pn : Nat) (nm : List Char) (q : Nat) :
    (∃ e ∈ rooms.foldl (fun mm r => mapPush mm r pn true) m, e.1 = nm ∧ q ∈ e.2) ↔
      (∃ e ∈ m, e.1 = nm ∧ q ∈ e.2) ∨ (nm ∈ rooms ∧ q = pn) := by
  induction rooms generalizing m with
  | nil => simp
  | cons r rs ih =>
    simp only [List.foldl_cons]
    rw [ih, mapPush_mem]
    constructor
    · rintro ((h | ⟨h1, h2⟩) | ⟨h1, h2⟩)
      · exact Or.inl h
      · exact Or.inr ⟨by simp [h1], h2⟩
      · exact Or.inr ⟨by simp [h1], h2⟩
    · rintro (h | ⟨h1, h2⟩)
      · exact Or.inl (Or.inl h)
      · rcases List.mem_cons.mp h1 with h3 | h3
        · exact Or.inl (Or.inr ⟨h3, h2⟩)
        · exact Or.inr ⟨h3, h2⟩

/-- One push keeps the room keys duplicate-free. -/
theorem mapPush_keys_nodup (m : List (List Char × List Nat)) (name : List Char)
    (pn : Nat) (d : Bool) (h : (m.map Prod.fst).Nodup) :
    ((mapPush m name pn d).map Prod.fst).Nodup := by
  rw [mapPush_keys]
  split
  · exact h
  · rename_i hnot
    exact ((List.perm_append_singleton name (m.map Prod.fst)).nodup_iff).mpr
      (List.nodup_cons.mpr ⟨hnot, h⟩)

/-- The multi-detail fold keeps the room keys duplicate-free. -/
theorem foldl_push_keys_nodup (rooms : List (List Char))
    (m : List (List Char × List Nat)) (pn : Nat)
    (h : (m.map Prod.fst).Nodup) :
    (((rooms.foldl (fun mm r => mapPush mm r pn true) m)).map Prod.fst).Nodup := by
  induction rooms generalizing m with
  | nil => exact h
  | cons r rs ih => exact ih _ (mapPush_keys_nodup _ _ _ _ h)

/-- One loop iteration adds exactly the pairs (room, pageNum) for the
rooms the page is assigned to. -/
theorem groupStep_mem (m : List (List Char × List Nat)) (p : PageText)
    (nm : List Char) (q : Nat) :
    (∃ e ∈ groupStep m p, e.1 = nm ∧ q ∈ e.2) ↔
      (∃ e ∈ m, e.1 = nm ∧ q ∈ e.2) ∨ (nm ∈ roomsOf p ∧ q = p.pageNum) := by
  simp only [groupStep, roomsOf]
  by_cases hmr : multiRooms p = []
  · rw [if_pos (by simp [hmr]), if_pos hmr, mapPush_mem]
    simp
  · rw [if_neg (by simpa using hmr), if_neg hmr]
    exact foldl_push_mem _ _ _ _ _

/-- One loop iteration keeps the room keys duplicate-free. -/
theorem groupStep_keys_nodup (m : List (List Char × List Nat)) (p : PageText)
    (h : (m.map Prod.fst).Nodup) :
    ((groupStep m p).map Prod.fst).Nodup := by
  simp only [groupStep]
  split
  · exact mapPush_keys_nodup _ _ _ _ h
  · exact foldl_push_keys_nodup _ _ _ h

/-- The whole grouping loop: a page number sits under a room name iff
some page with that number is assigned to that room. -/
theorem foldl_groupStep_mem (ps : List PageText) (m : List (List Char × List Nat))
    (nm : List Char) (q : Nat) :
    (∃ e ∈ ps.foldl groupStep m, e.1 = nm ∧ q ∈ e.2) ↔
      (∃ e ∈ m, e.1 = nm ∧ q ∈ e.2) ∨ ∃ p ∈ ps, nm ∈ roomsOf p ∧ q = p.pageNum := by
  induction ps generalizing m with
  | nil => simp
  | cons p ps ih =>
    simp only [List.foldl_cons]
    rw [ih, groupStep_mem]
    constructor
    · rintro ((h | h) | h)
      · exact Or.inl h
      · exact Or.inr ⟨p, by simp, h⟩
      · rcases h with ⟨p2, hp2, h2⟩
        exact Or.inr ⟨p2, by simp [hp2], h2⟩
    · rintro (h | ⟨p2, hp2, h2⟩)
      · exact Or.inl (Or.inl h)
      · rcases List.mem_cons.mp hp2 with h3 | h3
        · subst h3
          exact Or.inl (Or.inr h2)
        · exact Or.inr ⟨p2, h3, h2⟩

/-- The whole grouping loop keeps the room keys duplicate-free. -/
theorem foldl_groupStep_keys_nodup (ps : List PageText)
    (m : List (List Char × List Nat)) (h : (m.map Prod.fst).Nodup) :
    ((ps.foldl groupStep m).map Prod.fst).Nodup := by
  induction ps generalizing m with
  | nil => exact h
  | cons p ps ih => exact ih _ (groupStep_keys_nodup _ _ h)

/-- A member of a list appears in its enumeration. -/
theorem mem_enum_of_mem {α : Type} (l : List α) (e : α) (h : e ∈ l) :
    ∃ i, (i, e) ∈ l.enum := by
  obtain ⟨i, hlt, hget⟩ := List.mem_iff_getElem.mp h
  refine ⟨i, ?_⟩
  have hlen : i < l.enum.length := by simpa using hlt
  have hoe : l.enum[i] = (i, e) := by
    rw [List.getElem_enum, hget]
  rw [← hoe]
  exact List.getElem_mem hlen

/-- A member of the enumeration comes from the list. -/
theorem mem_of_mem_enum {α : Type} (l : List α) (ie : Nat × α)
    (h : ie ∈ l.enum) : ie.2 ∈ l := by
  have h2 := List.mem_map_of_mem Prod.snd h
  rwa [List.enum_map_snd] at h2

/-- The group names of `groupPagesByRoom` are the keys of the room map. -/
theorem groupPages_names (pages : List PageText) :
    (groupPagesByRoom pages).map RoomInfo.roomName =
      (pages.foldl groupStep []).map Prod.fst := by
  unfold groupPagesByRoom
  rw [List.map_map]
  have h : (RoomInfo.roomName ∘ fun e : Nat × (List Char × List Nat) =>
      (⟨e.2.1, ("ROOM-").data ++ padThree (e.1 + 1), e.2.2⟩ : RoomInfo)) =
      Prod.fst ∘ Prod.snd := rfl
  rw [h, ← List.map_map, List.enum_map_snd]

/-- The rooms a page is assigned to form a nonempty list. -/
theorem roomsOf_ne_nil (p : PageText) : roomsOf p ≠ [] := by
  simp only [roomsOf]
  split
  · simp
  · assumption

/-- C7, amended: under pairwise-distinct page numbers, the group names
of `groupPagesByRoom` are duplicate-free and every page's number lies in
a group exactly when the group's room is one of the page's assigned
rooms (`roomsOf`): the single best-scoring room — `"Unclassified"` when
nothing matches — unless the multi-detail branch fires, i.e. the page
has at least 3 detail headings AND at least one heading OR SHEET
REFERENCE matches a room pattern, in which case the page belongs to
exactly the matched rooms; each assigned room really has a group.  The
claim's trigger (a heading must match) is wrong: sheet-reference
matches alone also fire the exception. -/
theorem c7_amended_partition (pages : List PageText)
    (hnodup : (pages.map PageText.pageNum).Nodup) :
    ((groupPagesByRoom pages).map RoomInfo.roomName).Nodup ∧
    ∀ p ∈ pages,
      (∀ g ∈ groupPagesByRoom pages,
        (p.pageNum ∈ g.pageNums ↔ g.roomName ∈ roomsOf p)) ∧
      ∀ nm ∈ roomsOf p, ∃ g ∈ groupPagesByRoom pages, g.roomName = nm := by
  have hkeys : (((pages.foldl groupStep []).map Prod.fst)).Nodup :=
    foldl_groupStep_keys_nodup pages [] (by simp)
  have hmm : ∀ nm q,
      (∃ e ∈ pages.foldl groupStep [], e.1 = nm ∧ q ∈ e.2) ↔
        ∃ p2 ∈ pages, nm ∈ roomsOf p2 ∧ q = p2.pageNum := by
    intro nm q
    rw [foldl_groupStep_mem]
    simp
  refine ⟨by rw [groupPages_names]; exact hkeys, ?_⟩
  intro p hp
  constructor
  · intro g hg
    unfold groupPagesByRoom at hg
    rw [List.mem_map] at hg
    obtain ⟨ie, hie, hge⟩ := hg
    subst hge
    have he2 : ie.2 ∈ pages.foldl groupStep [] :=
      mem_of_mem_enum (pages.foldl groupStep []) ie hie
    constructor
    · intro hq
      obtain ⟨p2, hp2, hroom, hpn⟩ :=
        (hmm ie.2.1 p.pageNum).mp ⟨ie.2, he2, rfl, hq⟩
      have hpp : p2 = p :=
        List.inj_on_of_nodup_map hnodup hp2 hp hpn.symm
      rw [← hpp]
      exact hroom
    · intro hroom
      obtain ⟨e, heM, hek, heq⟩ :=
        (hmm ie.2.1 p.pageNum).mpr ⟨p, hp, hroom, rfl⟩
      have hee : e = ie.2 := List.inj_on_of_nodup_map hkeys heM he2 hek
      rw [hee] at heq
      exact heq
  · intro nm hnm
    obtain ⟨e, heM, hek, heq⟩ :=
      (hmm nm p.pageNum).mpr ⟨p, hp, hnm, rfl⟩
    obtain ⟨i, hi⟩ := mem_enum_of_mem (pages.foldl groupStep []) e heM
    refine ⟨⟨e.1, ("ROOM-").data ++ padThree (i + 1), e.2⟩, ?_, hek⟩
    unfold groupPagesByRoom
    rw [List.mem_map]
    exact ⟨(i, e), hi, rfl⟩

/-- C7 witness: the amended partition at a concrete two-page input with
distinct page numbers. -/
theorem c7_amended_partition_witness :
    (([⟨1, ("RECEPTION AREA PLAN").data⟩,
       ⟨2, ("SPARE").data⟩] : List PageText).map PageText.pageNum).Nodup ∧
    (((groupPagesByRoom [⟨1, ("RECEPTION AREA PLAN").data⟩,
        ⟨2, ("SPARE").data⟩]).map RoomInfo.roomName).Nodup ∧
     ∀ p ∈ ([⟨1, ("RECEPTION AREA PLAN").data⟩,
        ⟨2, ("SPARE").data⟩] : List PageText),
       (∀ g ∈ groupPagesByRoom [⟨1, ("RECEPTION AREA PLAN").data⟩,
          ⟨2, ("SPARE").data⟩],
         (p.pageNum ∈ g.pageNums ↔ g.roomName ∈ roomsOf p)) ∧
       ∀ nm ∈ roomsOf p, ∃ g ∈ groupPagesByRoom [⟨1, ("RECEPTION AREA PLAN").data⟩,
          ⟨2, ("SPARE").data⟩], g.roomName = nm) :=
  ⟨by decide,
   c7_amended_partition
     [⟨1, ("RECEPTION AREA PLAN").data⟩, ⟨2, ("SPARE").data⟩] (by decide)⟩
